import Mathlib

/-!
# Noofbiz/ecs: the World of an entity-component-system

A shallow embedding of `world.go`: the world owns a priority-sorted list of
systems, a master list of entities, two pending queues and, per system type,
the list of entities that system is run on.  `AddSystem`, `AddEntity`,
`RemoveEntity`, `updateEntSys` and `Update` are state transformers on `World`.
-/

namespace Ecs

/-! ## Data model -/

/-- An entity handle behind the Go interface `Identifier`.  The world reads
only `ID()`; `comps` stands for everything else the handle carries (its
dynamic type and component pointers), which only a `ComponentFilter` looks at.
Two handles may share an `ID` (the tests remove an entity through a copy of its
`BasicEntity`). -/
structure Identifier where
  ID : Nat
  comps : Nat
deriving DecidableEq, Repr

/-- A value behind the Go interface `System`.  `typ` is `reflect.TypeOf(system)`,
the key of the membership map; `Priority` and `ComponentFilter` are its methods.
`ComponentFilter` is a function of the handle, as the filters of the tests are. -/
structure System where
  typ : Nat
  Priority : Int
  ComponentFilter : Identifier → Bool

/-- The struct `World` of world.go.  `sysEntities` is the map
`map[reflect.Type][]Identifier`; a key that is absent (and the nil map of the
zero value) reads as the empty list, and both functions that write to the map
allocate it first, so the map is held as a total function. -/
structure World where
  systems : List System
  entities : List Identifier
  newSystems : List System
  newEntities : List Identifier
  sysEntities : Nat → List Identifier

/-- The zero value `&World{}` the tests start from. -/
def emptyWorld : World :=
  { systems := [], entities := [], newSystems := [], newEntities := [],
    sysEntities := fun _ => [] }

/-! ## Sorting the systems -/

/-- Modelled from the spec: `Less` of the sortable slice type `systems`, which
is declared outside world.go.  The spec orders systems "by priority ascending". -/
def systemsLess (a b : System) : Bool :=
  decide (a.Priority < b.Priority)

/-- The first half of what the library function `sort.Sort` promises, for a
function `sortFn` standing for it on the slice type `systems`: the result is a
rearrangement of the argument. -/
def Rearranges (sortFn : List System → List System) : Prop :=
  ∀ l, (sortFn l).Perm l

/-- The second half: the result is in the order `Less` determines, no system
being `Less` than one that stands before it.  Nothing is promised about systems
neither of which is `Less` than the other: the library documents that the sort
"is not guaranteed to be stable". -/
def SortsByLess (sortFn : List System → List System) : Prop :=
  ∀ l, (sortFn l).Pairwise (fun a b => systemsLess b a = false)

/-- One insertion of `sortSystems`: `s` goes in front of the first system that
is not `systemsLess` than it. -/
def orderedInsertSystem (s : System) : List System → List System
  | [] => [s]
  | x :: xs => if systemsLess x s then x :: orderedInsertSystem s xs else s :: x :: xs

/-- A function that meets both halves: an insertion sort that leaves systems
of equal priority in the order they had.  The instances of what holds for
every such function are taken at it. -/
def sortSystems : List System → List System
  | [] => []
  | x :: xs => orderedInsertSystem x (sortSystems xs)

/-! ## The library function `sort.Sort`

`AddSystem` hands `w.systems` to `sort.Sort` of Go's standard library.  What
follows is that function as Go 1.19 brought it in (sort.go and
zsortinterface.go: pattern-defeating quicksort), on the slice type `systems`:
`data.Len()` is the length of the list, `data.Less(i, j)` is `lessAt` and
`data.Swap(i, j)` is `swapAt`.  A loop with a known number of rounds is a
recursion on that number, any other loop a recursion on a bound of its rounds.
The method `Next` of the generator `xorshift`, which only picks the systems
`breakPatterns` swaps, is the parameter `next`: what is proved holds whatever
words it returns.  `goSort next` at the end is `sort.Sort`; it meets both halves
of the contract above (`rearranges_goSort`, `sortsByLess_goSort`), so that what
is proved for every such `sortFn` holds of the code. -/

/-- The method `Swap` of `systems`: `s[i], s[j] = s[j], s[i]`. -/
def swapAt (data : List System) (i j : Nat) : List System :=
  match data[i]?, data[j]? with
  | some x, some y => (data.set i y).set j x
  | _, _ => data

/-- The method `Less` of `systems` at two indices of the slice. -/
def lessAt (data : List System) (i j : Nat) : Bool :=
  match data[i]?, data[j]? with
  | some x, some y => systemsLess x y
  | _, _ => false

/-- The inner loop of `insertionSort`,
`for j := i; j > a && data.Less(j, j-1); j-- { data.Swap(j, j-1) }`,
from the index `j`. -/
def insertionSortInner (a : Nat) : Nat → List System → List System
  | 0, data => data
  | j + 1, data =>
    if decide (a < j + 1) && lessAt data (j + 1) j then
      insertionSortInner a j (swapAt data (j + 1) j)
    else data

/-- The outer loop of `insertionSort`, `for i := a + 1; i < b; i++`, with `n`
rounds to go from the index `i`. -/
def insertionSortLoop (a : Nat) : Nat → Nat → List System → List System
  | 0, _, data => data
  | n + 1, i, data => insertionSortLoop a n (i + 1) (insertionSortInner a i data)

/-- The function `insertionSort`: sorts `data[a:b]`. -/
def insertionSort (data : List System) (a b : Nat) : List System :=
  insertionSortLoop a (b - (a + 1)) (a + 1) data

/-- The function `siftDown`, its loop from the node `root` with at most `fuel`
rounds. -/
def siftDown (hi first : Nat) : Nat → Nat → List System → List System
  | 0, _, data => data
  | fuel + 1, root, data =>
    if hi ≤ 2 * root + 1 then data
    else
      let child :=
        if decide (2 * root + 1 + 1 < hi)
            && lessAt data (first + (2 * root + 1)) (first + (2 * root + 1) + 1) then
          2 * root + 1 + 1
        else 2 * root + 1
      if !lessAt data (first + root) (first + child) then data
      else siftDown hi first fuel child (swapAt data (first + root) (first + child))

/-- The first loop of `heapSort`, `for i := (hi - 1) / 2; i >= 0; i--`, from
the index `i` down to 0. -/
def heapBuild (hi first : Nat) : Nat → List System → List System
  | 0, data => siftDown hi first hi 0 data
  | i + 1, data => heapBuild hi first i (siftDown hi first hi (i + 1) data)

/-- The second loop of `heapSort`, `for i := hi - 1; i >= 0; i--`, with `n`
rounds to go, the next one at the index `n - 1`. -/
def heapPop (first : Nat) : Nat → List System → List System
  | 0, data => data
  | i + 1, data => heapPop first i (siftDown i first i 0 (swapAt data first (first + i)))

/-- The function `heapSort`: sorts `data[a:b]`. -/
def heapSort (data : List System) (a b : Nat) : List System :=
  heapPop a (b - a) (heapBuild (b - a) a ((b - a - 1) / 2) data)

/-- The loop `for i <= j && data.Less(i, a) { i++ }` of `partition`: the index
it ends at. -/
def skipLess (data : List System) (a j : Nat) : Nat → Nat → Nat
  | 0, i => i
  | fuel + 1, i =>
    if decide (i ≤ j) && lessAt data i a then skipLess data a j fuel (i + 1) else i

/-- The loop `for i <= j && !data.Less(j, a) { j-- }` of `partition`: the index
it ends at. -/
def skipNotLess (data : List System) (a i : Nat) : Nat → Nat
  | 0 => 0
  | j + 1 =>
    if decide (i ≤ j + 1) && !lessAt data (j + 1) a then skipNotLess data a i j else j + 1

/-- The endless loop of `partition`, up to its `break`: the slice and the two
indices it is left with. -/
def partitionLoop (a : Nat) : Nat → List System → Nat → Nat → List System × Nat × Nat
  | 0, data, i, j => (data, i, j)
  | fuel + 1, data, i, j =>
    let i1 := skipLess data a j (j + 1 - i) i
    let j1 := skipNotLess data a i1 j
    if j1 < i1 then (data, i1, j1)
    else partitionLoop a fuel (swapAt data i1 j1) (i1 + 1) (j1 - 1)

/-- The function `partition`: one partition of `data[a:b]` around `data[pivot]`;
the slice, the new index of the pivot, and whether the slice was partitioned
already. -/
def partition (data : List System) (a b pivot : Nat) : List System × Nat × Bool :=
  let data1 := swapAt data a pivot
  let i := skipLess data1 a (b - 1) (b - (a + 1)) (a + 1)
  let j := skipNotLess data1 a i (b - 1)
  if j < i then (swapAt data1 j a, j, true)
  else
    let r := partitionLoop a (b - a) (swapAt data1 i j) (i + 1) (j - 1)
    (swapAt r.1 r.2.2 a, r.2.2, false)

/-- The loop `for i <= j && !data.Less(a, i) { i++ }` of `partitionEqual`. -/
def skipNotGreater (data : List System) (a j : Nat) : Nat → Nat → Nat
  | 0, i => i
  | fuel + 1, i =>
    if decide (i ≤ j) && !lessAt data a i then skipNotGreater data a j fuel (i + 1) else i

/-- The loop `for i <= j && data.Less(a, j) { j-- }` of `partitionEqual`. -/
def skipGreater (data : List System) (a i : Nat) : Nat → Nat
  | 0 => 0
  | j + 1 =>
    if decide (i ≤ j + 1) && lessAt data a (j + 1) then skipGreater data a i j else j + 1

/-- The endless loop of `partitionEqual`, up to its `break`: the slice and the
index `i` it is left with. -/
def partitionEqualLoop (a : Nat) : Nat → List System → Nat → Nat → List System × Nat
  | 0, data, i, _ => (data, i)
  | fuel + 1, data, i, j =>
    let i1 := skipNotGreater data a j (j + 1 - i) i
    let j1 := skipGreater data a i1 j
    if j1 < i1 then (data, i1)
    else partitionEqualLoop a fuel (swapAt data i1 j1) (i1 + 1) (j1 - 1)

/-- The function `partitionEqual`: partitions `data[a:b]` into the elements
equal to `data[pivot]` and the greater ones; the slice and the index where the
greater ones begin. -/
def partitionEqual (data : List System) (a b pivot : Nat) : List System × Nat :=
  partitionEqualLoop a (b - a) (swapAt data a pivot) (a + 1) (b - 1)

/-- The loop `for i < b && !data.Less(i, i-1) { i++ }` of
`partialInsertionSort`: the index it ends at. -/
def skipOrdered (data : List System) (b : Nat) : Nat → Nat → Nat
  | 0, i => i
  | fuel + 1, i =>
    if decide (i < b) && !lessAt data i (i - 1) then skipOrdered data b fuel (i + 1) else i

/-- The loop of `partialInsertionSort` that shifts the smaller element to the
left, `for j := i - 1; j >= 1; j--`, from the index `j`. -/
def shiftLeft : Nat → List System → List System
  | 0, data => data
  | j + 1, data =>
    if !lessAt data (j + 1) j then data else shiftLeft j (swapAt data (j + 1) j)

/-- The loop of `partialInsertionSort` that shifts the greater element to the
right, `for j := i + 1; j < b; j++`, with `n` rounds to go from the index `j`. -/
def shiftRight : Nat → Nat → List System → List System
  | 0, _, data => data
  | n + 1, j, data =>
    if !lessAt data j (j - 1) then data else shiftRight n (j + 1) (swapAt data j (j - 1))

/-- The loop `for j := 0; j < maxSteps; j++` of `partialInsertionSort`, with
`steps` rounds to go and the index `i` it has reached. -/
def partialInsertionSortLoop (a b : Nat) : Nat → Nat → List System → List System × Bool
  | 0, _, data => (data, false)
  | steps + 1, i, data =>
    let i1 := skipOrdered data b (b - i) i
    if i1 = b then (data, true)
    else if b - a < 50 then (data, false)
    else
      let data1 := swapAt data i1 (i1 - 1)
      let data2 := if 2 ≤ i1 - a then shiftLeft (i1 - 1) data1 else data1
      let data3 := if 2 ≤ b - i1 then shiftRight (b - (i1 + 1)) (i1 + 1) data2 else data2
      partialInsertionSortLoop a b steps i1 data3

/-- The function `partialInsertionSort`: the slice, and whether `data[a:b]` is
sorted at the end. -/
def partialInsertionSort (data : List System) (a b : Nat) : List System × Bool :=
  partialInsertionSortLoop a b 5 (a + 1) data

/-- The loop behind `bitsLen`: one round for each bit of `x`. -/
def bitsLenLoop : Nat → Nat → Nat
  | 0, _ => 0
  | fuel + 1, x => if x = 0 then 0 else bitsLenLoop fuel (x / 2) + 1

/-- The function `bits.Len` of the package math/bits: the least number of bits
`x` can be written with, 0 for 0. -/
def bitsLen (x : Nat) : Nat :=
  bitsLenLoop x x

/-- The function `nextPowerOfTwo`: `1 << bits.Len(length)`. -/
def nextPowerOfTwo (length : Nat) : Nat :=
  2 ^ bitsLen length

/-- The index `other` one round of `breakPatterns` draws from the word `r`. -/
def breakOther (length r : Nat) : Nat :=
  if length ≤ r &&& (nextPowerOfTwo length - 1) then
    (r &&& (nextPowerOfTwo length - 1)) - length
  else r &&& (nextPowerOfTwo length - 1)

/-- The function `breakPatterns`: three swaps around the middle of `data[a:b]`
with indices drawn from `xorshift(length)`, whose method `Next` is `next`. -/
def breakPatterns (next : Nat → Nat) (data : List System) (a b : Nat) : List System :=
  if 8 ≤ b - a then
    let idx := a + (b - a) / 4 * 2 - 1
    let r1 := next (b - a)
    let r2 := next r1
    let r3 := next r2
    swapAt (swapAt (swapAt data (idx - 1) (a + breakOther (b - a) r1))
      (idx - 1 + 1) (a + breakOther (b - a) r2)) (idx - 1 + 2) (a + breakOther (b - a) r3)
  else data

/-- The type `sortedHint`. -/
inductive sortedHint where
  | unknownHint
  | increasingHint
  | decreasingHint
deriving DecidableEq, Repr

/-- The function `order2`: the two indices in the order of their elements, and
the count of swaps. -/
def order2 (data : List System) (a b swaps : Nat) : Nat × Nat × Nat :=
  if lessAt data b a then (b, a, swaps + 1) else (a, b, swaps)

/-- The function `median`: the index of the median of three elements, and the
count of swaps. -/
def median (data : List System) (a b c swaps : Nat) : Nat × Nat :=
  let r1 := order2 data a b swaps
  let r2 := order2 data r1.2.1 c r1.2.2
  let r3 := order2 data r1.1 r2.1 r2.2.2
  (r3.2.1, r3.2.2)

/-- The function `medianAdjacent`. -/
def medianAdjacent (data : List System) (a swaps : Nat) : Nat × Nat :=
  median data (a - 1) a (a + 1) swaps

/-- The function `choosePivot`: an index in `data[a:b]` and a hint. -/
def choosePivot (data : List System) (a b : Nat) : Nat × sortedHint :=
  let l := b - a
  let i := a + l / 4 * 1
  let j := a + l / 4 * 2
  let k := a + l / 4 * 3
  let r :=
    if 8 ≤ l then
      if 50 ≤ l then
        let ri := medianAdjacent data i 0
        let rj := medianAdjacent data j ri.2
        let rk := medianAdjacent data k rj.2
        median data ri.1 rj.1 rk.1 rk.2
      else median data i j k 0
    else (j, 0)
  if r.2 = 0 then (r.1, sortedHint.increasingHint)
  else if r.2 = 4 * 3 then (r.1, sortedHint.decreasingHint)
  else (r.1, sortedHint.unknownHint)

/-- The loop of `reverseRange`, `for i < j { data.Swap(i, j); i++; j-- }`. -/
def reverseRangeLoop : Nat → Nat → Nat → List System → List System
  | 0, _, _, data => data
  | fuel + 1, i, j, data =>
    if i < j then reverseRangeLoop fuel (i + 1) (j - 1) (swapAt data i j) else data

/-- The function `reverseRange`. -/
def reverseRange (data : List System) (a b : Nat) : List System :=
  reverseRangeLoop (b - a) a (b - 1) data

/-- The function `pdqsort`: sorts `data[a:b]`.  The local variables
`wasBalanced` and `wasPartitioned` of its loop are arguments, and `fuel` bounds
the rounds of the loop: every round that does not return shortens `data[a:b]`.
`next` is the generator `breakPatterns` draws from. -/
def pdqsort (next : Nat → Nat) :
    Nat → List System → Nat → Nat → Nat → Bool → Bool → List System
  | 0, data, _, _, _, _, _ => data
  | fuel + 1, data, a, b, limit, wasBalanced, wasPartitioned =>
    if b - a ≤ 12 then insertionSort data a b
    else if limit = 0 then heapSort data a b
    else
      let data1 := if wasBalanced then data else breakPatterns next data a b
      let limit1 := if wasBalanced then limit else limit - 1
      let cp := choosePivot data1 a b
      let decreasing := decide (cp.2 = sortedHint.decreasingHint)
      let data2 := if decreasing then reverseRange data1 a b else data1
      let pivot := if decreasing then (b - 1) - (cp.1 - a) else cp.1
      let likelySorted :=
        wasBalanced && wasPartitioned
          && (decreasing || decide (cp.2 = sortedHint.increasingHint))
      let pis := partialInsertionSort data2 a b
      if likelySorted && pis.2 then pis.1
      else
        let data3 := if likelySorted then pis.1 else data2
        if decide (0 < a) && !lessAt data3 (a - 1) pivot then
          let pe := partitionEqual data3 a b pivot
          pdqsort next fuel pe.1 pe.2 b limit1 wasBalanced wasPartitioned
        else
          let p := partition data3 a b pivot
          let mid := p.2.1
          if mid - a < b - mid then
            pdqsort next fuel (pdqsort next fuel p.1 a mid limit1 true true) (mid + 1) b
              limit1 (decide ((b - a) / 8 ≤ mid - a)) p.2.2
          else
            pdqsort next fuel (pdqsort next fuel p.1 (mid + 1) b limit1 true true) a mid
              limit1 (decide ((b - a) / 8 ≤ b - mid)) p.2.2

/-- The function `Sort` of the package `sort`:
`n := data.Len(); if n <= 1 { return }; pdqsort(data, 0, n, bits.Len(uint(n)))`,
`next` being the generator `breakPatterns` draws from. -/
def goSort (next : Nat → Nat) (data : List System) : List System :=
  if data.length ≤ 1 then data
  else pdqsort next (data.length + 1) data 0 data.length (bitsLen data.length) true true

/-- The priority of the system at the index `k` of the slice (0 outside it). -/
def prio (data : List System) (k : Nat) : Int :=
  match data[k]? with
  | some x => x.Priority
  | none => 0

/-- What a function that works on `data[a:b]` by swaps inside it keeps: the
systems as a whole, the length, the priorities outside the range, and inside
it each priority it leaves was there before. -/
structure Seg (data data' : List System) (a b : Nat) : Prop where
  perm : data'.Perm data
  length : data'.length = data.length
  outside : ∀ k, k < a ∨ b ≤ k → prio data' k = prio data k
  inside : ∀ k, a ≤ k → k < b → ∃ k', a ≤ k' ∧ k' < b ∧ prio data' k = prio data k'

/-- The slice is in ascending order of priority on `data[a:b]`. -/
def SortedOn (data : List System) (a b : Nat) : Prop :=
  ∀ i j, a ≤ i → i < j → j < b → prio data i ≤ prio data j

/-- The heap condition of `heapSort` on `data[first:first+hi]` for the nodes
from `lo` on: no child has a priority above its parent. -/
def HeapOn (data : List System) (first lo hi : Nat) : Prop :=
  ∀ k c, lo ≤ k → c < hi → c = 2 * k + 1 ∨ c = 2 * k + 2 →
    prio data (first + c) ≤ prio data (first + k)

/-- What `pdqsort` relies on when it works on `data[a:b]` with `a > 0`: the
system in front of the range has no priority above one in the range. -/
def LowerBound (data : List System) (a b : Nat) : Prop :=
  0 < a → ∀ k, a ≤ k → k < b → prio data (a - 1) ≤ prio data k

/-! ## Operations of world.go -/

/-- The function `AddSystem`.  `sortFn` is the library function `sort.Sort` on
the slice type `systems`, and `initializer` the result of the type assertion
`system.(Initializer)`: the hook `New`, run on the world before anything else. -/
def World.AddSystem (sortFn : List System → List System)
    (initializer : Option (World → World)) (w : World) (system : System) : World :=
  let w1 := match initializer with
    | some hook => hook w
    | none => w
  { w1 with
    systems := sortFn (w1.systems ++ [system])
    newSystems := w1.newSystems ++ [system] }

/-- The function `Systems`. -/
def World.Systems (w : World) : List System :=
  w.systems

/-- The function `AddEntity`. -/
def World.AddEntity (w : World) (id : Identifier) : World :=
  { w with
    entities := w.entities ++ [id]
    newEntities := w.newEntities ++ [id] }

/-- The search loops of `RemoveEntity`: the index of the first entry whose
`ID()` is `id`, and `none` where the code leaves `idx` at `-1`. -/
def findID (id : Nat) : List Identifier → Option Nat
  | [] => none
  | n :: l => if n.ID = id then some 0 else (findID id l).map (· + 1)

/-- The slice surgery of `RemoveEntity`: `append(l[:idx], l[idx+1:]...)` when
`idx >= 0`, and the list untouched otherwise. -/
def removeID (id : Nat) (l : List Identifier) : List Identifier :=
  match findID id l with
  | some idx => l.take idx ++ l.drop (idx + 1)
  | none => l

/-- The body of the loop over `w.systems` in `RemoveEntity`: the list stored
under the type of `sys` is searched, and rewritten when the search succeeds. -/
def removeFromSystem (id : Nat) (m : Nat → List Identifier) (sys : System) :
    Nat → List Identifier :=
  match findID id (m sys.typ) with
  | some idx => Function.update m sys.typ ((m sys.typ).take idx ++ (m sys.typ).drop (idx + 1))
  | none => m

/-- The function `RemoveEntity`. -/
def World.RemoveEntity (w : World) (id : Identifier) : World :=
  { w with
    entities := removeID id.ID w.entities
    sysEntities := w.systems.foldl (removeFromSystem id.ID) w.sysEntities }

/-- The local state of `updateEntSys`: the membership map being written, the
set `done` of types, and a log of the calls of `ComponentFilter` made so far
(the type of the system asked and the entity it was asked about). -/
structure Recon where
  sysEntities : Nat → List Identifier
  done : Nat → Bool
  evals : List (Nat × Identifier)

/-- The body of the first pair of loops of `updateEntSys`: a new system `sys`
is asked about `ent`; on a yes the entity is appended under the type of `sys`
and that type is put in `done`. -/
def newSystemStep (sys : System) (st : Recon) (ent : Identifier) : Recon :=
  if sys.ComponentFilter ent then
    { sysEntities := Function.update st.sysEntities sys.typ (st.sysEntities sys.typ ++ [ent])
      done := Function.update st.done sys.typ true
      evals := st.evals ++ [(sys.typ, ent)] }
  else
    { st with evals := st.evals ++ [(sys.typ, ent)] }

/-- The body of the second pair of loops of `updateEntSys`: a system whose type
is in `done` is skipped; any other is asked about the pending entity `ent`. -/
def newEntityStep (ent : Identifier) (st : Recon) (sys : System) : Recon :=
  if st.done sys.typ then st
  else if sys.ComponentFilter ent then
    { st with
      sysEntities := Function.update st.sysEntities sys.typ (st.sysEntities sys.typ ++ [ent])
      evals := st.evals ++ [(sys.typ, ent)] }
  else
    { st with evals := st.evals ++ [(sys.typ, ent)] }

/-- The loops over `w.newSystems` and `w.entities`. -/
def reconcileSystems (w : World) (st : Recon) : Recon :=
  w.newSystems.foldl (fun st sys => w.entities.foldl (newSystemStep sys) st) st

/-- The loops over `w.newEntities` and `w.systems`. -/
def reconcileEntities (w : World) (st : Recon) : Recon :=
  w.newEntities.foldl (fun st ent => w.systems.foldl (newEntityStep ent) st) st

/-- The two loop nests of `updateEntSys` run from the state the function
starts in: the map of the world, nothing done, nothing asked. -/
def reconcile (w : World) : Recon :=
  reconcileEntities w
    (reconcileSystems w { sysEntities := w.sysEntities, done := fun _ => false, evals := [] })

/-- The function `updateEntSys`. -/
def World.updateEntSys (w : World) : World :=
  { w with
    sysEntities := (reconcile w).sysEntities
    newEntities := []
    newSystems := [] }

/-- One call `system.Update(dt, entities)` made by `World.Update`.  `dt` is the
`float32` argument as its bit pattern; the world only hands it on. -/
structure Call where
  system : System
  dt : Nat
  entities : List Identifier

/-- The function `Update`: the world after reconciliation, and the calls of the
systems in the order they are made.  The callbacks are taken not to touch the
world (they receive no reference to it). -/
def World.Update (dt : Nat) (w : World) : World × List Call :=
  let w1 := w.updateEntSys
  (w1, w1.Systems.foldl
    (fun calls system =>
      calls ++ [{ system := system, dt := dt, entities := w1.sysEntities system.typ }]) [])

/-! ## Histories -/

/-- A call of the public interface.  `addSystem` is `AddSystem` for a system
without `New` hook (or with one that does nothing, as in the tests). -/
inductive Op where
  | addSystem (s : System)
  | addEntity (e : Identifier)
  | removeEntity (e : Identifier)
  | update (dt : Nat)

/-- The world after one call, `sortFn` being the sort `AddSystem` calls. -/
def step (sortFn : List System → List System) (w : World) : Op → World
  | .addSystem s => w.AddSystem sortFn none s
  | .addEntity e => w.AddEntity e
  | .removeEntity e => w.RemoveEntity e
  | .update dt => (w.Update dt).1

/-- The world after a sequence of calls, first call first. -/
def run (sortFn : List System → List System) (w : World) (ops : List Op) : World :=
  ops.foldl (step sortFn) w

/-- The system registered by a call, when the call is `AddSystem`. -/
def Op.addedSystem : Op → Option System
  | .addSystem s => some s
  | _ => none

/-- The entity added by a call, when the call is `AddEntity`. -/
def Op.addedEntity : Op → Option Identifier
  | .addEntity e => some e
  | _ => none

/-- Whether the call is `RemoveEntity`. -/
def Op.isRemoveEntity : Op → Bool
  | .removeEntity _ => true
  | _ => false

/-- Whether the call is `Update`. -/
def Op.isUpdate : Op → Bool
  | .update _ => true
  | _ => false

/-- The systems a history registers, in the order of registration. -/
def addedSystems (ops : List Op) : List System :=
  ops.filterMap Op.addedSystem

/-- The entities a history adds, in the order of addition. -/
def addedEntities (ops : List Op) : List Identifier :=
  ops.filterMap Op.addedEntity

/-- The naive reconciliation the spec uses as oracle: the whole master list
is tested against the predicate of the system. -/
def fullRescan (w : World) (s : System) : List Identifier :=
  w.entities.filter s.ComponentFilter

/-- What holds of the systems of a world built from systems of pairwise
distinct types: the registered types are distinct, the pending systems are
registered, and the list of a pending or unregistered type is still empty. -/
structure SysInv (w : World) : Prop where
  nodup : (w.systems.map System.typ).Nodup
  newNodup : (w.newSystems.map System.typ).Nodup
  newSub : ∀ s ∈ w.newSystems, s ∈ w.systems
  newEmpty : ∀ s ∈ w.newSystems, w.sysEntities s.typ = []
  unregEmpty : ∀ t, t ∉ w.systems.map System.typ → w.sysEntities t = []


/-- What holds of the entities along a history without `RemoveEntity`: the
master list is the part `old` reconciled by the last `Update` followed by the
pending queue, and a registered system that is not pending holds the entities
of `old` it accepts. -/
def Reconciled (w : World) (old : List Identifier) : Prop :=
  w.entities = old ++ w.newEntities ∧
    ∀ s ∈ w.systems, s.typ ∉ w.newSystems.map System.typ →
      w.sysEntities s.typ = old.filter s.ComponentFilter


/-! ## The fixtures of entity_test.go

In a fixture `comps` is a bit set: bit 0 is `MyComponent1`, bit 1 is
`MyComponent2`, bit 2 is `NotSystem1Component`, bit 3 is `NotSystem12Component`
and bit 4 is `NotSystem2Component`. -/

/-- The system `MySystemOne` of the tests. -/
def MySystemOne : System :=
  { typ := 1, Priority := 0,
    ComponentFilter := fun id => if id.comps.testBit 2 then false else id.comps.testBit 0 }

/-- The system `MySystemTwo` of the tests. -/
def MySystemTwo : System :=
  { typ := 2, Priority := 0,
    ComponentFilter := fun id => if id.comps.testBit 4 then false else id.comps.testBit 1 }

/-- The system `MySystemOneTwo` of the tests. -/
def MySystemOneTwo : System :=
  { typ := 3, Priority := 0,
    ComponentFilter := fun id =>
      if id.comps.testBit 3 then false else id.comps.testBit 0 && id.comps.testBit 1 }

/-- The six entities of `TestSystemEntityFiltering`: `e1`, `e2`, `e12`, `e12x1`,
`e12x2` and `e12x1x2`, with identities 1 to 6. -/
def filteringEntities : List Identifier :=
  [⟨1, 1⟩, ⟨2, 2⟩, ⟨3, 3⟩, ⟨4, 7⟩, ⟨5, 19⟩, ⟨6, 23⟩]

/-- The calls of `TestSystemEntityFiltering` before its `Update`. -/
def filteringOps : List Op :=
  [Op.addSystem MySystemOne, Op.addSystem MySystemTwo, Op.addSystem MySystemOneTwo]
    ++ filteringEntities.map Op.addEntity

/-- The calls of `TestAddRemoveUpdate` up to (and without) its `RemoveEntity`,
the last `Update` left to the statement that uses them. -/
def addUpdateOps : List Op :=
  [Op.addSystem MySystemOne, Op.addEntity ⟨1, 3⟩, Op.addEntity ⟨2, 3⟩, Op.update 0,
    Op.addSystem MySystemTwo, Op.addEntity ⟨3, 3⟩]


/-- A history in which an entity is removed while it is still pending:
`AddSystem`, `AddEntity`, then `RemoveEntity` of that entity before any `Update`. -/
def pendingRemovalOps : List Op :=
  [Op.addSystem MySystemOne, Op.addEntity ⟨1, 1⟩, Op.removeEntity ⟨1, 1⟩]

/-- The world after that history. -/
def pendingRemovalWorld : World :=
  run sortSystems emptyWorld pendingRemovalOps

/-- The world of `TestDelete`: one system and ten entities, identities 0 to 9. -/
def deleteWorld : World :=
  run sortSystems emptyWorld
    (Op.addSystem MySystemOneTwo :: (List.range 10).map (fun i => Op.addEntity ⟨i, 0⟩))


/-- What holds of the entities of a world built by adding each identity at
most once, `used` being the identities added so far: no list repeats an
identity, and an entity still pending is in no membership list. -/
structure EntInv (w : World) (used : List Nat) : Prop where
  entities : (w.entities.map Identifier.ID).Nodup
  newEntities : (w.newEntities.map Identifier.ID).Nodup
  lists : ∀ t, ((w.sysEntities t).map Identifier.ID).Nodup
  disjoint : ∀ t, ∀ e ∈ w.sysEntities t, ∀ p ∈ w.newEntities, e.ID ≠ p.ID
  usedEntities : ∀ e ∈ w.entities, e.ID ∈ used
  usedNew : ∀ e ∈ w.newEntities, e.ID ∈ used
  usedLists : ∀ t, ∀ e ∈ w.sysEntities t, e.ID ∈ used


/-- The world of `TestAddRemoveUpdate` after its second `Update`: two systems,
three entities, both queues drained. -/
def updatedWorld : World :=
  run sortSystems emptyWorld (addUpdateOps ++ [Op.update 0])

/-- The world of `TestSystemEntityFiltering` before its `Update`. -/
def filteringWorld : World :=
  run sortSystems emptyWorld filteringOps


/-- The entities a system of type `t` was asked about during a run of
`updateEntSys`, in the order of the calls of its `ComponentFilter`. -/
def evalsOf (r : Recon) (t : Nat) : List Identifier :=
  (r.evals.filter (fun p => decide (p.1 = t))).map Prod.snd

/-- A new system that accepts none of the entities: `MySystemTwo` and an entity
that has only `MyComponent1`, both pending. -/
def unmatchedOps : List Op :=
  [Op.addSystem MySystemTwo, Op.addEntity ⟨1, 1⟩]

/-- The world after that history. -/
def unmatchedWorld : World :=
  run sortSystems emptyWorld unmatchedOps

/-- A system registered and reconciled, then a second system that matches, a
third that does not, and two more entities, all four pending. -/
def mixedOps : List Op :=
  [Op.addSystem MySystemOne, Op.addEntity ⟨1, 1⟩, Op.update 0,
    Op.addSystem MySystemOneTwo, Op.addSystem MySystemTwo,
    Op.addEntity ⟨2, 1⟩, Op.addEntity ⟨3, 11⟩]

/-- The world after that history. -/
def mixedWorld : World :=
  run sortSystems emptyWorld mixedOps

/-- Three registrations with priorities 5, 1 and 3, as in the priority
property of the spec. -/
def priorityOps : List Op :=
  [Op.addSystem ⟨1, 5, fun _ => true⟩, Op.addSystem ⟨2, 1, fun _ => true⟩,
    Op.addSystem ⟨3, 3, fun _ => true⟩]

/-- Two registrations of equal priority: `MySystemOne`, then `MySystemTwo`. -/
def tieOps : List Op :=
  [Op.addSystem MySystemOne, Op.addSystem MySystemTwo]

/-- Thirteen registrations of systems of thirteen types: twelve of priority 1,
then one of priority 0. -/
def thirteenOps : List Op :=
  [Op.addSystem ⟨1, 1, fun _ => true⟩, Op.addSystem ⟨2, 1, fun _ => true⟩,
    Op.addSystem ⟨3, 1, fun _ => true⟩, Op.addSystem ⟨4, 1, fun _ => true⟩,
    Op.addSystem ⟨5, 1, fun _ => true⟩, Op.addSystem ⟨6, 1, fun _ => true⟩,
    Op.addSystem ⟨7, 1, fun _ => true⟩, Op.addSystem ⟨8, 1, fun _ => true⟩,
    Op.addSystem ⟨9, 1, fun _ => true⟩, Op.addSystem ⟨10, 1, fun _ => true⟩,
    Op.addSystem ⟨11, 1, fun _ => true⟩, Op.addSystem ⟨12, 1, fun _ => true⟩,
    Op.addSystem ⟨13, 0, fun _ => true⟩]


/-- A world with both queues empty in which `MySystemOne` holds an entity its
filter rejects (the entity carries `NotSystem1Component`): the state after an
entity has changed since it was matched. -/
def stickyWorld : World :=
  { systems := [MySystemOne], entities := [⟨1, 5⟩], newSystems := [], newEntities := [],
    sysEntities := fun t => if t = 1 then [⟨1, 5⟩] else [] }

/-- The world after `MySystemOne` has been registered once. -/
def registeredWorld : World :=
  run sortSystems emptyWorld [Op.addSystem MySystemOne]


/-- The function `AddSystem` once more, with the calls of the hook it makes:
the world `World.AddSystem` returns, and the worlds `New` was handed, in the
order of the calls. -/
def World.AddSystemCalls (sortFn : List System → List System)
    (initializer : Option (World → World)) (w : World) (system : System) :
    World × List World :=
  match initializer with
  | some hook =>
    ({ (hook w) with
        systems := sortFn ((hook w).systems ++ [system])
        newSystems := (hook w).newSystems ++ [system] }, [w])
  | none =>
    ({ w with
        systems := sortFn (w.systems ++ [system])
        newSystems := w.newSystems ++ [system] }, [])

/-- A hook that registers another system, `MySystemTwo`, as the spec allows a
hook to do. -/
def addTwoHook (w : World) : World :=
  w.AddSystem sortSystems none MySystemTwo


/-- What holds of the pending systems along any history, whatever their types:
every pending registration is a registration, and the list of a type all of
whose registrations are still pending is empty. -/
structure PendingInv (w : World) : Prop where
  sub : w.newSystems.Subperm w.systems
  empty : ∀ t, w.newSystems.countP (fun s => decide (s.typ = t))
      = w.systems.countP (fun s => decide (s.typ = t)) → w.sysEntities t = []

/-- A history that registers `MySystemOne` twice after an `Update`, among three
entities of which `MySystemOne` accepts the first and the second. -/
def twinOps : List Op :=
  [Op.addEntity ⟨1, 1⟩, Op.addSystem MySystemTwo, Op.update 0, Op.addSystem MySystemOne,
    Op.addEntity ⟨2, 3⟩, Op.addSystem MySystemOne, Op.addEntity ⟨3, 2⟩]

/-- The world after that history, both registrations of `MySystemOne` pending. -/
def twinWorld : World :=
  run sortSystems emptyWorld twinOps


/-! ## The search and the slice surgery of `RemoveEntity` -/

theorem findID_eq_none {id : Nat} {l : List Identifier} :
    findID id l = none ↔ ∀ n ∈ l, n.ID ≠ id := by
  induction l with
  | nil => simp [findID]
  | cons n l ih =>
    by_cases h : n.ID = id
    · simp [findID, h]
    · simp [findID, h, ih]

theorem removeID_nil (id : Nat) : removeID id [] = [] := by
  simp [removeID, findID]

theorem removeID_cons (id : Nat) (n : Identifier) (l : List Identifier) :
    removeID id (n :: l) = if n.ID = id then l else n :: removeID id l := by
  by_cases h : n.ID = id
  · simp [removeID, findID, h]
  · cases hf : findID id l with
    | none => simp [removeID, findID, h, hf]
    | some idx => simp [removeID, findID, h, hf]

theorem removeID_eq_eraseP (id : Nat) (l : List Identifier) :
    removeID id l = l.eraseP (fun n => decide (n.ID = id)) := by
  induction l with
  | nil => simp [removeID_nil]
  | cons n l ih =>
    rw [removeID_cons]
    by_cases h : n.ID = id
    · simp [h]
    · simp [h, ih]

theorem removeID_of_not_mem {id : Nat} {l : List Identifier} (h : ∀ n ∈ l, n.ID ≠ id) :
    removeID id l = l := by
  simp [removeID, findID_eq_none.mpr h]

theorem removeFromSystem_apply (id : Nat) (m : Nat → List Identifier) (sys : System) (t : Nat) :
    removeFromSystem id m sys t = if t = sys.typ then removeID id (m t) else m t := by
  unfold removeFromSystem
  by_cases ht : t = sys.typ
  · subst ht
    cases hf : findID id (m sys.typ) with
    | none => simp [removeID, hf]
    | some idx => simp [removeID, hf]
  · cases hf : findID id (m sys.typ) with
    | none => simp [ht]
    | some idx => simp [ht, Function.update_noteq ht]

/-! ## The loops of `updateEntSys` in closed form -/

theorem foldl_newSystemStep_sysEntities (sys : System) (l : List Identifier) (st : Recon)
    (t : Nat) :
    (l.foldl (newSystemStep sys) st).sysEntities t
      = st.sysEntities t ++ (if t = sys.typ then l.filter sys.ComponentFilter else []) := by
  induction l generalizing st with
  | nil => simp
  | cons e l ih =>
    rw [List.foldl_cons, ih]
    by_cases hf : sys.ComponentFilter e = true
    · by_cases ht : t = sys.typ
      · subst ht
        simp [newSystemStep, hf]
      · simp [newSystemStep, hf, ht, Function.update_noteq ht]
    · simp [newSystemStep, hf]

theorem foldl_newSystemStep_done (sys : System) (l : List Identifier) (st : Recon) (t : Nat) :
    (l.foldl (newSystemStep sys) st).done t
      = (st.done t || (decide (t = sys.typ) && l.any sys.ComponentFilter)) := by
  induction l generalizing st with
  | nil => simp
  | cons e l ih =>
    rw [List.foldl_cons, ih]
    by_cases hf : sys.ComponentFilter e = true
    · by_cases ht : t = sys.typ
      · subst ht
        simp [newSystemStep, hf]
      · simp [newSystemStep, hf, ht, Function.update_noteq ht]
    · simp [newSystemStep, hf]

theorem foldl_newSystemStep_evals (sys : System) (l : List Identifier) (st : Recon) :
    (l.foldl (newSystemStep sys) st).evals = st.evals ++ l.map (fun e => (sys.typ, e)) := by
  induction l generalizing st with
  | nil => simp
  | cons e l ih =>
    rw [List.foldl_cons, ih]
    by_cases hf : sys.ComponentFilter e = true
    · simp [newSystemStep, hf]
    · simp [newSystemStep, hf]

theorem reconcileSystems_sysEntities (w : World) (st : Recon) (t : Nat) :
    (reconcileSystems w st).sysEntities t
      = st.sysEntities t
        ++ (w.newSystems.filter (fun s => decide (s.typ = t))).flatMap
            (fun s => w.entities.filter s.ComponentFilter) := by
  unfold reconcileSystems
  generalize w.newSystems = L
  induction L generalizing st with
  | nil => simp
  | cons s L ih =>
    rw [List.foldl_cons, ih, foldl_newSystemStep_sysEntities]
    by_cases ht : t = s.typ
    · subst ht
      simp
    · have ht2 : ¬ s.typ = t := fun h => ht h.symm
      simp [ht, ht2]

theorem reconcileSystems_done (w : World) (st : Recon) (t : Nat) :
    (reconcileSystems w st).done t
      = (st.done t
          || w.newSystems.any (fun s => decide (s.typ = t) && w.entities.any s.ComponentFilter)) := by
  unfold reconcileSystems
  generalize w.newSystems = L
  induction L generalizing st with
  | nil => simp
  | cons s L ih =>
    rw [List.foldl_cons, ih, foldl_newSystemStep_done]
    by_cases ht : t = s.typ
    · subst ht
      simp [Bool.or_assoc]
    · have ht2 : ¬ s.typ = t := fun h => ht h.symm
      simp [ht, ht2]

theorem reconcileSystems_evals (w : World) (st : Recon) :
    (reconcileSystems w st).evals
      = st.evals ++ w.newSystems.flatMap (fun s => w.entities.map (fun e => (s.typ, e))) := by
  unfold reconcileSystems
  generalize w.newSystems = L
  induction L generalizing st with
  | nil => simp
  | cons s L ih =>
    rw [List.foldl_cons, ih, foldl_newSystemStep_evals]
    simp

theorem foldl_newEntityStep_done (ent : Identifier) (S : List System) (st : Recon) :
    (S.foldl (newEntityStep ent) st).done = st.done := by
  induction S generalizing st with
  | nil => simp
  | cons s S ih =>
    rw [List.foldl_cons, ih]
    unfold newEntityStep
    split
    · rfl
    · split <;> rfl

theorem foldl_newEntityStep_sysEntities (ent : Identifier) (S : List System) (st : Recon)
    (t : Nat) :
    (S.foldl (newEntityStep ent) st).sysEntities t
      = st.sysEntities t
        ++ (S.filter (fun s => decide (s.typ = t) && (!st.done s.typ && s.ComponentFilter ent))).map
            (fun _ => ent) := by
  induction S generalizing st with
  | nil => simp
  | cons s S ih =>
    rw [List.foldl_cons, ih]
    have hd : (newEntityStep ent st s).done = st.done := by
      unfold newEntityStep
      split
      · rfl
      · split <;> rfl
    rw [hd]
    by_cases hdone : st.done s.typ = true
    · simp [newEntityStep, hdone]
    · by_cases hf : s.ComponentFilter ent = true
      · by_cases ht : t = s.typ
        · subst ht
          simp [newEntityStep, hdone, hf]
        · have ht2 : ¬ s.typ = t := fun h => ht h.symm
          simp [newEntityStep, hdone, hf, ht2, Function.update_noteq ht]
      · simp [newEntityStep, hdone, hf]

theorem foldl_newEntityStep_evals (ent : Identifier) (S : List System) (st : Recon) :
    (S.foldl (newEntityStep ent) st).evals
      = st.evals ++ (S.filter (fun s => !st.done s.typ)).map (fun s => (s.typ, ent)) := by
  induction S generalizing st with
  | nil => simp
  | cons s S ih =>
    rw [List.foldl_cons, ih]
    have hd : (newEntityStep ent st s).done = st.done := by
      unfold newEntityStep
      split
      · rfl
      · split <;> rfl
    rw [hd]
    by_cases hdone : st.done s.typ = true
    · simp [newEntityStep, hdone]
    · by_cases hf : s.ComponentFilter ent = true
      · simp [newEntityStep, hdone, hf]
      · simp [newEntityStep, hdone, hf]

theorem reconcileEntities_done (w : World) (st : Recon) :
    (reconcileEntities w st).done = st.done := by
  unfold reconcileEntities
  generalize w.newEntities = P
  induction P generalizing st with
  | nil => simp
  | cons e P ih => rw [List.foldl_cons, ih, foldl_newEntityStep_done]

theorem reconcileEntities_sysEntities (w : World) (st : Recon) (t : Nat) :
    (reconcileEntities w st).sysEntities t
      = st.sysEntities t
        ++ w.newEntities.flatMap (fun ent =>
            (w.systems.filter
              (fun s => decide (s.typ = t) && (!st.done s.typ && s.ComponentFilter ent))).map
              (fun _ => ent)) := by
  unfold reconcileEntities
  generalize w.newEntities = P
  induction P generalizing st with
  | nil => simp
  | cons e P ih =>
    rw [List.foldl_cons, ih, foldl_newEntityStep_sysEntities, foldl_newEntityStep_done]
    simp

theorem reconcileEntities_evals (w : World) (st : Recon) :
    (reconcileEntities w st).evals
      = st.evals
        ++ w.newEntities.flatMap (fun ent =>
            (w.systems.filter (fun s => !st.done s.typ)).map (fun s => (s.typ, ent))) := by
  unfold reconcileEntities
  generalize w.newEntities = P
  induction P generalizing st with
  | nil => simp
  | cons e P ih =>
    rw [List.foldl_cons, ih, foldl_newEntityStep_evals, foldl_newEntityStep_done]
    simp

/-! ## Systems of pairwise distinct types -/

theorem filter_typ_of_not_mem {S : List System} {t : Nat} (q : System → Bool)
    (ht : t ∉ S.map System.typ) :
    S.filter (fun x => decide (x.typ = t) && q x) = [] := by
  rw [List.filter_eq_nil_iff]
  intro x hx hq
  apply ht
  simp only [Bool.and_eq_true, decide_eq_true_eq] at hq
  exact List.mem_map.mpr ⟨x, hx, hq.1⟩

theorem filter_typ_of_mem {S : List System} {s : System} (q : System → Bool)
    (hnd : (S.map System.typ).Nodup) (hs : s ∈ S) :
    S.filter (fun x => decide (x.typ = s.typ) && q x) = if q s then [s] else [] := by
  induction S with
  | nil => cases hs
  | cons x S ih =>
    rw [List.map_cons, List.nodup_cons] at hnd
    rcases List.mem_cons.mp hs with h | h
    · subst h
      rw [List.filter_cons, filter_typ_of_not_mem q hnd.1]
      simp
    · have hne : ¬ x.typ = s.typ := by
        intro heq
        exact hnd.1 (heq ▸ List.mem_map.mpr ⟨s, h, rfl⟩)
      rw [List.filter_cons, ih hnd.2 h]
      simp [hne]

theorem any_typ_of_not_mem {S : List System} {t : Nat} (q : System → Bool)
    (ht : t ∉ S.map System.typ) :
    S.any (fun x => decide (x.typ = t) && q x) = false := by
  rw [List.any_eq_false]
  intro x hx hq
  apply ht
  simp only [Bool.and_eq_true, decide_eq_true_eq] at hq
  exact List.mem_map.mpr ⟨x, hx, hq.1⟩

theorem any_typ_of_mem {S : List System} {s : System} (q : System → Bool)
    (hnd : (S.map System.typ).Nodup) (hs : s ∈ S) :
    S.any (fun x => decide (x.typ = s.typ) && q x) = q s := by
  induction S with
  | nil => cases hs
  | cons x S ih =>
    rw [List.map_cons, List.nodup_cons] at hnd
    rcases List.mem_cons.mp hs with h | h
    · subst h
      rw [List.any_cons, any_typ_of_not_mem q hnd.1]
      simp
    · have hne : ¬ x.typ = s.typ := by
        intro heq
        exact hnd.1 (heq ▸ List.mem_map.mpr ⟨s, h, rfl⟩)
      rw [List.any_cons, ih hnd.2 h]
      simp [hne]

theorem flatMap_ite_singleton {α : Type} (a : α) (P : List Identifier) (c : Identifier → Bool) :
    P.flatMap (fun ent => (if c ent then [a] else []).map (fun _ => ent)) = P.filter c := by
  induction P with
  | nil => rfl
  | cons e P ih =>
    rw [List.flatMap_cons, ih]
    by_cases h : c e = true
    · simp [h]
    · simp [h]

/-- The marks after the first loop nest: a type is in `done` exactly when a
pending system of that type accepted some entity of the master list. -/
theorem reconcile_done (w : World) (t : Nat) :
    (reconcile w).done t
      = w.newSystems.any (fun s => decide (s.typ = t) && w.entities.any s.ComponentFilter) := by
  unfold reconcile
  rw [reconcileEntities_done, reconcileSystems_done]
  simp

/-- The membership list of any type after `updateEntSys`, with no assumption
on the world. -/
theorem updateEntSys_sysEntities (w : World) (t : Nat) :
    w.updateEntSys.sysEntities t
      = w.sysEntities t
        ++ (w.newSystems.filter (fun s => decide (s.typ = t))).flatMap
            (fun s => w.entities.filter s.ComponentFilter)
        ++ w.newEntities.flatMap (fun ent =>
            (w.systems.filter (fun s => decide (s.typ = t)
              && (!(reconcile w).done s.typ && s.ComponentFilter ent))).map (fun _ => ent)) := by
  show (reconcile w).sysEntities t = _
  have hd : (reconcile w).done
      = (reconcileSystems w
          { sysEntities := w.sysEntities, done := fun _ => false, evals := [] }).done := by
    unfold reconcile
    rw [reconcileEntities_done]
  rw [hd]
  unfold reconcile
  rw [reconcileEntities_sysEntities, reconcileSystems_sysEntities]

/-- A type no registered system has keeps its list through `updateEntSys`. -/
theorem updateEntSys_sysEntities_of_not_mem (w : World) (t : Nat)
    (hsub : ∀ s ∈ w.newSystems, s ∈ w.systems) (ht : t ∉ w.systems.map System.typ) :
    w.updateEntSys.sysEntities t = w.sysEntities t := by
  have ht2 : t ∉ w.newSystems.map System.typ := by
    intro h
    obtain ⟨s, hs, rfl⟩ := List.mem_map.mp h
    exact ht (List.mem_map.mpr ⟨s, hsub s hs, rfl⟩)
  have h1 : w.newSystems.filter (fun s => decide (s.typ = t)) = [] := by
    have := filter_typ_of_not_mem (fun _ => true) ht2
    simpa using this
  rw [updateEntSys_sysEntities, h1]
  simp only [filter_typ_of_not_mem _ ht]
  simp

/-- A registered system that is not pending gets the pending entities it
accepts appended, in the order of the pending queue. -/
theorem updateEntSys_sysEntities_old (w : World) (s : System)
    (hnd : (w.systems.map System.typ).Nodup) (hs : s ∈ w.systems)
    (hold : s.typ ∉ w.newSystems.map System.typ) :
    w.updateEntSys.sysEntities s.typ
      = w.sysEntities s.typ ++ w.newEntities.filter s.ComponentFilter := by
  have h1 : w.newSystems.filter (fun x => decide (x.typ = s.typ)) = [] := by
    have := filter_typ_of_not_mem (fun _ => true) hold
    simpa using this
  have hdone : (reconcile w).done s.typ = false := by
    rw [reconcile_done]
    exact any_typ_of_not_mem _ hold
  rw [updateEntSys_sysEntities, h1]
  simp only [filter_typ_of_mem _ hnd hs, hdone]
  simp only [List.flatMap_nil, List.append_nil, Bool.not_false, Bool.true_and]
  rw [← flatMap_ite_singleton s w.newEntities s.ComponentFilter]

/-- A pending system gets the entities of the master list it accepts; when it
accepts none of them it is not marked, and the pending queue is tried too. -/
theorem updateEntSys_sysEntities_new (w : World) (s : System)
    (hnd : (w.systems.map System.typ).Nodup) (hs : s ∈ w.systems)
    (hndn : (w.newSystems.map System.typ).Nodup) (hnew : s ∈ w.newSystems) :
    w.updateEntSys.sysEntities s.typ
      = w.sysEntities s.typ ++ w.entities.filter s.ComponentFilter
        ++ (if w.entities.any s.ComponentFilter then []
            else w.newEntities.filter s.ComponentFilter) := by
  have h1 : w.newSystems.filter (fun x => decide (x.typ = s.typ)) = [s] := by
    have := filter_typ_of_mem (fun _ => true) hndn hnew
    simpa using this
  have hdone : (reconcile w).done s.typ = w.entities.any s.ComponentFilter := by
    rw [reconcile_done]
    exact any_typ_of_mem _ hndn hnew
  rw [updateEntSys_sysEntities, h1]
  simp only [filter_typ_of_mem _ hnd hs, hdone]
  congr 1
  · simp
  · by_cases ha : w.entities.any s.ComponentFilter = true
    · simp [ha]
    · have ha2 : w.entities.any s.ComponentFilter = false := by simpa using ha
      rw [if_neg ha, ← flatMap_ite_singleton s w.newEntities s.ComponentFilter]
      simp [ha2]

/-! ## The sort keeps the systems -/

theorem orderedInsertSystem_perm (s : System) (l : List System) :
    (orderedInsertSystem s l).Perm (s :: l) := by
  induction l with
  | nil => exact List.Perm.refl _
  | cons x l ih =>
    unfold orderedInsertSystem
    split
    · exact ((List.Perm.cons x ih).trans (List.Perm.swap s x l))
    · exact List.Perm.refl _

theorem sortSystems_perm (l : List System) : (sortSystems l).Perm l := by
  induction l with
  | nil => exact List.Perm.refl _
  | cons x l ih =>
    unfold sortSystems
    exact (orderedInsertSystem_perm x _).trans (List.Perm.cons x ih)

theorem addSystem_systems_perm {sortFn : List System → List System}
    (hsort : Rearranges sortFn) (w : World) (s : System) :
    (w.AddSystem sortFn none s).systems.Perm (w.systems ++ [s]) :=
  hsort _

theorem mem_addSystem_systems {sortFn : List System → List System}
    (hsort : Rearranges sortFn) {w : World} {s x : System} :
    x ∈ (w.AddSystem sortFn none s).systems ↔ x ∈ w.systems ∨ x = s := by
  rw [(addSystem_systems_perm hsort w s).mem_iff]
  simp

/-! ## `RemoveEntity` on the membership map -/

theorem foldl_removeFromSystem (id : Nat) (S : List System) (m : Nat → List Identifier)
    (t : Nat) :
    S.foldl (removeFromSystem id) m t
      = (removeID id)^[S.countP (fun s => decide (s.typ = t))] (m t) := by
  induction S generalizing m with
  | nil => simp
  | cons s S ih =>
    rw [List.foldl_cons, ih, removeFromSystem_apply]
    by_cases ht : t = s.typ
    · subst ht
      simp [List.countP_cons, Function.iterate_succ_apply]
    · have ht2 : ¬ s.typ = t := fun h => ht h.symm
      simp [List.countP_cons, ht, ht2]

theorem removeID_sublist (id : Nat) (l : List Identifier) : (removeID id l).Sublist l := by
  rw [removeID_eq_eraseP]
  exact List.eraseP_sublist l

theorem iterate_removeID_sublist (id : Nat) (k : Nat) (l : List Identifier) :
    ((removeID id)^[k] l).Sublist l := by
  induction k generalizing l with
  | zero => exact List.Sublist.refl l
  | succ k ih =>
    rw [Function.iterate_succ_apply]
    exact (ih _).trans (removeID_sublist id l)

theorem removeEntity_sysEntities_sublist (w : World) (e : Identifier) (t : Nat) :
    ((w.RemoveEntity e).sysEntities t).Sublist (w.sysEntities t) := by
  show (w.systems.foldl (removeFromSystem e.ID) w.sysEntities t).Sublist _
  rw [foldl_removeFromSystem]
  exact iterate_removeID_sublist _ _ _

theorem removeEntity_entities_sublist (w : World) (e : Identifier) :
    (w.RemoveEntity e).entities.Sublist w.entities :=
  removeID_sublist _ _

theorem removeEntity_sysEntities_of_mem (w : World) (e : Identifier) (s : System)
    (hnd : (w.systems.map System.typ).Nodup) (hs : s ∈ w.systems) :
    (w.RemoveEntity e).sysEntities s.typ = removeID e.ID (w.sysEntities s.typ) := by
  show w.systems.foldl (removeFromSystem e.ID) w.sysEntities s.typ = _
  rw [foldl_removeFromSystem]
  have h1 : w.systems.countP (fun x => decide (x.typ = s.typ)) = 1 := by
    rw [List.countP_eq_length_filter]
    have := filter_typ_of_mem (fun _ => true) hnd hs
    simp only [Bool.and_true, if_true] at this
    rw [this]
    rfl
  rw [h1]
  rfl

/-! ## The invariant of the systems along a history -/

theorem sysInv_emptyWorld : SysInv emptyWorld where
  nodup := by simp [emptyWorld]
  newNodup := by simp [emptyWorld]
  newSub := by simp [emptyWorld]
  newEmpty := by simp [emptyWorld]
  unregEmpty := by simp [emptyWorld]

theorem sysInv_addSystem {sortFn : List System → List System} (hsort : Rearranges sortFn)
    {w : World} (h : SysInv w) (s : System)
    (hs : s.typ ∉ w.systems.map System.typ) : SysInv (w.AddSystem sortFn none s) where
  nodup := by
    rw [((addSystem_systems_perm hsort w s).map System.typ).nodup_iff]
    rw [List.map_append, List.nodup_append]
    refine ⟨h.nodup, by simp, ?_⟩
    intro t ht hts
    simp only [List.map_cons, List.map_nil, List.mem_singleton] at hts
    exact hs (hts ▸ ht)
  newNodup := by
    show ((w.newSystems ++ [s]).map System.typ).Nodup
    rw [List.map_append, List.nodup_append]
    refine ⟨h.newNodup, by simp, ?_⟩
    intro t ht hts
    simp only [List.map_cons, List.map_nil, List.mem_singleton] at hts
    obtain ⟨x, hx, rfl⟩ := List.mem_map.mp ht
    exact hs (hts ▸ List.mem_map.mpr ⟨x, h.newSub x hx, rfl⟩)
  newSub := by
    intro x hx
    have hx2 : x ∈ w.newSystems ++ [s] := hx
    rw [mem_addSystem_systems hsort]
    rcases List.mem_append.mp hx2 with h1 | h1
    · exact Or.inl (h.newSub x h1)
    · exact Or.inr (by simpa using h1)
  newEmpty := by
    intro x hx
    have hx2 : x ∈ w.newSystems ++ [s] := hx
    show w.sysEntities x.typ = []
    rcases List.mem_append.mp hx2 with h1 | h1
    · exact h.newEmpty x h1
    · have : x = s := by simpa using h1
      subst this
      exact h.unregEmpty _ hs
  unregEmpty := by
    intro t ht
    show w.sysEntities t = []
    apply h.unregEmpty
    intro hmem
    obtain ⟨x, hx, rfl⟩ := List.mem_map.mp hmem
    exact ht (List.mem_map.mpr ⟨x, (mem_addSystem_systems hsort).mpr (Or.inl hx), rfl⟩)

theorem sysInv_addEntity {w : World} (h : SysInv w) (e : Identifier) :
    SysInv (w.AddEntity e) where
  nodup := h.nodup
  newNodup := h.newNodup
  newSub := h.newSub
  newEmpty := h.newEmpty
  unregEmpty := h.unregEmpty

theorem sysInv_removeEntity {w : World} (h : SysInv w) (e : Identifier) :
    SysInv (w.RemoveEntity e) where
  nodup := h.nodup
  newNodup := h.newNodup
  newSub := h.newSub
  newEmpty := by
    intro x hx
    have := removeEntity_sysEntities_sublist w e x.typ
    rw [h.newEmpty x hx] at this
    exact List.sublist_nil.mp this
  unregEmpty := by
    intro t ht
    have := removeEntity_sysEntities_sublist w e t
    rw [h.unregEmpty t ht] at this
    exact List.sublist_nil.mp this

theorem sysInv_updateEntSys {w : World} (h : SysInv w) : SysInv w.updateEntSys where
  nodup := h.nodup
  newNodup := by simp [World.updateEntSys]
  newSub := by simp [World.updateEntSys]
  newEmpty := by simp [World.updateEntSys]
  unregEmpty := by
    intro t ht
    rw [updateEntSys_sysEntities_of_not_mem w t h.newSub ht]
    exact h.unregEmpty t ht

/-! ## Histories -/

theorem run_append_singleton (sortFn : List System → List System) (w : World)
    (ops : List Op) (op : Op) :
    run sortFn w (ops ++ [op]) = step sortFn (run sortFn w ops) op := by
  simp [run, List.foldl_append]

theorem addedSystems_append_singleton (ops : List Op) (op : Op) :
    addedSystems (ops ++ [op])
      = addedSystems ops ++ (match op.addedSystem with | some s => [s] | none => []) := by
  unfold addedSystems
  rw [List.filterMap_append]
  cases h : op.addedSystem <;> simp [List.filterMap_cons, h]

theorem addedEntities_append_singleton (ops : List Op) (op : Op) :
    addedEntities (ops ++ [op])
      = addedEntities ops ++ (match op.addedEntity with | some e => [e] | none => []) := by
  unfold addedEntities
  rw [List.filterMap_append]
  cases h : op.addedEntity <;> simp [List.filterMap_cons, h]

theorem updateEntSys_systems (w : World) : w.updateEntSys.systems = w.systems := rfl

theorem updateEntSys_entities (w : World) : w.updateEntSys.entities = w.entities := rfl

theorem update_fst (dt : Nat) (w : World) : (w.Update dt).1 = w.updateEntSys := rfl

/-- The registered systems are the systems the history added, up to order. -/
theorem run_systems_perm {sortFn : List System → List System} (hsort : Rearranges sortFn)
    (ops : List Op) :
    (run sortFn emptyWorld ops).systems.Perm (addedSystems ops) := by
  induction ops using List.reverseRecOn with
  | nil => exact List.Perm.refl _
  | append_singleton ops op ih =>
    rw [run_append_singleton, addedSystems_append_singleton]
    cases op with
    | addSystem s =>
      exact (addSystem_systems_perm hsort _ s).trans (List.Perm.append_right _ ih)
    | addEntity e => simpa [step, Op.addedSystem, World.AddEntity] using ih
    | removeEntity e => simpa [step, Op.addedSystem, World.RemoveEntity] using ih
    | update dt => simpa [step, Op.addedSystem, update_fst, updateEntSys_systems] using ih

theorem sysInv_run {sortFn : List System → List System} (hsort : Rearranges sortFn)
    (ops : List Op) (hsys : ((addedSystems ops).map System.typ).Nodup) :
    SysInv (run sortFn emptyWorld ops) := by
  induction ops using List.reverseRecOn with
  | nil => exact sysInv_emptyWorld
  | append_singleton ops op ih =>
    rw [run_append_singleton]
    rw [addedSystems_append_singleton, List.map_append, List.nodup_append] at hsys
    have ih2 := ih hsys.1
    cases op with
    | addSystem s =>
      apply sysInv_addSystem hsort ih2
      intro hmem
      rw [((run_systems_perm hsort ops).map System.typ).mem_iff] at hmem
      exact hsys.2.2 hmem (by simp [Op.addedSystem])
    | addEntity e => exact sysInv_addEntity ih2 e
    | removeEntity e => exact sysInv_removeEntity ih2 e
    | update dt => exact sysInv_updateEntSys ih2

/-! ## Reconciliation against the full rescan -/

theorem eq_of_typ_eq {S : List System} (hnd : (S.map System.typ).Nodup) {a b : System}
    (ha : a ∈ S) (hb : b ∈ S) (h : a.typ = b.typ) : a = b :=
  List.inj_on_of_nodup_map hnd ha hb h

theorem mem_newSystems_of_typ {w : World} (h : SysInv w) {s : System} (hs : s ∈ w.systems)
    (ht : s.typ ∈ w.newSystems.map System.typ) : s ∈ w.newSystems := by
  obtain ⟨x, hx, hxt⟩ := List.mem_map.mp ht
  have : x = s := eq_of_typ_eq h.nodup (h.newSub x hx) hs hxt
  exact this ▸ hx

/-- The step of the refinement: in a world whose lists are right for the part
of the master list seen so far, `updateEntSys` makes them right for all of it. -/
theorem updateEntSys_eq_filter {w : World} {old : List Identifier} (h : SysInv w)
    (hr : Reconciled w old) (s : System) (hs : s ∈ w.systems) :
    w.updateEntSys.sysEntities s.typ = w.entities.filter s.ComponentFilter := by
  by_cases hnew : s.typ ∈ w.newSystems.map System.typ
  · have hsn := mem_newSystems_of_typ h hs hnew
    rw [updateEntSys_sysEntities_new w s h.nodup hs h.newNodup hsn, h.newEmpty s hsn]
    by_cases ha : w.entities.any s.ComponentFilter = true
    · simp [ha]
    · rw [if_neg ha]
      have hnone : ∀ e ∈ w.entities, ¬ s.ComponentFilter e = true := by
        simpa using ha
      have h1 : w.newEntities.filter s.ComponentFilter = [] := by
        rw [List.filter_eq_nil_iff]
        intro e he
        apply hnone
        rw [hr.1]
        exact List.mem_append_right _ he
      have h2 : w.entities.filter s.ComponentFilter = [] := by
        rw [List.filter_eq_nil_iff]
        exact hnone
      simp [h1, h2]
  · rw [updateEntSys_sysEntities_old w s h.nodup hs hnew, hr.2 s hs hnew]
    conv_rhs => rw [hr.1]
    rw [List.filter_append]

theorem reconciled_emptyWorld : Reconciled emptyWorld [] := by
  constructor
  · rfl
  · intro s hs
    cases hs

theorem reconciled_addSystem {sortFn : List System → List System}
    (hsort : Rearranges sortFn) {w : World} {old : List Identifier} (hr : Reconciled w old)
    (s : System) : Reconciled (w.AddSystem sortFn none s) old := by
  refine ⟨hr.1, ?_⟩
  intro x hx hxn
  have hxn2 : x.typ ∉ (w.newSystems ++ [s]).map System.typ := hxn
  rw [List.map_append, List.mem_append, not_or] at hxn2
  rcases (mem_addSystem_systems hsort).mp hx with h1 | h1
  · exact hr.2 x h1 hxn2.1
  · subst h1
    exact absurd (by simp) hxn2.2

theorem reconciled_addEntity {w : World} {old : List Identifier} (hr : Reconciled w old)
    (e : Identifier) : Reconciled (w.AddEntity e) old := by
  refine ⟨?_, hr.2⟩
  show w.entities ++ [e] = old ++ (w.newEntities ++ [e])
  rw [hr.1, List.append_assoc]

theorem reconciled_updateEntSys {w : World} {old : List Identifier} (h : SysInv w)
    (hr : Reconciled w old) : Reconciled w.updateEntSys w.entities := by
  refine ⟨by simp [World.updateEntSys], ?_⟩
  intro s hs _
  exact updateEntSys_eq_filter h hr s hs

theorem reconciled_run {sortFn : List System → List System} (hsort : Rearranges sortFn)
    (ops : List Op) (hops : ∀ op ∈ ops, op.isRemoveEntity = false)
    (hsys : ((addedSystems ops).map System.typ).Nodup) :
    ∃ old, Reconciled (run sortFn emptyWorld ops) old := by
  induction ops using List.reverseRecOn with
  | nil => exact ⟨[], reconciled_emptyWorld⟩
  | append_singleton ops op ih =>
    have hsys2 : ((addedSystems ops).map System.typ).Nodup := by
      rw [addedSystems_append_singleton, List.map_append, List.nodup_append] at hsys
      exact hsys.1
    obtain ⟨old, hr⟩ := ih (fun o ho => hops o (List.mem_append_left _ ho)) hsys2
    rw [run_append_singleton]
    cases op with
    | addSystem s => exact ⟨old, reconciled_addSystem hsort hr s⟩
    | addEntity e => exact ⟨old, reconciled_addEntity hr e⟩
    | removeEntity e =>
      have := hops (Op.removeEntity e) (by simp)
      simp [Op.isRemoveEntity] at this
    | update dt => exact ⟨_, reconciled_updateEntSys (sysInv_run hsort ops hsys2) hr⟩

/-- Without `RemoveEntity` the master list is the list of the entities added. -/
theorem run_entities (sortFn : List System → List System) (ops : List Op)
    (hops : ∀ op ∈ ops, op.isRemoveEntity = false) :
    (run sortFn emptyWorld ops).entities = addedEntities ops := by
  induction ops using List.reverseRecOn with
  | nil => rfl
  | append_singleton ops op ih =>
    have ih2 := ih (fun o ho => hops o (List.mem_append_left _ ho))
    rw [run_append_singleton, addedEntities_append_singleton]
    cases op with
    | addSystem s => simpa [step, Op.addedEntity, World.AddSystem] using ih2
    | addEntity e => simp [step, Op.addedEntity, World.AddEntity, ih2]
    | removeEntity e =>
      have := hops (Op.removeEntity e) (by simp)
      simp [Op.isRemoveEntity] at this
    | update dt => simpa [step, Op.addedEntity, update_fst, updateEntSys_entities] using ih2

/-! ## Dispatch -/

theorem foldl_calls (f : System → Call) (l : List System) (acc : List Call) :
    l.foldl (fun calls system => calls ++ [f system]) acc = acc ++ l.map f := by
  induction l generalizing acc with
  | nil => simp
  | cons x l ih => simp [ih]

theorem update_snd (dt : Nat) (w : World) :
    (w.Update dt).2
      = w.systems.map (fun s =>
          { system := s, dt := dt, entities := w.updateEntSys.sysEntities s.typ }) := by
  show w.updateEntSys.Systems.foldl _ [] = _
  rw [foldl_calls (fun s => { system := s, dt := dt, entities := w.updateEntSys.sysEntities s.typ })]
  rfl

/-! ## The claims -/

/-- C1. Incremental reconciliation equals the naive full rescan: after any
history of `AddSystem`, `AddEntity` and `Update` calls from the empty world in
which the systems added have pairwise distinct types, an `Update` leaves every
registered system with exactly the master list filtered by its predicate, as
an ordered list, whatever rearrangement the sort in `AddSystem` makes.
(Distinct entity identities are not needed for this.) -/
theorem update_eq_fullRescan (sortFn : List System → List System)
    (hsort : Rearranges sortFn) (ops : List Op) (dt : Nat)
    (hops : ∀ op ∈ ops, op.isRemoveEntity = false)
    (hsys : ((addedSystems ops).map System.typ).Nodup) :
    ∀ s ∈ ((run sortFn emptyWorld ops).Update dt).1.Systems,
      ((run sortFn emptyWorld ops).Update dt).1.sysEntities s.typ
        = fullRescan ((run sortFn emptyWorld ops).Update dt).1 s := by
  intro s hs
  obtain ⟨old, hr⟩ := reconciled_run hsort ops hops hsys
  exact updateEntSys_eq_filter (sysInv_run hsort ops hsys) hr s hs

/-- C1 at the history of `TestAddRemoveUpdate` before its removal: two systems
and three entities added around an earlier `Update`. -/
theorem update_eq_fullRescan_witness :
    Rearranges sortSystems
      ∧ (∀ op ∈ addUpdateOps, op.isRemoveEntity = false)
      ∧ ((addedSystems addUpdateOps).map System.typ).Nodup
      ∧ ∀ s ∈ ((run sortSystems emptyWorld addUpdateOps).Update 0).1.Systems,
          ((run sortSystems emptyWorld addUpdateOps).Update 0).1.sysEntities s.typ
            = fullRescan ((run sortSystems emptyWorld addUpdateOps).Update 0).1 s :=
  ⟨sortSystems_perm, by decide, by decide,
    update_eq_fullRescan sortSystems sortSystems_perm addUpdateOps 0 (by decide) (by decide)⟩

/-- C2. On a fresh world to which systems of pairwise distinct types and
entities of pairwise distinct identities were added in any interleaving, one
`Update dt` calls each registered system once, in the order of `Systems()`,
with `dt` and with exactly the added entities its filter accepts, in the order
they were added and each of them once. -/
theorem single_update_dispatch (sortFn : List System → List System)
    (hsort : Rearranges sortFn) (ops : List Op) (dt : Nat)
    (hops : ∀ op ∈ ops, op.isRemoveEntity = false ∧ op.isUpdate = false)
    (hsys : ((addedSystems ops).map System.typ).Nodup)
    (hent : ((addedEntities ops).map Identifier.ID).Nodup) :
    ((run sortFn emptyWorld ops).Update dt).2
        = (run sortFn emptyWorld ops).Systems.map (fun s =>
            { system := s, dt := dt, entities := (addedEntities ops).filter s.ComponentFilter })
      ∧ (run sortFn emptyWorld ops).Systems.Perm (addedSystems ops)
      ∧ ∀ c ∈ ((run sortFn emptyWorld ops).Update dt).2,
          (c.entities.map Identifier.ID).Nodup := by
  have hrem : ∀ op ∈ ops, op.isRemoveEntity = false := fun op h => (hops op h).1
  obtain ⟨old, hr⟩ := reconciled_run hsort ops hrem hsys
  have hcalls : ((run sortFn emptyWorld ops).Update dt).2
      = (run sortFn emptyWorld ops).Systems.map (fun s =>
          { system := s, dt := dt,
            entities := (addedEntities ops).filter s.ComponentFilter }) := by
    rw [update_snd]
    apply List.map_congr_left
    intro s hs
    rw [updateEntSys_eq_filter (sysInv_run hsort ops hsys) hr s hs,
      run_entities sortFn ops hrem]
  refine ⟨hcalls, run_systems_perm hsort ops, ?_⟩
  intro c hc
  rw [hcalls] at hc
  obtain ⟨s, _, rfl⟩ := List.mem_map.mp hc
  exact (List.Sublist.map Identifier.ID (List.filter_sublist _)).nodup hent

/-- C2 at `TestSystemEntityFiltering`: three systems, then the six entities. -/
theorem single_update_dispatch_witness :
    Rearranges sortSystems
      ∧ (∀ op ∈ filteringOps, op.isRemoveEntity = false ∧ op.isUpdate = false)
      ∧ ((addedSystems filteringOps).map System.typ).Nodup
      ∧ ((addedEntities filteringOps).map Identifier.ID).Nodup
      ∧ (((run sortSystems emptyWorld filteringOps).Update 0).2
          = (run sortSystems emptyWorld filteringOps).Systems.map (fun s =>
              { system := s, dt := 0,
                entities := (addedEntities filteringOps).filter s.ComponentFilter })
        ∧ (run sortSystems emptyWorld filteringOps).Systems.Perm (addedSystems filteringOps)
        ∧ ∀ c ∈ ((run sortSystems emptyWorld filteringOps).Update 0).2,
            (c.entities.map Identifier.ID).Nodup) :=
  ⟨sortSystems_perm, by decide, by decide, by decide,
    single_update_dispatch sortSystems sortSystems_perm filteringOps 0
      (by decide) (by decide) (by decide)⟩

/-- The table of `TestSystemEntityFiltering`: the identities each of the three
systems is called with by the `Update` of the test. -/
theorem filtering_table :
    (filteringWorld.Update 0).2.map (fun c => (c.system.typ, c.entities.map Identifier.ID))
      = [(1, [1, 3, 5]), (2, [2, 3, 4]), (3, [3, 4, 5, 6])] := by
  decide

/-- C3. An entity removed while it is still in the pending queue comes back:
after `AddSystem`, `AddEntity e`, `RemoveEntity e` the entity is in no list and
not in the master list, yet the next `Update` puts it in the list of the
system and hands it to the system. -/
theorem removed_pending_entity_comes_back :
    pendingRemovalWorld.entities = []
      ∧ pendingRemovalWorld.sysEntities MySystemOne.typ = []
      ∧ pendingRemovalWorld.newEntities = [⟨1, 1⟩]
      ∧ (pendingRemovalWorld.Update 0).1.entities = []
      ∧ (pendingRemovalWorld.Update 0).1.sysEntities MySystemOne.typ = [⟨1, 1⟩]
      ∧ ((pendingRemovalWorld.Update 0).2.map Call.entities) = [[⟨1, 1⟩]] := by
  decide

/-! ## No identity twice in a list -/

theorem mem_updateEntSys_sysEntities {w : World} {t : Nat} {e : Identifier}
    (h : e ∈ w.updateEntSys.sysEntities t) :
    e ∈ w.sysEntities t ∨ e ∈ w.entities ∨ e ∈ w.newEntities := by
  rw [updateEntSys_sysEntities] at h
  rcases List.mem_append.mp h with h1 | h1
  · rcases List.mem_append.mp h1 with h2 | h2
    · exact Or.inl h2
    · obtain ⟨s, _, hs⟩ := List.mem_flatMap.mp h2
      exact Or.inr (Or.inl (List.mem_filter.mp hs).1)
  · obtain ⟨p, hp, hs⟩ := List.mem_flatMap.mp h1
    obtain ⟨_, _, rfl⟩ := List.mem_map.mp hs
    exact Or.inr (Or.inr hp)

theorem nodup_map_append {l₁ l₂ : List Identifier} (h₁ : (l₁.map Identifier.ID).Nodup)
    (h₂ : (l₂.map Identifier.ID).Nodup) (hd : ∀ a ∈ l₁, ∀ b ∈ l₂, a.ID ≠ b.ID) :
    ((l₁ ++ l₂).map Identifier.ID).Nodup := by
  rw [List.map_append, List.nodup_append]
  refine ⟨h₁, h₂, ?_⟩
  intro i hi₁ hi₂
  obtain ⟨a, ha, rfl⟩ := List.mem_map.mp hi₁
  obtain ⟨b, hb, hab⟩ := List.mem_map.mp hi₂
  exact hd a ha b hb hab.symm

theorem nodup_map_filter {l : List Identifier} (h : (l.map Identifier.ID).Nodup)
    (c : Identifier → Bool) : ((l.filter c).map Identifier.ID).Nodup :=
  (List.Sublist.map Identifier.ID (List.filter_sublist l)).nodup h

theorem updateEntSys_lists_nodup {w : World} {used : List Nat} (h : SysInv w)
    (he : EntInv w used) (t : Nat) :
    ((w.updateEntSys.sysEntities t).map Identifier.ID).Nodup := by
  by_cases ht : t ∈ w.systems.map System.typ
  · obtain ⟨s, hs, rfl⟩ := List.mem_map.mp ht
    by_cases hnew : s.typ ∈ w.newSystems.map System.typ
    · have hsn := mem_newSystems_of_typ h hs hnew
      rw [updateEntSys_sysEntities_new w s h.nodup hs h.newNodup hsn, h.newEmpty s hsn]
      by_cases ha : w.entities.any s.ComponentFilter = true
      · simpa [ha] using nodup_map_filter he.entities s.ComponentFilter
      · have hnone : ∀ e ∈ w.entities, ¬ s.ComponentFilter e = true := by
          simpa using ha
        have h2 : w.entities.filter s.ComponentFilter = [] := by
          rw [List.filter_eq_nil_iff]
          exact hnone
        rw [if_neg ha, h2]
        simpa using nodup_map_filter he.newEntities s.ComponentFilter
    · rw [updateEntSys_sysEntities_old w s h.nodup hs hnew]
      apply nodup_map_append (he.lists s.typ) (nodup_map_filter he.newEntities _)
      intro a ha b hb
      exact he.disjoint s.typ a ha b (List.mem_filter.mp hb).1
  · rw [updateEntSys_sysEntities_of_not_mem w t h.newSub ht]
    exact he.lists t

theorem entInv_emptyWorld : EntInv emptyWorld [] where
  entities := by simp [emptyWorld]
  newEntities := by simp [emptyWorld]
  lists := by simp [emptyWorld]
  disjoint := by simp [emptyWorld]
  usedEntities := by simp [emptyWorld]
  usedNew := by simp [emptyWorld]
  usedLists := by simp [emptyWorld]

theorem entInv_addSystem (sortFn : List System → List System) {w : World}
    {used : List Nat} (he : EntInv w used) (s : System) :
    EntInv (w.AddSystem sortFn none s) used where
  entities := he.entities
  newEntities := he.newEntities
  lists := he.lists
  disjoint := he.disjoint
  usedEntities := he.usedEntities
  usedNew := he.usedNew
  usedLists := he.usedLists

theorem entInv_addEntity {w : World} {used : List Nat} (he : EntInv w used) (e : Identifier)
    (hfresh : e.ID ∉ used) : EntInv (w.AddEntity e) (used ++ [e.ID]) where
  entities := by
    show ((w.entities ++ [e]).map Identifier.ID).Nodup
    apply nodup_map_append he.entities (by simp)
    intro a ha b hb hab
    have : b = e := by simpa using hb
    exact hfresh (this ▸ hab ▸ he.usedEntities a ha)
  newEntities := by
    show ((w.newEntities ++ [e]).map Identifier.ID).Nodup
    apply nodup_map_append he.newEntities (by simp)
    intro a ha b hb hab
    have : b = e := by simpa using hb
    exact hfresh (this ▸ hab ▸ he.usedNew a ha)
  lists := he.lists
  disjoint := by
    intro t a ha p hp hap
    have hp2 : p ∈ w.newEntities ++ [e] := hp
    rcases List.mem_append.mp hp2 with h1 | h1
    · exact he.disjoint t a ha p h1 hap
    · have : p = e := by simpa using h1
      exact hfresh (this ▸ hap ▸ he.usedLists t a ha)
  usedEntities := by
    intro a ha
    have ha2 : a ∈ w.entities ++ [e] := ha
    rcases List.mem_append.mp ha2 with h1 | h1
    · exact List.mem_append_left _ (he.usedEntities a h1)
    · have : a = e := by simpa using h1
      simp [this]
  usedNew := by
    intro a ha
    have ha2 : a ∈ w.newEntities ++ [e] := ha
    rcases List.mem_append.mp ha2 with h1 | h1
    · exact List.mem_append_left _ (he.usedNew a h1)
    · have : a = e := by simpa using h1
      simp [this]
  usedLists := fun t a ha => List.mem_append_left _ (he.usedLists t a ha)

theorem entInv_removeEntity {w : World} {used : List Nat} (he : EntInv w used)
    (e : Identifier) : EntInv (w.RemoveEntity e) used where
  entities :=
    (List.Sublist.map Identifier.ID (removeEntity_entities_sublist w e)).nodup he.entities
  newEntities := he.newEntities
  lists := fun t =>
    (List.Sublist.map Identifier.ID (removeEntity_sysEntities_sublist w e t)).nodup (he.lists t)
  disjoint := fun t a ha p hp =>
    he.disjoint t a ((removeEntity_sysEntities_sublist w e t).subset ha) p hp
  usedEntities := fun a ha => he.usedEntities a ((removeEntity_entities_sublist w e).subset ha)
  usedNew := he.usedNew
  usedLists := fun t a ha =>
    he.usedLists t a ((removeEntity_sysEntities_sublist w e t).subset ha)

theorem entInv_updateEntSys {w : World} {used : List Nat} (h : SysInv w)
    (he : EntInv w used) : EntInv w.updateEntSys used where
  entities := he.entities
  newEntities := by simp [World.updateEntSys]
  lists := updateEntSys_lists_nodup h he
  disjoint := by
    intro t a _ p hp
    have : p ∈ ([] : List Identifier) := hp
    cases this
  usedEntities := he.usedEntities
  usedNew := by
    intro a ha
    have : a ∈ ([] : List Identifier) := ha
    cases this
  usedLists := by
    intro t a ha
    rcases mem_updateEntSys_sysEntities ha with h1 | h1 | h1
    · exact he.usedLists t a h1
    · exact he.usedEntities a h1
    · exact he.usedNew a h1

theorem entInv_run {sortFn : List System → List System} (hsort : Rearranges sortFn)
    (ops : List Op) (hsys : ((addedSystems ops).map System.typ).Nodup)
    (hent : ((addedEntities ops).map Identifier.ID).Nodup) :
    EntInv (run sortFn emptyWorld ops) ((addedEntities ops).map Identifier.ID) := by
  induction ops using List.reverseRecOn with
  | nil => exact entInv_emptyWorld
  | append_singleton ops op ih =>
    have hsys2 : ((addedSystems ops).map System.typ).Nodup := by
      rw [addedSystems_append_singleton, List.map_append, List.nodup_append] at hsys
      exact hsys.1
    rw [addedEntities_append_singleton, List.map_append, List.nodup_append] at hent
    have ih2 := ih hsys2 hent.1
    rw [run_append_singleton, addedEntities_append_singleton]
    cases op with
    | addSystem s => simpa [step, Op.addedEntity] using entInv_addSystem sortFn ih2 s
    | addEntity e =>
      have hfresh : e.ID ∉ (addedEntities ops).map Identifier.ID := by
        intro hmem
        exact hent.2.2 hmem (by simp [Op.addedEntity])
      simpa [step, Op.addedEntity] using entInv_addEntity ih2 e hfresh
    | removeEntity e => simpa [step, Op.addedEntity] using entInv_removeEntity ih2 e
    | update dt =>
      simpa [step, Op.addedEntity, update_fst] using
        entInv_updateEntSys (sysInv_run hsort ops hsys2) ih2

/-- C4. In every world reached from the empty world by `AddSystem`,
`AddEntity`, `RemoveEntity` and `Update`, where the systems added have pairwise
distinct types and no identity is added twice, the list of a registered system
never holds two entries of one identity. -/
theorem sysEntities_nodup (sortFn : List System → List System)
    (hsort : Rearranges sortFn) (ops : List Op)
    (hsys : ((addedSystems ops).map System.typ).Nodup)
    (hent : ((addedEntities ops).map Identifier.ID).Nodup) :
    ∀ s ∈ (run sortFn emptyWorld ops).Systems,
      (((run sortFn emptyWorld ops).sysEntities s.typ).map Identifier.ID).Nodup :=
  fun s _ => (entInv_run hsort ops hsys hent).lists s.typ

/-- C4 at the history in which an entity is removed while pending and the
world is updated afterwards. -/
theorem sysEntities_nodup_witness :
    Rearranges sortSystems
      ∧ ((addedSystems (pendingRemovalOps ++ [Op.update 0])).map System.typ).Nodup
      ∧ ((addedEntities (pendingRemovalOps ++ [Op.update 0])).map Identifier.ID).Nodup
      ∧ ∀ s ∈ (run sortSystems emptyWorld (pendingRemovalOps ++ [Op.update 0])).Systems,
          (((run sortSystems emptyWorld (pendingRemovalOps ++ [Op.update 0])).sysEntities
            s.typ).map Identifier.ID).Nodup :=
  ⟨sortSystems_perm, by decide, by decide,
    sysEntities_nodup sortSystems sortSystems_perm (pendingRemovalOps ++ [Op.update 0])
      (by decide) (by decide)⟩

/-! ## Removal from a list -/

theorem removeID_split {id : Nat} {l : List Identifier} (h : ∃ n ∈ l, n.ID = id) :
    ∃ l₁ x l₂, l = l₁ ++ x :: l₂ ∧ x.ID = id ∧ (∀ y ∈ l₁, y.ID ≠ id)
      ∧ removeID id l = l₁ ++ l₂ := by
  induction l with
  | nil =>
    obtain ⟨n, hn, _⟩ := h
    cases hn
  | cons a l ih =>
    by_cases ha : a.ID = id
    · exact ⟨[], a, l, rfl, ha, by simp, by simp [removeID_cons, ha]⟩
    · have h2 : ∃ n ∈ l, n.ID = id := by
        obtain ⟨n, hn, hid⟩ := h
        rcases List.mem_cons.mp hn with h1 | h1
        · exact absurd (h1 ▸ hid) ha
        · exact ⟨n, h1, hid⟩
      obtain ⟨l₁, x, l₂, hl, hx, hl₁, hr⟩ := ih h2
      refine ⟨a :: l₁, x, l₂, by simp [hl], hx, ?_, by simp [removeID_cons, ha, hr]⟩
      intro y hy
      rcases List.mem_cons.mp hy with h1 | h1
      · exact h1 ▸ ha
      · exact hl₁ y h1

theorem removeID_eq_filter {id : Nat} {l : List Identifier}
    (hnd : (l.map Identifier.ID).Nodup) :
    removeID id l = l.filter (fun n => decide (n.ID ≠ id)) := by
  induction l with
  | nil => simp [removeID_nil]
  | cons a l ih =>
    rw [List.map_cons, List.nodup_cons] at hnd
    rw [removeID_cons]
    by_cases ha : a.ID = id
    · have hall : ∀ n ∈ l, decide (n.ID ≠ id) = true := by
        intro n hn
        have : n.ID ≠ id := by
          intro hid
          exact hnd.1 (ha ▸ hid ▸ List.mem_map.mpr ⟨n, hn, rfl⟩)
        simpa using this
      have hhead : ¬ decide (a.ID ≠ id) = true := by simpa using ha
      rw [if_pos ha, List.filter_cons, if_neg hhead]
      exact (List.filter_eq_self.mpr hall).symm
    · simp [ha, ih hnd.2]

theorem updateEntSys_sysEntities_of_empty (w : World) (hns : w.newSystems = [])
    (hne : w.newEntities = []) (t : Nat) :
    w.updateEntSys.sysEntities t = w.sysEntities t := by
  rw [updateEntSys_sysEntities, hns, hne]
  simp

/-- C5. When the master list holds an entry with the identity of `e`,
`RemoveEntity e` deletes the first such entry and nothing else: the entries
before and after it keep their order and the list is one shorter.  This is so
for every world, reconciled or not. -/
theorem removeEntity_deletes_first (w : World) (e : Identifier)
    (h : ∃ n ∈ w.entities, n.ID = e.ID) :
    ∃ l₁ x l₂, w.entities = l₁ ++ x :: l₂ ∧ x.ID = e.ID ∧ (∀ y ∈ l₁, y.ID ≠ e.ID)
      ∧ (w.RemoveEntity e).entities = l₁ ++ l₂
      ∧ (w.RemoveEntity e).entities.length + 1 = w.entities.length := by
  obtain ⟨l₁, x, l₂, hl, hx, hl₁, hr⟩ := removeID_split h
  refine ⟨l₁, x, l₂, hl, hx, hl₁, hr, ?_⟩
  show (removeID e.ID w.entities).length + 1 = w.entities.length
  rw [hr, hl]
  simp
  omega

/-- C5 at `TestDelete`: entity 4 of ten, removed through a handle that is not
the one stored. -/
theorem removeEntity_deletes_first_witness :
    (∃ n ∈ deleteWorld.entities, n.ID = (⟨4, 99⟩ : Identifier).ID)
      ∧ ∃ l₁ x l₂, deleteWorld.entities = l₁ ++ x :: l₂ ∧ x.ID = (⟨4, 99⟩ : Identifier).ID
          ∧ (∀ y ∈ l₁, y.ID ≠ (⟨4, 99⟩ : Identifier).ID)
          ∧ (deleteWorld.RemoveEntity ⟨4, 99⟩).entities = l₁ ++ l₂
          ∧ (deleteWorld.RemoveEntity ⟨4, 99⟩).entities.length + 1
              = deleteWorld.entities.length :=
  ⟨by decide, removeEntity_deletes_first deleteWorld ⟨4, 99⟩ (by decide)⟩

/-- An `AddSystem` whose hook leaves the world as it is, like the empty `New`
of the test systems, is an `AddSystem` without hook. -/
theorem addSystem_of_hook_eq (sortFn : List System → List System) (hook : World → World)
    (w : World) (s : System) (h : hook w = w) :
    w.AddSystem sortFn (some hook) s = w.AddSystem sortFn none s := by
  simp [World.AddSystem, h]

/-- Where the identity of `e` is neither in the master list nor in the list of
any registered system, `RemoveEntity e` changes nothing. -/
theorem removeEntity_of_absent (w : World) (e : Identifier)
    (hm : ∀ n ∈ w.entities, n.ID ≠ e.ID)
    (hl : ∀ s ∈ w.systems, ∀ n ∈ w.sysEntities s.typ, n.ID ≠ e.ID) :
    w.RemoveEntity e = w := by
  have h1 : removeID e.ID w.entities = w.entities := removeID_of_not_mem hm
  have h2 : w.systems.foldl (removeFromSystem e.ID) w.sysEntities = w.sysEntities := by
    funext t
    rw [foldl_removeFromSystem]
    by_cases hk : w.systems.countP (fun s => decide (s.typ = t)) = 0
    · rw [hk]
      rfl
    · have hpos : 0 < w.systems.countP (fun s => decide (s.typ = t)) := Nat.pos_of_ne_zero hk
      obtain ⟨s, hs, hst⟩ := List.countP_pos_iff.mp hpos
      have ht : s.typ = t := by simpa using hst
      subst ht
      exact Function.iterate_fixed (removeID_of_not_mem (hl s hs)) _
  show ({ w with entities := removeID e.ID w.entities,
                 sysEntities := w.systems.foldl (removeFromSystem e.ID) w.sysEntities } : World)
    = w
  rw [h1, h2]

/-- C6. `RemoveEntity` of an entity that is not in the master list is not
always a no-op: in the world reached by removing a pending entity and then
updating, the entity is absent from the master list, and removing it again
changes the list of the system. -/
theorem removeEntity_absent_changes_list :
    (∀ n ∈ (pendingRemovalWorld.Update 0).1.entities, n.ID ≠ (⟨1, 1⟩ : Identifier).ID)
      ∧ (pendingRemovalWorld.Update 0).1.sysEntities MySystemOne.typ = [⟨1, 1⟩]
      ∧ ((pendingRemovalWorld.Update 0).1.RemoveEntity ⟨1, 1⟩).sysEntities MySystemOne.typ
          = [] := by
  decide

/-- C7. In a world with both queues empty, systems of pairwise distinct types,
entities of pairwise distinct identities and every list equal to the filtered
master list, `RemoveEntity e` leaves every system with its old list minus the
entry of the identity of `e`, which is again the new master list filtered by
its predicate; so the next `Update` hands every system exactly that. -/
theorem removeEntity_consistent (w : World) (e : Identifier) (dt : Nat)
    (hns : w.newSystems = []) (hne : w.newEntities = [])
    (hsys : (w.systems.map System.typ).Nodup)
    (hent : (w.entities.map Identifier.ID).Nodup)
    (hcons : ∀ s ∈ w.systems, w.sysEntities s.typ = w.entities.filter s.ComponentFilter) :
    (∀ s ∈ (w.RemoveEntity e).Systems,
        (w.RemoveEntity e).sysEntities s.typ
            = (w.sysEntities s.typ).filter (fun n => decide (n.ID ≠ e.ID))
          ∧ (w.RemoveEntity e).sysEntities s.typ
            = (w.RemoveEntity e).entities.filter s.ComponentFilter)
      ∧ ((w.RemoveEntity e).Update dt).2
          = (w.RemoveEntity e).Systems.map (fun s =>
              { system := s, dt := dt,
                entities := (w.RemoveEntity e).entities.filter s.ComponentFilter }) := by
  have hlist : ∀ s ∈ w.systems,
      (w.RemoveEntity e).sysEntities s.typ
          = (w.sysEntities s.typ).filter (fun n => decide (n.ID ≠ e.ID))
        ∧ (w.RemoveEntity e).sysEntities s.typ
          = (w.RemoveEntity e).entities.filter s.ComponentFilter := by
    intro s hs
    have hnd : ((w.sysEntities s.typ).map Identifier.ID).Nodup := by
      rw [hcons s hs]
      exact nodup_map_filter hent _
    have h1 := removeEntity_sysEntities_of_mem w e s hsys hs
    rw [removeID_eq_filter hnd] at h1
    refine ⟨h1, ?_⟩
    rw [h1, hcons s hs]
    show _ = (removeID e.ID w.entities).filter s.ComponentFilter
    rw [removeID_eq_filter hent, List.filter_filter, List.filter_filter]
    congr 1
    funext n
    exact Bool.and_comm _ _
  refine ⟨hlist, ?_⟩
  rw [update_snd]
  apply List.map_congr_left
  intro s hs
  rw [updateEntSys_sysEntities_of_empty (w.RemoveEntity e) hns hne, (hlist s hs).2]

/-- C7 at `TestAddRemoveUpdate`: the second of three entities is removed after
the second `Update`. -/
theorem removeEntity_consistent_witness :
    updatedWorld.newSystems = [] ∧ updatedWorld.newEntities = []
      ∧ (updatedWorld.systems.map System.typ).Nodup
      ∧ (updatedWorld.entities.map Identifier.ID).Nodup
      ∧ (∀ s ∈ updatedWorld.systems,
          updatedWorld.sysEntities s.typ = updatedWorld.entities.filter s.ComponentFilter)
      ∧ ((∀ s ∈ (updatedWorld.RemoveEntity ⟨2, 3⟩).Systems,
            (updatedWorld.RemoveEntity ⟨2, 3⟩).sysEntities s.typ
                = (updatedWorld.sysEntities s.typ).filter
                    (fun n => decide (n.ID ≠ (⟨2, 3⟩ : Identifier).ID))
              ∧ (updatedWorld.RemoveEntity ⟨2, 3⟩).sysEntities s.typ
                = (updatedWorld.RemoveEntity ⟨2, 3⟩).entities.filter s.ComponentFilter)
          ∧ ((updatedWorld.RemoveEntity ⟨2, 3⟩).Update 0).2
              = (updatedWorld.RemoveEntity ⟨2, 3⟩).Systems.map (fun s =>
                  { system := s, dt := 0,
                    entities :=
                      (updatedWorld.RemoveEntity ⟨2, 3⟩).entities.filter s.ComponentFilter })) :=
  ⟨rfl, rfl, by decide, by decide, by decide,
    removeEntity_consistent updatedWorld ⟨2, 3⟩ 0 rfl rfl (by decide) (by decide) (by decide)⟩

/-- C8. `Update dt` leaves the world as reconciliation leaves it, with the
systems it had, and makes one call per entry of `Systems()`, in that order,
each with `dt` and the list stored after reconciliation under the type of the
system; a system whose list is empty is called all the same. -/
theorem update_calls_each_system (dt : Nat) (w : World) :
    (w.Update dt).1 = w.updateEntSys
      ∧ (w.Update dt).1.Systems = w.Systems
      ∧ (w.Update dt).2
          = w.Systems.map (fun s =>
              { system := s, dt := dt, entities := (w.Update dt).1.sysEntities s.typ })
      ∧ (w.Update dt).2.length = w.Systems.length := by
  refine ⟨rfl, rfl, update_snd dt w, ?_⟩
  rw [update_snd]
  simp [World.Systems]

/-! ## Swaps and comparisons -/

theorem length_swapAt (data : List System) (i j : Nat) :
    (swapAt data i j).length = data.length := by
  unfold swapAt
  split <;> simp

theorem swapAt_perm (data : List System) (i j : Nat) : (swapAt data i j).Perm data := by
  classical
  unfold swapAt
  split
  · rename_i x y hx hy
    obtain ⟨hi, hxi⟩ := List.getElem?_eq_some.mp hx
    obtain ⟨hj, hyj⟩ := List.getElem?_eq_some.mp hy
    by_cases hij : i = j
    · subst hij
      have hxy : x = y := hxi.symm.trans hyj
      subst hxy
      have h1 : data.set i x = data := by
        apply List.ext_getElem?
        intro k
        rw [List.getElem?_set]
        by_cases hik : i = k
        · subst hik
          rw [if_pos rfl, if_pos hi, hx]
        · rw [if_neg hik]
      rw [h1, h1]
    · rw [List.perm_iff_count]
      intro c
      have hj2 : j < (data.set i y).length := by
        rw [List.length_set]
        exact hj
      have hget : (data.set i y)[j] = data[j] := by
        rw [List.getElem_set]
        rw [if_neg hij]
      rw [List.count_set _ _ _ _ hj2, List.count_set _ _ _ _ hi, hget, hxi, hyj]
      have hcx : (if (x == c) = true then 1 else 0) ≤ data.count c := by
        split
        · rename_i h
          have hxc : x = c := by simpa using h
          have hmem : x ∈ data := hxi ▸ List.getElem_mem hi
          exact List.count_pos_iff.mpr (hxc ▸ hmem)
        · omega
      generalize (if (x == c) = true then 1 else 0) = A at hcx ⊢
      generalize (if (y == c) = true then 1 else 0) = B
      omega
  · exact List.Perm.refl _

theorem prio_eq_of_getElem? {data : List System} {k : Nat} {x : System}
    (h : data[k]? = some x) : prio data k = x.Priority := by
  simp [prio, h]

theorem getElem?_swapAt {data : List System} {i j : Nat} (hi : i < data.length)
    (hj : j < data.length) (k : Nat) :
    (swapAt data i j)[k]? = if k = j then data[i]? else if k = i then data[j]? else data[k]? := by
  unfold swapAt
  rw [List.getElem?_eq_getElem hi, List.getElem?_eq_getElem hj]
  simp only
  rw [List.getElem?_set, List.getElem?_set]
  by_cases hkj : k = j
  · subst hkj
    simp [hi, hj]
  · by_cases hki : k = i
    · subst hki
      have : ¬ j = k := fun h => hkj h.symm
      simp [this, hi, hkj]
    · have h1 : ¬ j = k := fun h => hkj h.symm
      have h2 : ¬ i = k := fun h => hki h.symm
      simp [h1, h2, hkj, hki]

theorem prio_swapAt {data : List System} {i j : Nat} (hi : i < data.length)
    (hj : j < data.length) (k : Nat) :
    prio (swapAt data i j) k
      = if k = j then prio data i else if k = i then prio data j else prio data k := by
  unfold prio
  rw [getElem?_swapAt hi hj]
  by_cases h1 : k = j
  · rw [if_pos h1, if_pos h1]
  · by_cases h2 : k = i
    · rw [if_neg h1, if_pos h2, if_neg h1, if_pos h2]
    · rw [if_neg h1, if_neg h2, if_neg h1, if_neg h2]

theorem lessAt_eq {data : List System} {i j : Nat} (hi : i < data.length)
    (hj : j < data.length) : lessAt data i j = decide (prio data i < prio data j) := by
  unfold lessAt prio
  rw [List.getElem?_eq_getElem hi, List.getElem?_eq_getElem hj]
  rfl

theorem lessAt_iff {data : List System} {i j : Nat} (hi : i < data.length)
    (hj : j < data.length) : lessAt data i j = true ↔ prio data i < prio data j := by
  rw [lessAt_eq hi hj]
  simp

theorem lessAt_false_iff {data : List System} {i j : Nat} (hi : i < data.length)
    (hj : j < data.length) : lessAt data i j = false ↔ prio data j ≤ prio data i := by
  rw [lessAt_eq hi hj]
  simp

/-! ## Ranges -/

theorem seg_refl (data : List System) (a b : Nat) : Seg data data a b :=
  ⟨List.Perm.refl _, rfl, fun _ _ => rfl, fun k h1 h2 => ⟨k, h1, h2, rfl⟩⟩

theorem seg_trans {d1 d2 d3 : List System} {a b : Nat} (h12 : Seg d1 d2 a b)
    (h23 : Seg d2 d3 a b) : Seg d1 d3 a b where
  perm := h23.perm.trans h12.perm
  length := h23.length.trans h12.length
  outside := fun k hk => (h23.outside k hk).trans (h12.outside k hk)
  inside := by
    intro k h1 h2
    obtain ⟨k', h1', h2', e⟩ := h23.inside k h1 h2
    obtain ⟨k2, g1, g2, e2⟩ := h12.inside k' h1' h2'
    exact ⟨k2, g1, g2, e.trans e2⟩

theorem seg_mono {d1 d2 : List System} {a b a' b' : Nat} (h : Seg d1 d2 a b)
    (ha : a' ≤ a) (hb : b ≤ b') : Seg d1 d2 a' b' where
  perm := h.perm
  length := h.length
  outside := fun k hk => h.outside k (by omega)
  inside := by
    intro k h1 h2
    by_cases hk : a ≤ k ∧ k < b
    · obtain ⟨k', h1', h2', e⟩ := h.inside k hk.1 hk.2
      exact ⟨k', by omega, by omega, e⟩
    · exact ⟨k, h1, h2, h.outside k (by omega)⟩

theorem seg_swapAt {data : List System} {a b i j : Nat} (hb : b ≤ data.length)
    (hia : a ≤ i) (hib : i < b) (hja : a ≤ j) (hjb : j < b) :
    Seg data (swapAt data i j) a b where
  perm := swapAt_perm data i j
  length := length_swapAt data i j
  outside := by
    intro k hk
    rw [prio_swapAt (by omega) (by omega)]
    rw [if_neg (by omega), if_neg (by omega)]
  inside := by
    intro k h1 h2
    rw [prio_swapAt (by omega) (by omega)]
    by_cases hkj : k = j
    · exact ⟨i, hia, hib, by rw [if_pos hkj]⟩
    · by_cases hki : k = i
      · exact ⟨j, hja, hjb, by rw [if_neg hkj, if_pos hki]⟩
      · exact ⟨k, h1, h2, by rw [if_neg hkj, if_neg hki]⟩

/-- A bound that holds of every priority in the range before holds after. -/
theorem seg_forall {d1 d2 : List System} {a b : Nat} (h : Seg d1 d2 a b)
    (P : Int → Prop)
    (hP : ∀ k, a ≤ k → k < b → P (prio d1 k)) :
    ∀ k, a ≤ k → k < b → P (prio d2 k) := by
  intro k h1 h2
  obtain ⟨k', h1', h2', e⟩ := h.inside k h1 h2
  rw [e]
  exact hP k' h1' h2'

theorem sortedOn_of_adjacent {data : List System} {a b : Nat}
    (h : ∀ k, a ≤ k → k + 1 < b → prio data k ≤ prio data (k + 1)) :
    SortedOn data a b := by
  intro i j hai hij hjb
  induction j with
  | zero => omega
  | succ j ih =>
    by_cases hij2 : i = j
    · subst hij2
      exact h i hai hjb
    · exact le_trans (ih (by omega) (by omega)) (h j (by omega) hjb)

theorem sortedOn_mono {data : List System} {a b a' b' : Nat} (h : SortedOn data a b)
    (ha : a ≤ a') (hb : b' ≤ b) : SortedOn data a' b' :=
  fun i j h1 h2 h3 => h i j (by omega) h2 (by omega)

theorem sortedOn_small {data : List System} {a b : Nat} (h : b ≤ a + 1) : SortedOn data a b :=
  fun i j h1 h2 h3 => by omega

theorem sortedOn_congr {d1 d2 : List System} {a b : Nat} (h : SortedOn d1 a b)
    (he : ∀ k, a ≤ k → k < b → prio d2 k = prio d1 k) : SortedOn d2 a b := by
  intro i j h1 h2 h3
  rw [he i h1 (by omega), he j (by omega) h3]
  exact h i j h1 h2 h3

/-! ## `insertionSort` -/

theorem insertionSortInner_spec (a i : Nat) :
    ∀ (j : Nat) (data : List System), j ≤ i → i < data.length → a ≤ j →
      (∀ k, a ≤ k → k + 1 ≤ i → k + 1 ≠ j → prio data k ≤ prio data (k + 1)) →
      (a < j → j < i → prio data (j - 1) ≤ prio data (j + 1)) →
      Seg data (insertionSortInner a j data) a (i + 1)
        ∧ SortedOn (insertionSortInner a j data) a (i + 1) := by
  intro j
  induction j with
  | zero =>
    intro data _ _ _ hadj _
    refine ⟨seg_refl _ _ _, sortedOn_of_adjacent ?_⟩
    intro k hk1 hk2
    exact hadj k hk1 (by omega) (by omega)
  | succ j ih =>
    intro data hji hi haj hadj hskip
    unfold insertionSortInner
    by_cases hc : (decide (a < j + 1) && lessAt data (j + 1) j) = true
    · rw [if_pos hc]
      simp only [Bool.and_eq_true, decide_eq_true_eq] at hc
      have hlt : prio data (j + 1) < prio data j :=
        (lessAt_iff (by omega) (by omega)).mp hc.2
      have hsw : ∀ k, prio (swapAt data (j + 1) j) k
          = if k = j then prio data (j + 1) else if k = j + 1 then prio data j
            else prio data k := fun k => prio_swapAt (by omega) (by omega) k
      have hseg : Seg data (swapAt data (j + 1) j) a (i + 1) :=
        seg_swapAt (by omega) (by omega) (by omega) (by omega) (by omega)
      have := ih (swapAt data (j + 1) j) (by omega)
        (by rw [length_swapAt]; exact hi) (by omega)
        (by
          intro k hk1 hk2 hk3
          rw [hsw k, hsw (k + 1)]
          by_cases h1 : k = j
          · subst h1
            rw [if_pos rfl, if_neg (by omega), if_pos rfl]
            exact le_of_lt hlt
          · by_cases h2 : k = j + 1
            · subst h2
              rw [if_neg (by omega), if_pos rfl, if_neg (by omega), if_neg (by omega)]
              have := hskip (by omega) (by omega)
              simpa using this
            · rw [if_neg h1, if_neg h2, if_neg (by omega), if_neg (by omega)]
              exact hadj k hk1 hk2 (by omega))
        (by
          intro h1 h2
          rw [hsw (j - 1), hsw (j + 1)]
          rw [if_neg (by omega), if_neg (by omega), if_neg (by omega), if_pos rfl]
          have := hadj (j - 1) (by omega) (by omega) (by omega)
          rw [show j - 1 + 1 = j by omega] at this
          exact this)
      exact ⟨seg_trans hseg this.1, this.2⟩
    · rw [if_neg hc]
      refine ⟨seg_refl _ _ _, sortedOn_of_adjacent ?_⟩
      intro k hk1 hk2
      by_cases hkj : k = j
      · subst hkj
        have hlt : a < k + 1 := by omega
        have hl : lessAt data (k + 1) k = false := by
          simpa [hlt] using hc
        exact (lessAt_false_iff (by omega) (by omega)).mp hl
      · exact hadj k hk1 (by omega) (by omega)

theorem insertionSortLoop_spec (a b : Nat) :
    ∀ (n i : Nat) (data : List System), a < i → i + n = b → b ≤ data.length →
      SortedOn data a i →
      Seg data (insertionSortLoop a n i data) a b
        ∧ SortedOn (insertionSortLoop a n i data) a b := by
  intro n
  induction n with
  | zero =>
    intro i data _ hib _ hs
    have : i = b := by omega
    subst this
    exact ⟨seg_refl _ _ _, hs⟩
  | succ n ih =>
    intro i data hai hib hb hs
    unfold insertionSortLoop
    have hin := insertionSortInner_spec a i i data (le_refl _) (by omega) (by omega)
      (by
        intro k hk1 hk2 hk3
        exact hs k (k + 1) hk1 (by omega) (by omega))
      (by
        intro _ h
        omega)
    have := ih (i + 1) (insertionSortInner a i data) (by omega) (by omega)
      (by rw [hin.1.length]; exact hb) hin.2
    exact ⟨seg_trans (seg_mono hin.1 (le_refl _) (by omega)) this.1, this.2⟩

theorem insertionSort_spec (data : List System) (a b : Nat) (hb : b ≤ data.length) :
    Seg data (insertionSort data a b) a b ∧ SortedOn (insertionSort data a b) a b := by
  unfold insertionSort
  by_cases h : a + 1 < b
  · exact insertionSortLoop_spec a b (b - (a + 1)) (a + 1) data (by omega) (by omega) hb
      (sortedOn_small (by omega))
  · have : b - (a + 1) = 0 := by omega
    rw [this]
    exact ⟨seg_refl _ _ _, sortedOn_small (by omega)⟩

/-! ## `partition` -/

theorem swapAt_self (data : List System) (i : Nat) : swapAt data i i = data := by
  unfold swapAt
  cases h : data[i]? with
  | none => rfl
  | some x =>
    simp only
    obtain ⟨hi, hx⟩ := List.getElem?_eq_some_iff.mp h
    apply List.ext_getElem?
    intro k
    rw [List.set_set, List.getElem?_set]
    by_cases hk : i = k
    · subst hk
      rw [if_pos rfl, if_pos hi, h]
    · rw [if_neg hk]

theorem skipLess_spec (data : List System) (a j : Nat) (hj : j < data.length)
    (ha : a < data.length) :
    ∀ (fuel i : Nat), j + 1 - i ≤ fuel → i ≤ j + 1 →
      i ≤ skipLess data a j fuel i ∧ skipLess data a j fuel i ≤ j + 1
        ∧ (∀ k, i ≤ k → k < skipLess data a j fuel i → prio data k < prio data a)
        ∧ (skipLess data a j fuel i ≤ j →
            prio data a ≤ prio data (skipLess data a j fuel i)) := by
  intro fuel
  induction fuel with
  | zero =>
    intro i h1 h2
    unfold skipLess
    exact ⟨le_refl _, h2, fun k hk1 hk2 => by omega, fun h => by omega⟩
  | succ fuel ih =>
    intro i h1 h2
    unfold skipLess
    by_cases hc : (decide (i ≤ j) && lessAt data i a) = true
    · rw [if_pos hc]
      simp only [Bool.and_eq_true, decide_eq_true_eq] at hc
      have hlt := (lessAt_iff (by omega) ha).mp hc.2
      obtain ⟨r1, r2, r3, r4⟩ := ih (i + 1) (by omega) (by omega)
      refine ⟨by omega, r2, ?_, r4⟩
      intro k hk1 hk2
      by_cases hki : k = i
      · rw [hki]
        exact hlt
      · exact r3 k (by omega) hk2
    · rw [if_neg hc]
      refine ⟨le_refl _, h2, fun k hk1 hk2 => by omega, ?_⟩
      intro hij
      have hl : lessAt data i a = false := by
        simpa [hij] using hc
      exact (lessAt_false_iff (by omega) ha).mp hl

theorem skipNotLess_spec (data : List System) (a i : Nat) (ha : a < data.length)
    (hi : 1 ≤ i) :
    ∀ (j : Nat), j < data.length → i ≤ j + 1 →
      skipNotLess data a i j ≤ j ∧ i ≤ skipNotLess data a i j + 1
        ∧ (∀ k, skipNotLess data a i j < k → k ≤ j → prio data a ≤ prio data k)
        ∧ (i ≤ skipNotLess data a i j →
            prio data (skipNotLess data a i j) < prio data a) := by
  intro j
  induction j with
  | zero =>
    intro _ h2
    unfold skipNotLess
    exact ⟨le_refl _, by omega, fun k hk1 hk2 => by omega, fun h => by omega⟩
  | succ j ih =>
    intro h1 h2
    unfold skipNotLess
    by_cases hc : (decide (i ≤ j + 1) && !lessAt data (j + 1) a) = true
    · rw [if_pos hc]
      simp only [Bool.and_eq_true, decide_eq_true_eq, Bool.not_eq_true'] at hc
      have hle := (lessAt_false_iff h1 ha).mp hc.2
      obtain ⟨r1, r2, r3, r4⟩ := ih (by omega) hc.1
      refine ⟨by omega, r2, ?_, r4⟩
      intro k hk1 hk2
      by_cases hkj : k = j + 1
      · rw [hkj]
        exact hle
      · exact r3 k hk1 (by omega)
    · rw [if_neg hc]
      refine ⟨le_refl _, by omega, fun k hk1 hk2 => by omega, ?_⟩
      intro hij
      have hl : lessAt data (j + 1) a = true := by
        simpa [hij] using hc
      exact (lessAt_iff h1 ha).mp hl

theorem partitionLoop_spec (a b : Nat) :
    ∀ (fuel : Nat) (data : List System) (i j : Nat), j + 1 - i ≤ fuel → b ≤ data.length →
      a + 1 ≤ i → j < b → i ≤ j + 1 →
      (∀ k, a < k → k < i → prio data k < prio data a) →
      (∀ k, j < k → k < b → prio data a ≤ prio data k) →
      Seg data (partitionLoop a fuel data i j).1 (a + 1) b
        ∧ (partitionLoop a fuel data i j).2.2 + 1 = (partitionLoop a fuel data i j).2.1
        ∧ a + 1 ≤ (partitionLoop a fuel data i j).2.1
        ∧ (partitionLoop a fuel data i j).2.2 < b
        ∧ (∀ k, a < k → k < (partitionLoop a fuel data i j).2.1 →
            prio (partitionLoop a fuel data i j).1 k
              < prio (partitionLoop a fuel data i j).1 a)
        ∧ (∀ k, (partitionLoop a fuel data i j).2.2 < k → k < b →
            prio (partitionLoop a fuel data i j).1 a
              ≤ prio (partitionLoop a fuel data i j).1 k) := by
  intro fuel
  induction fuel with
  | zero =>
    intro data i j hf hb hai hjb hij hL hR
    unfold partitionLoop
    exact ⟨seg_refl _ _ _, by simp only; omega, hai, hjb, hL, hR⟩
  | succ fuel ih =>
    intro data i j hf hb hai hjb hij hL hR
    unfold partitionLoop
    dsimp only
    obtain ⟨s1, s2, s3, s4⟩ :=
      skipLess_spec data a j (by omega) (by omega) (j + 1 - i) i (le_refl _) hij
    generalize skipLess data a j (j + 1 - i) i = i1 at s1 s2 s3 s4 ⊢
    obtain ⟨t1, t2, t3, t4⟩ :=
      skipNotLess_spec data a i1 (by omega) (by omega) j (by omega) s2
    generalize skipNotLess data a i1 j = j1 at t1 t2 t3 t4 ⊢
    by_cases hbr : j1 < i1
    · rw [if_pos hbr]
      refine ⟨seg_refl _ _ _, by simp only; omega, by simp only; omega, by simp only; omega,
        ?_, ?_⟩
      · intro k hk1 hk2
        by_cases hki : k < i
        · exact hL k hk1 hki
        · exact s3 k (by omega) hk2
      · intro k hk1 hk2
        by_cases hkj : j < k
        · exact hR k hkj hk2
        · exact t3 k hk1 (by omega)
    · rw [if_neg hbr]
      have hge := s4 (by omega)
      have hlt := t4 (by omega)
      have hne : i1 < j1 := by
        rcases Nat.lt_or_ge i1 j1 with h | h
        · exact h
        · have : i1 = j1 := by omega
          rw [this] at hge
          omega
      have hsw : ∀ k, prio (swapAt data i1 j1) k
          = if k = j1 then prio data i1 else if k = i1 then prio data j1
            else prio data k := fun k => prio_swapAt (by omega) (by omega) k
      have hseg : Seg data (swapAt data i1 j1) (a + 1) b :=
        seg_swapAt hb (by omega) (by omega) (by omega) (by omega)
      have hpa : prio (swapAt data i1 j1) a = prio data a := by
        rw [hsw a, if_neg (by omega), if_neg (by omega)]
      obtain ⟨r1, r2, r3, r4, r5, r6⟩ := ih (swapAt data i1 j1) (i1 + 1) (j1 - 1) (by omega)
        (by rw [length_swapAt]; exact hb) (by omega) (by omega) (by omega)
        (by
          intro k hk1 hk2
          rw [hpa, hsw k]
          by_cases h1 : k = i1
          · rw [if_neg (by omega), if_pos h1]
            exact hlt
          · rw [if_neg (by omega), if_neg h1]
            by_cases hki : k < i
            · exact hL k hk1 hki
            · exact s3 k (by omega) (by omega))
        (by
          intro k hk1 hk2
          rw [hpa, hsw k]
          by_cases h1 : k = j1
          · rw [if_pos h1]
            exact hge
          · rw [if_neg h1, if_neg (by omega)]
            by_cases hkj : j < k
            · exact hR k hkj hk2
            · exact t3 k (by omega) (by omega))
      exact ⟨seg_trans hseg r1, r2, r3, r4, r5, r6⟩

theorem partition_finish (data : List System) (a b j : Nat) (haj : a ≤ j) (hjb : j < b)
    (hb : b ≤ data.length)
    (hL : ∀ k, a < k → k ≤ j → prio data k < prio data a)
    (hR : ∀ k, j < k → k < b → prio data a ≤ prio data k) :
    Seg data (swapAt data j a) a b
      ∧ (∀ k, a ≤ k → k < j → prio (swapAt data j a) k < prio (swapAt data j a) j)
      ∧ (∀ k, j < k → k < b → prio (swapAt data j a) j ≤ prio (swapAt data j a) k) := by
  have hsw : ∀ k, prio (swapAt data j a) k
      = if k = a then prio data j else if k = j then prio data a
        else prio data k := fun k => prio_swapAt (by omega) (by omega) k
  have e2 : prio (swapAt data j a) j = prio data a := by
    rw [hsw j]
    by_cases hja : j = a
    · rw [if_pos hja, hja]
    · rw [if_neg hja, if_pos rfl]
  refine ⟨seg_swapAt hb haj hjb (le_refl _) (by omega), ?_, ?_⟩
  · intro k hk1 hk2
    rw [e2, hsw k]
    by_cases hka : k = a
    · rw [if_pos hka]
      exact hL j (by omega) (le_refl _)
    · rw [if_neg hka, if_neg (by omega)]
      exact hL k (by omega) (by omega)
  · intro k hk1 hk2
    rw [e2, hsw k, if_neg (by omega), if_neg (by omega)]
    exact hR k hk1 hk2

/-- What `partition` leaves: the pivot at `mid`, only smaller priorities in
front of it and no smaller priority behind it. -/
theorem partition_spec (data : List System) (a b pivot : Nat) (hab : a < b)
    (hb : b ≤ data.length) (hpa : a ≤ pivot) (hpb : pivot < b) :
    Seg data (partition data a b pivot).1 a b
      ∧ a ≤ (partition data a b pivot).2.1 ∧ (partition data a b pivot).2.1 < b
      ∧ (∀ k, a ≤ k → k < (partition data a b pivot).2.1 →
          prio (partition data a b pivot).1 k
            < prio (partition data a b pivot).1 (partition data a b pivot).2.1)
      ∧ (∀ k, (partition data a b pivot).2.1 < k → k < b →
          prio (partition data a b pivot).1 (partition data a b pivot).2.1
            ≤ prio (partition data a b pivot).1 k) := by
  unfold partition
  have hseg1 : Seg data (swapAt data a pivot) a b :=
    seg_swapAt hb (le_refl _) hab hpa hpb
  have hlen1 : (swapAt data a pivot).length = data.length := length_swapAt _ _ _
  generalize swapAt data a pivot = data1 at hseg1 hlen1 ⊢
  have hb1 : b ≤ data1.length := by omega
  dsimp only
  by_cases hone : b = a + 1
  · -- a single element: both scans stop at once
    subst hone
    have hi : skipLess data1 a (a + 1 - 1) (a + 1 - (a + 1)) (a + 1) = a + 1 := by
      rw [show a + 1 - (a + 1) = 0 by omega]
      rfl
    rw [hi]
    obtain ⟨t1, t2, t3, t4⟩ :=
      skipNotLess_spec data1 a (a + 1) (by omega) (by omega) (a + 1 - 1) (by omega) (by omega)
    generalize skipNotLess data1 a (a + 1) (a + 1 - 1) = j at t1 t2 t3 t4 ⊢
    have hj : j = a := by omega
    subst hj
    rw [if_pos (by omega)]
    simp only [swapAt_self]
    exact ⟨hseg1, le_refl _, by omega, fun k h1 h2 => by omega, fun k h1 h2 => by omega⟩
  · obtain ⟨s1, s2, s3, s4⟩ := skipLess_spec data1 a (b - 1) (by omega) (by omega)
      (b - (a + 1)) (a + 1) (by omega) (by omega)
    generalize skipLess data1 a (b - 1) (b - (a + 1)) (a + 1) = i at s1 s2 s3 s4 ⊢
    obtain ⟨t1, t2, t3, t4⟩ :=
      skipNotLess_spec data1 a i (by omega) (by omega) (b - 1) (by omega) s2
    generalize skipNotLess data1 a i (b - 1) = j at t1 t2 t3 t4 ⊢
    by_cases hbr : j < i
    · rw [if_pos hbr]
      dsimp only
      obtain ⟨f1, f2, f3⟩ := partition_finish data1 a b j (by omega) (by omega) hb1
        (fun k hk1 hk2 => s3 k (by omega) (by omega))
        (fun k hk1 hk2 => t3 k hk1 (by omega))
      exact ⟨seg_trans hseg1 f1, by omega, by omega, f2, f3⟩
    · rw [if_neg hbr]
      dsimp only
      have hge := s4 (by omega)
      have hlt := t4 (by omega)
      have hne : i < j := by
        rcases Nat.lt_or_ge i j with h | h
        · exact h
        · have : i = j := by omega
          rw [this] at hge
          omega
      have hsw : ∀ k, prio (swapAt data1 i j) k
          = if k = j then prio data1 i else if k = i then prio data1 j
            else prio data1 k := fun k => prio_swapAt (by omega) (by omega) k
      have hseg2 : Seg data1 (swapAt data1 i j) a b :=
        seg_swapAt hb1 (by omega) (by omega) (by omega) (by omega)
      have hpa2 : prio (swapAt data1 i j) a = prio data1 a := by
        rw [hsw a, if_neg (by omega), if_neg (by omega)]
      obtain ⟨r1, r2, r3, r4, r5, r6⟩ := partitionLoop_spec a b (b - a) (swapAt data1 i j)
        (i + 1) (j - 1) (by omega) (by rw [length_swapAt]; exact hb1) (by omega) (by omega)
        (by omega)
        (by
          intro k hk1 hk2
          rw [hpa2, hsw k]
          by_cases h1 : k = i
          · rw [if_neg (by omega), if_pos h1]
            exact hlt
          · rw [if_neg (by omega), if_neg h1]
            exact s3 k (by omega) (by omega))
        (by
          intro k hk1 hk2
          rw [hpa2, hsw k]
          by_cases h1 : k = j
          · rw [if_pos h1]
            exact hge
          · rw [if_neg h1, if_neg (by omega)]
            exact t3 k (by omega) (by omega))
      generalize partitionLoop a (b - a) (swapAt data1 i j) (i + 1) (j - 1) = r
        at r1 r2 r3 r4 r5 r6 ⊢
      have hlenr : r.1.length = data1.length := by
        rw [r1.length, length_swapAt]
      obtain ⟨f1, f2, f3⟩ := partition_finish r.1 a b r.2.2 (by omega) (by omega) (by omega)
        (fun k hk1 hk2 => r5 k hk1 (by omega)) r6
      exact ⟨seg_trans (seg_trans hseg1 hseg2)
          (seg_trans (seg_mono r1 (by omega) (le_refl _)) f1),
        by omega, by omega, f2, f3⟩

/-! ## `partitionEqual` -/

theorem skipNotGreater_spec (data : List System) (a j : Nat) (hj : j < data.length)
    (ha : a < data.length) :
    ∀ (fuel i : Nat), j + 1 - i ≤ fuel → i ≤ j + 1 →
      i ≤ skipNotGreater data a j fuel i ∧ skipNotGreater data a j fuel i ≤ j + 1
        ∧ (∀ k, i ≤ k → k < skipNotGreater data a j fuel i → prio data k ≤ prio data a)
        ∧ (skipNotGreater data a j fuel i ≤ j →
            prio data a < prio data (skipNotGreater data a j fuel i)) := by
  intro fuel
  induction fuel with
  | zero =>
    intro i h1 h2
    unfold skipNotGreater
    exact ⟨le_refl _, h2, fun k hk1 hk2 => by omega, fun h => by omega⟩
  | succ fuel ih =>
    intro i h1 h2
    unfold skipNotGreater
    by_cases hc : (decide (i ≤ j) && !lessAt data a i) = true
    · rw [if_pos hc]
      simp only [Bool.and_eq_true, decide_eq_true_eq, Bool.not_eq_true'] at hc
      have hle := (lessAt_false_iff ha (by omega)).mp hc.2
      obtain ⟨r1, r2, r3, r4⟩ := ih (i + 1) (by omega) (by omega)
      refine ⟨by omega, r2, ?_, r4⟩
      intro k hk1 hk2
      by_cases hki : k = i
      · rw [hki]
        exact hle
      · exact r3 k (by omega) hk2
    · rw [if_neg hc]
      refine ⟨le_refl _, h2, fun k hk1 hk2 => by omega, ?_⟩
      intro hij
      have hl : lessAt data a i = true := by
        simpa [hij] using hc
      exact (lessAt_iff ha (by omega)).mp hl

theorem skipGreater_spec (data : List System) (a i : Nat) (ha : a < data.length)
    (hi : 1 ≤ i) :
    ∀ (j : Nat), j < data.length → i ≤ j + 1 →
      skipGreater data a i j ≤ j ∧ i ≤ skipGreater data a i j + 1
        ∧ (∀ k, skipGreater data a i j < k → k ≤ j → prio data a < prio data k)
        ∧ (i ≤ skipGreater data a i j →
            prio data (skipGreater data a i j) ≤ prio data a) := by
  intro j
  induction j with
  | zero =>
    intro _ h2
    unfold skipGreater
    exact ⟨le_refl _, by omega, fun k hk1 hk2 => by omega, fun h => by omega⟩
  | succ j ih =>
    intro h1 h2
    unfold skipGreater
    by_cases hc : (decide (i ≤ j + 1) && lessAt data a (j + 1)) = true
    · rw [if_pos hc]
      simp only [Bool.and_eq_true, decide_eq_true_eq] at hc
      have hlt := (lessAt_iff ha h1).mp hc.2
      obtain ⟨r1, r2, r3, r4⟩ := ih (by omega) hc.1
      refine ⟨by omega, r2, ?_, r4⟩
      intro k hk1 hk2
      by_cases hkj : k = j + 1
      · rw [hkj]
        exact hlt
      · exact r3 k hk1 (by omega)
    · rw [if_neg hc]
      refine ⟨le_refl _, by omega, fun k hk1 hk2 => by omega, ?_⟩
      intro hij
      have hl : lessAt data a (j + 1) = false := by
        simpa [hij] using hc
      exact (lessAt_false_iff ha h1).mp hl

theorem partitionEqualLoop_spec (a b : Nat) :
    ∀ (fuel : Nat) (data : List System) (i j : Nat), j + 1 - i ≤ fuel → b ≤ data.length →
      a + 1 ≤ i → j < b → i ≤ j + 1 →
      (∀ k, a < k → k < i → prio data k ≤ prio data a) →
      (∀ k, j < k → k < b → prio data a < prio data k) →
      Seg data (partitionEqualLoop a fuel data i j).1 (a + 1) b
        ∧ a + 1 ≤ (partitionEqualLoop a fuel data i j).2
        ∧ (partitionEqualLoop a fuel data i j).2 ≤ b
        ∧ (∀ k, a < k → k < (partitionEqualLoop a fuel data i j).2 →
            prio (partitionEqualLoop a fuel data i j).1 k
              ≤ prio (partitionEqualLoop a fuel data i j).1 a)
        ∧ (∀ k, (partitionEqualLoop a fuel data i j).2 ≤ k → k < b →
            prio (partitionEqualLoop a fuel data i j).1 a
              < prio (partitionEqualLoop a fuel data i j).1 k) := by
  intro fuel
  induction fuel with
  | zero =>
    intro data i j hf hb hai hjb hij hL hR
    unfold partitionEqualLoop
    exact ⟨seg_refl _ _ _, hai, by simp only; omega, hL,
      fun k hk1 hk2 => hR k (by simp only at hk1; omega) hk2⟩
  | succ fuel ih =>
    intro data i j hf hb hai hjb hij hL hR
    unfold partitionEqualLoop
    dsimp only
    obtain ⟨s1, s2, s3, s4⟩ :=
      skipNotGreater_spec data a j (by omega) (by omega) (j + 1 - i) i (le_refl _) hij
    generalize skipNotGreater data a j (j + 1 - i) i = i1 at s1 s2 s3 s4 ⊢
    obtain ⟨t1, t2, t3, t4⟩ :=
      skipGreater_spec data a i1 (by omega) (by omega) j (by omega) s2
    generalize skipGreater data a i1 j = j1 at t1 t2 t3 t4 ⊢
    by_cases hbr : j1 < i1
    · rw [if_pos hbr]
      refine ⟨seg_refl _ _ _, by simp only; omega, by simp only; omega, ?_, ?_⟩
      · intro k hk1 hk2
        by_cases hki : k < i
        · exact hL k hk1 hki
        · exact s3 k (by omega) hk2
      · intro k hk1 hk2
        simp only at hk1
        by_cases hkj : j < k
        · exact hR k hkj hk2
        · exact t3 k (by omega) (by omega)
    · rw [if_neg hbr]
      have hgt := s4 (by omega)
      have hle := t4 (by omega)
      have hne : i1 < j1 := by
        rcases Nat.lt_or_ge i1 j1 with h | h
        · exact h
        · have : i1 = j1 := by omega
          rw [this] at hgt
          omega
      have hsw : ∀ k, prio (swapAt data i1 j1) k
          = if k = j1 then prio data i1 else if k = i1 then prio data j1
            else prio data k := fun k => prio_swapAt (by omega) (by omega) k
      have hseg : Seg data (swapAt data i1 j1) (a + 1) b :=
        seg_swapAt hb (by omega) (by omega) (by omega) (by omega)
      have hpa : prio (swapAt data i1 j1) a = prio data a := by
        rw [hsw a, if_neg (by omega), if_neg (by omega)]
      obtain ⟨r1, r2, r3, r4, r5⟩ := ih (swapAt data i1 j1) (i1 + 1) (j1 - 1) (by omega)
        (by rw [length_swapAt]; exact hb) (by omega) (by omega) (by omega)
        (by
          intro k hk1 hk2
          rw [hpa, hsw k]
          by_cases h1 : k = i1
          · rw [if_neg (by omega), if_pos h1]
            exact hle
          · rw [if_neg (by omega), if_neg h1]
            by_cases hki : k < i
            · exact hL k hk1 hki
            · exact s3 k (by omega) (by omega))
        (by
          intro k hk1 hk2
          rw [hpa, hsw k]
          by_cases h1 : k = j1
          · rw [if_pos h1]
            exact hgt
          · rw [if_neg h1, if_neg (by omega)]
            by_cases hkj : j < k
            · exact hR k hkj hk2
            · exact t3 k (by omega) (by omega))
      exact ⟨seg_trans hseg r1, by omega, r3, r4, r5⟩

/-- What `partitionEqual` leaves: in front of `mid` no priority above the
pivot, from `mid` on only priorities above it. -/
theorem partitionEqual_spec (data : List System) (a b pivot : Nat) (hab : a < b)
    (hb : b ≤ data.length) (hpa : a ≤ pivot) (hpb : pivot < b) :
    Seg data (partitionEqual data a b pivot).1 a b
      ∧ a < (partitionEqual data a b pivot).2 ∧ (partitionEqual data a b pivot).2 ≤ b
      ∧ (∀ k, a ≤ k → k < (partitionEqual data a b pivot).2 →
          prio (partitionEqual data a b pivot).1 k ≤ prio data pivot)
      ∧ (∀ k, (partitionEqual data a b pivot).2 ≤ k → k < b →
          prio data pivot < prio (partitionEqual data a b pivot).1 k) := by
  unfold partitionEqual
  have hseg1 : Seg data (swapAt data a pivot) a b :=
    seg_swapAt hb (le_refl _) hab hpa hpb
  have hp : prio (swapAt data a pivot) a = prio data pivot := by
    rw [prio_swapAt (by omega) (by omega)]
    by_cases h : a = pivot
    · rw [if_pos h, h]
    · rw [if_neg h, if_pos rfl]
  have hlen1 : (swapAt data a pivot).length = data.length := length_swapAt _ _ _
  generalize swapAt data a pivot = data1 at hseg1 hlen1 hp ⊢
  obtain ⟨r1, r2, r3, r4, r5⟩ := partitionEqualLoop_spec a b (b - a) data1 (a + 1) (b - 1)
    (by omega) (by omega) (le_refl _) (by omega) (by omega)
    (fun k hk1 hk2 => by omega) (fun k hk1 hk2 => by omega)
  generalize partitionEqualLoop a (b - a) data1 (a + 1) (b - 1) = r at r1 r2 r3 r4 r5 ⊢
  have hra : prio r.1 a = prio data1 a := r1.outside a (by omega)
  refine ⟨seg_trans hseg1 (seg_mono r1 (by omega) (le_refl _)), by omega, r3, ?_, ?_⟩
  · intro k hk1 hk2
    by_cases hka : k = a
    · rw [hka, hra, hp]
    · have := r4 k (by omega) hk2
      rw [hra, hp] at this
      exact this
  · intro k hk1 hk2
    have := r5 k hk1 hk2
    rw [hra, hp] at this
    exact this

/-! ## `heapSort` -/

theorem prio_swapAt_offset (data : List System) (first r c : Nat)
    (hr : first + r < data.length) (hc : first + c < data.length) (x : Nat) :
    prio (swapAt data (first + r) (first + c)) (first + x)
      = if x = c then prio data (first + r) else if x = r then prio data (first + c)
        else prio data (first + x) := by
  rw [prio_swapAt hr hc]
  by_cases h1 : x = c
  · rw [if_pos h1, if_pos (by omega)]
  · rw [if_neg h1, if_neg (by omega)]
    by_cases h2 : x = r
    · rw [if_pos h2, if_pos (by omega)]
    · rw [if_neg h2, if_neg (by omega)]

theorem siftDown_spec (hi first lo : Nat) :
    ∀ (fuel root : Nat) (data : List System), hi - root ≤ fuel → lo ≤ root →
      first + hi ≤ data.length →
      (∀ k c, lo ≤ k → k ≠ root → c < hi → c = 2 * k + 1 ∨ c = 2 * k + 2 →
        prio data (first + c) ≤ prio data (first + k)) →
      (∀ pr c, lo ≤ pr → root = 2 * pr + 1 ∨ root = 2 * pr + 2 →
        c = 2 * root + 1 ∨ c = 2 * root + 2 → c < hi →
        prio data (first + c) ≤ prio data (first + pr)) →
      Seg data (siftDown hi first fuel root data) first (first + hi)
        ∧ HeapOn (siftDown hi first fuel root data) first lo hi := by
  intro fuel
  induction fuel with
  | zero =>
    intro root data hf hlo hlen hE hG
    unfold siftDown
    refine ⟨seg_refl _ _ _, ?_⟩
    intro k c hk hc hch
    by_cases hkr : k = root
    · omega
    · exact hE k c hk hkr hc hch
  | succ fuel ih =>
    intro root data hf hlo hlen hE hG
    unfold siftDown
    by_cases h1 : hi ≤ 2 * root + 1
    · rw [if_pos h1]
      refine ⟨seg_refl _ _ _, ?_⟩
      intro k c hk hc hch
      by_cases hkr : k = root
      · omega
      · exact hE k c hk hkr hc hch
    · rw [if_neg h1]
      dsimp only
      have hchild : ∃ ch, (if (decide (2 * root + 1 + 1 < hi)
            && lessAt data (first + (2 * root + 1)) (first + (2 * root + 1) + 1)) = true
            then 2 * root + 1 + 1 else 2 * root + 1) = ch
          ∧ (ch = 2 * root + 1 ∨ ch = 2 * root + 2) ∧ ch < hi
          ∧ ∀ c, c = 2 * root + 1 ∨ c = 2 * root + 2 → c < hi →
              prio data (first + c) ≤ prio data (first + ch) := by
        by_cases hc : (decide (2 * root + 1 + 1 < hi)
            && lessAt data (first + (2 * root + 1)) (first + (2 * root + 1) + 1)) = true
        · rw [if_pos hc]
          simp only [Bool.and_eq_true, decide_eq_true_eq] at hc
          have hlt := (lessAt_iff (by omega) (by omega)).mp hc.2
          refine ⟨_, rfl, Or.inr rfl, hc.1, ?_⟩
          intro c hcc hchi
          rcases hcc with h | h
          · rw [h]
            exact le_of_lt hlt
          · rw [h]
        · rw [if_neg hc]
          refine ⟨_, rfl, Or.inl rfl, by omega, ?_⟩
          intro c hcc hchi
          rcases hcc with h | h
          · rw [h]
          · rw [h]
            have hl : lessAt data (first + (2 * root + 1)) (first + (2 * root + 1) + 1)
                = false := by
              have : 2 * root + 1 + 1 < hi := by omega
              simpa [this] using hc
            exact (lessAt_false_iff (by omega) (by omega)).mp hl
      obtain ⟨ch, hche, hch, hchi, hmax⟩ := hchild
      rw [hche]
      by_cases h2 : lessAt data (first + root) (first + ch) = true
      · rw [if_neg (by simp [h2])]
        have hlt := (lessAt_iff (by omega) (by omega)).mp h2
        have hsw := prio_swapAt_offset data first root ch
          (by omega) (by omega)
        have hseg : Seg data (swapAt data (first + root) (first + ch)) first (first + hi) :=
          seg_swapAt hlen (by omega) (by omega) (by omega) (by omega)
        obtain ⟨r1, r2⟩ := ih ch (swapAt data (first + root) (first + ch)) (by omega)
          (by omega) (by rw [length_swapAt]; exact hlen)
          (by
            intro k c hk hkc hc hcc
            by_cases hkr : k = root
            · have ek : prio (swapAt data (first + root) (first + ch)) (first + k)
                  = prio data (first + ch) := by
                rw [hsw k, if_neg hkc, if_pos hkr]
              rw [ek]
              by_cases hcch : c = ch
              · rw [hsw c, if_pos hcch]
                exact le_of_lt hlt
              · rw [hsw c, if_neg hcch, if_neg (by omega)]
                exact hmax c (by omega) hc
            · have ek : prio (swapAt data (first + root) (first + ch)) (first + k)
                  = prio data (first + k) := by
                rw [hsw k, if_neg hkc, if_neg hkr]
              rw [ek]
              by_cases hcr : c = root
              · rw [hsw c, if_neg (by omega), if_pos hcr]
                exact hG k ch hk (by omega) hch hchi
              · rw [hsw c, if_neg (by omega), if_neg hcr]
                exact hE k c hk hkr hc hcc)
          (by
            intro pr c hpr hp hcc hc
            have hpr2 : pr = root := by omega
            have ek : prio (swapAt data (first + root) (first + ch)) (first + pr)
                = prio data (first + ch) := by
              rw [hsw pr, if_neg (by omega), if_pos hpr2]
            rw [ek, hsw c, if_neg (by omega), if_neg (by omega)]
            exact hE ch c (by omega) (by omega) hc hcc)
        exact ⟨seg_trans hseg r1, r2⟩
      · have h3 : lessAt data (first + root) (first + ch) = false := by
          simpa using h2
        rw [if_pos (by simp [h3])]
        have hle := (lessAt_false_iff (by omega) (by omega)).mp h3
        refine ⟨seg_refl _ _ _, ?_⟩
        intro k c hk hc hcc
        by_cases hkr : k = root
        · rw [hkr]
          exact le_trans (hmax c (by omega) hc) hle
        · exact hE k c hk hkr hc hcc

theorem heapBuild_spec (hi first : Nat) :
    ∀ (i : Nat) (data : List System), first + hi ≤ data.length →
      HeapOn data first (i + 1) hi →
      Seg data (heapBuild hi first i data) first (first + hi)
        ∧ HeapOn (heapBuild hi first i data) first 0 hi := by
  intro i
  induction i with
  | zero =>
    intro data hlen hH
    unfold heapBuild
    exact siftDown_spec hi first 0 hi 0 data (by omega) (le_refl _) hlen
      (fun k c hk hk0 hc hcc => hH k c (by omega) hc hcc)
      (fun pr c hpr hp hcc hc => by omega)
  | succ i ih =>
    intro data hlen hH
    unfold heapBuild
    obtain ⟨s1, s2⟩ := siftDown_spec hi first (i + 1) hi (i + 1) data (by omega) (le_refl _)
      hlen (fun k c hk hk0 hc hcc => hH k c (by omega) hc hcc)
      (fun pr c hpr hp hcc hc => by omega)
    obtain ⟨r1, r2⟩ := ih (siftDown hi first hi (i + 1) data)
      (by rw [s1.length]; exact hlen) s2
    exact ⟨seg_trans s1 r1, r2⟩

/-- The root of a heap carries the greatest priority. -/
theorem heapOn_root {data : List System} {first hi : Nat} (hH : HeapOn data first 0 hi) :
    ∀ k, k < hi → prio data (first + k) ≤ prio data (first + 0) := by
  intro k
  induction k using Nat.strong_induction_on with
  | _ k ih =>
    intro hk
    by_cases hk0 : k = 0
    · rw [hk0]
    · exact le_trans (hH ((k - 1) / 2) k (Nat.zero_le _) hk (by omega))
        (ih ((k - 1) / 2) (by omega) (by omega))

theorem heapPop_spec (first hi : Nat) :
    ∀ (n : Nat) (data : List System), n ≤ hi → first + hi ≤ data.length →
      HeapOn data first 0 n → SortedOn data (first + n) (first + hi) →
      (∀ x m, x < n → n ≤ m → m < hi →
        prio data (first + x) ≤ prio data (first + m)) →
      Seg data (heapPop first n data) first (first + hi)
        ∧ SortedOn (heapPop first n data) first (first + hi) := by
  intro n
  induction n with
  | zero =>
    intro data hn hlen hH hS hC
    unfold heapPop
    exact ⟨seg_refl _ _ _, hS⟩
  | succ i ih =>
    intro data hn hlen hH hS hC
    unfold heapPop
    have hsw := prio_swapAt_offset data first 0 i (by omega) (by omega)
    have hseg1 : Seg data (swapAt data first (first + i)) first (first + hi) :=
      seg_swapAt hlen (le_refl _) (by omega) (by omega) (by omega)
    have hlen1 : (swapAt data first (first + i)).length = data.length := length_swapAt _ _ _
    rw [Nat.add_zero] at hsw
    generalize swapAt data first (first + i) = d1 at hsw hseg1 hlen1 ⊢
    obtain ⟨s1, s2⟩ := siftDown_spec i first 0 i 0 d1 (by omega) (le_refl _) (by omega)
      (by
        intro k c hk hk0 hc hcc
        have ek : prio d1 (first + k) = prio data (first + k) := by
          rw [hsw k, if_neg (by omega), if_neg (by omega)]
        rw [ek, hsw c, if_neg (by omega), if_neg (by omega)]
        exact hH k c hk (by omega) hcc)
      (fun pr c hpr hp hcc hc => by omega)
    have hlen2 : (siftDown i first i 0 d1).length = d1.length := s1.length
    generalize siftDown i first i 0 d1 = d2 at s1 s2 hlen2 ⊢
    have hout : ∀ m, i ≤ m → prio d2 (first + m) = prio d1 (first + m) :=
      fun m hm => s1.outside (first + m) (Or.inr (by omega))
    obtain ⟨r1, r2⟩ := ih d2 (by omega) (by omega) s2
      (by
        intro p q hp hpq hq
        have ep : p = first + (p - first) := by omega
        have eq : q = first + (q - first) := by omega
        have e2 : prio d2 q = prio data q := by
          rw [eq, hout _ (by omega), hsw, if_neg (by omega), if_neg (by omega)]
        rw [e2]
        by_cases hpi : p - first = i
        · have e1 : prio d2 p = prio data first := by
            rw [ep, hout _ (by omega), hsw, if_pos hpi]
          rw [e1]
          have := hC 0 (q - first) (by omega) (by omega) (by omega)
          rw [Nat.add_zero, ← eq] at this
          exact this
        · have e1 : prio d2 p = prio data p := by
            rw [ep, hout _ (by omega), hsw, if_neg hpi, if_neg (by omega)]
          rw [e1]
          exact hS p q (by omega) hpq hq)
      (by
        intro x m hx hm hmh
        obtain ⟨k', hk1, hk2, he⟩ := s1.inside (first + x) (by omega) (by omega)
        have ek : k' = first + (k' - first) := by omega
        have hy : ∃ y, y < i + 1 ∧ prio d2 (first + x) = prio data (first + y) := by
          rw [he, ek, hsw, if_neg (by omega)]
          by_cases hk0 : k' - first = 0
          · rw [if_pos hk0]
            exact ⟨i, by omega, rfl⟩
          · rw [if_neg hk0]
            exact ⟨k' - first, by omega, rfl⟩
        obtain ⟨y, hy1, hy2⟩ := hy
        rw [hy2, hout m hm, hsw m]
        by_cases hmi : m = i
        · rw [if_pos hmi]
          have := heapOn_root hH y hy1
          rw [Nat.add_zero] at this
          exact this
        · rw [if_neg hmi, if_neg (by omega)]
          exact hC y m hy1 (by omega) hmh)
    exact ⟨seg_trans hseg1 (seg_trans (seg_mono s1 (le_refl _) (by omega)) r1), r2⟩

theorem heapSort_spec (data : List System) (a b : Nat) (hab : a ≤ b)
    (hb : b ≤ data.length) :
    Seg data (heapSort data a b) a b ∧ SortedOn (heapSort data a b) a b := by
  unfold heapSort
  have hba : a + (b - a) = b := by omega
  obtain ⟨s1, s2⟩ := heapBuild_spec (b - a) a ((b - a - 1) / 2) data (by omega)
    (fun k c hk hc hcc => by omega)
  obtain ⟨r1, r2⟩ := heapPop_spec a (b - a) (b - a) _ (le_refl _)
    (by rw [s1.length]; omega) s2 (fun i j h1 h2 h3 => by omega)
    (fun x m h1 h2 h3 => by omega)
  rw [hba] at s1 r1 r2
  exact ⟨seg_trans s1 r1, r2⟩

/-! ## `reverseRange`, `breakPatterns`, `choosePivot` -/

theorem reverseRangeLoop_spec (a b : Nat) :
    ∀ (fuel : Nat) (i j : Nat) (data : List System), a ≤ i → j < b → b ≤ data.length →
      Seg data (reverseRangeLoop fuel i j data) a b := by
  intro fuel
  induction fuel with
  | zero =>
    intro i j data _ _ _
    exact seg_refl _ _ _
  | succ fuel ih =>
    intro i j data hi hj hb
    unfold reverseRangeLoop
    by_cases h : i < j
    · rw [if_pos h]
      exact seg_trans (seg_swapAt hb hi (by omega) (by omega) hj)
        (ih (i + 1) (j - 1) _ (by omega) (by omega) (by rw [length_swapAt]; exact hb))
    · rw [if_neg h]
      exact seg_refl _ _ _

theorem reverseRange_spec (data : List System) (a b : Nat) (hab : a < b)
    (hb : b ≤ data.length) : Seg data (reverseRange data a b) a b :=
  reverseRangeLoop_spec a b (b - a) a (b - 1) data (le_refl _) (by omega) hb

theorem bitsLenLoop_zero (fuel : Nat) : bitsLenLoop fuel 0 = 0 := by
  cases fuel with
  | zero => rfl
  | succ fuel => simp [bitsLenLoop]

theorem two_pow_bitsLenLoop :
    ∀ (fuel x : Nat), 0 < x → 2 ^ bitsLenLoop fuel x ≤ 2 * x := by
  intro fuel
  induction fuel with
  | zero =>
    intro x hx
    simp only [bitsLenLoop, pow_zero]
    omega
  | succ fuel ih =>
    intro x hx
    unfold bitsLenLoop
    rw [if_neg (by omega), pow_succ]
    by_cases h : x / 2 = 0
    · rw [h, bitsLenLoop_zero, pow_zero]
      omega
    · have := ih (x / 2) (by omega)
      omega

theorem breakOther_lt (length r : Nat) (h : 0 < length) : breakOther length r < length := by
  unfold breakOther nextPowerOfTwo bitsLen
  have h1 : r &&& (2 ^ bitsLenLoop length length - 1) ≤ 2 ^ bitsLenLoop length length - 1 :=
    Nat.and_le_right
  have h2 : 0 < 2 ^ bitsLenLoop length length := Nat.pos_pow_of_pos _ (by omega)
  have h3 : 2 ^ bitsLenLoop length length ≤ 2 * length := two_pow_bitsLenLoop _ _ h
  generalize r &&& (2 ^ bitsLenLoop length length - 1) = x at h1
  generalize 2 ^ bitsLenLoop length length = m at h1 h2 h3
  split
  · omega
  · omega

theorem breakPatterns_spec (next : Nat → Nat) (data : List System) (a b : Nat)
    (hb : b ≤ data.length) : Seg data (breakPatterns next data a b) a b := by
  unfold breakPatterns
  by_cases h : 8 ≤ b - a
  · rw [if_pos h]
    dsimp only
    have hq : 2 ≤ (b - a) / 4 := by omega
    have hq2 : (b - a) / 4 * 2 ≤ (b - a) / 2 := by omega
    have o1 := breakOther_lt (b - a) (next (b - a)) (by omega)
    have o2 := breakOther_lt (b - a) (next (next (b - a))) (by omega)
    have o3 := breakOther_lt (b - a)
      (next (next (next (b - a)))) (by omega)
    have s1 : Seg data (swapAt data (a + (b - a) / 4 * 2 - 1 - 1)
        (a + breakOther (b - a) (next (b - a)))) a b :=
      seg_swapAt hb (by omega) (by omega) (by omega) (by omega)
    have s2 : Seg (swapAt data (a + (b - a) / 4 * 2 - 1 - 1)
          (a + breakOther (b - a) (next (b - a))))
        (swapAt (swapAt data (a + (b - a) / 4 * 2 - 1 - 1)
          (a + breakOther (b - a) (next (b - a))))
          (a + (b - a) / 4 * 2 - 1 - 1 + 1)
          (a + breakOther (b - a) (next (next (b - a))))) a b :=
      seg_swapAt (by rw [length_swapAt]; exact hb) (by omega) (by omega) (by omega) (by omega)
    have s3 : Seg (swapAt (swapAt data (a + (b - a) / 4 * 2 - 1 - 1)
          (a + breakOther (b - a) (next (b - a))))
          (a + (b - a) / 4 * 2 - 1 - 1 + 1)
          (a + breakOther (b - a) (next (next (b - a)))))
        (swapAt (swapAt (swapAt data (a + (b - a) / 4 * 2 - 1 - 1)
          (a + breakOther (b - a) (next (b - a))))
          (a + (b - a) / 4 * 2 - 1 - 1 + 1)
          (a + breakOther (b - a) (next (next (b - a)))))
          (a + (b - a) / 4 * 2 - 1 - 1 + 2)
          (a + breakOther (b - a) (next (next (next (b - a)))))) a b :=
      seg_swapAt (by rw [length_swapAt, length_swapAt]; exact hb) (by omega) (by omega)
        (by omega) (by omega)
    exact seg_trans (seg_trans s1 s2) s3
  · rw [if_neg h]
    exact seg_refl _ _ _

theorem order2_mem (data : List System) (x y swaps : Nat) :
    ((order2 data x y swaps).1 = x ∧ (order2 data x y swaps).2.1 = y)
      ∨ ((order2 data x y swaps).1 = y ∧ (order2 data x y swaps).2.1 = x) := by
  unfold order2
  split
  · exact Or.inr ⟨rfl, rfl⟩
  · exact Or.inl ⟨rfl, rfl⟩

theorem median_mem (data : List System) (x y z swaps : Nat) :
    (median data x y z swaps).1 = x ∨ (median data x y z swaps).1 = y
      ∨ (median data x y z swaps).1 = z := by
  unfold median
  dsimp only
  have h1 := order2_mem data x y swaps
  generalize order2 data x y swaps = r1 at h1 ⊢
  have h2 := order2_mem data r1.2.1 z r1.2.2
  generalize order2 data r1.2.1 z r1.2.2 = r2 at h2 ⊢
  have h3 := order2_mem data r1.1 r2.1 r2.2.2
  generalize order2 data r1.1 r2.1 r2.2.2 = r3 at h3 ⊢
  rcases h1 with ⟨a1, b1⟩ | ⟨a1, b1⟩ <;> rcases h2 with ⟨a2, b2⟩ | ⟨a2, b2⟩ <;>
    rcases h3 with ⟨a3, b3⟩ | ⟨a3, b3⟩ <;> simp_all

/-- The index `choosePivot` picks lies in the range. -/
theorem choosePivot_range (data : List System) (a b : Nat) (hab : a < b) :
    a ≤ (choosePivot data a b).1 ∧ (choosePivot data a b).1 < b := by
  have key : ∀ r : Nat × Nat, a ≤ r.1 ∧ r.1 < b →
      a ≤ (if r.2 = 0 then (r.1, sortedHint.increasingHint)
        else if r.2 = 4 * 3 then (r.1, sortedHint.decreasingHint)
        else (r.1, sortedHint.unknownHint)).1
      ∧ (if r.2 = 0 then (r.1, sortedHint.increasingHint)
        else if r.2 = 4 * 3 then (r.1, sortedHint.decreasingHint)
        else (r.1, sortedHint.unknownHint)).1 < b := by
    intro r hr
    split
    · exact hr
    · split
      · exact hr
      · exact hr
  unfold choosePivot
  dsimp only
  apply key
  by_cases h8 : 8 ≤ b - a
  · rw [if_pos h8]
    by_cases h50 : 50 ≤ b - a
    · rw [if_pos h50]
      unfold medianAdjacent
      have hi := median_mem data (a + (b - a) / 4 * 1 - 1) (a + (b - a) / 4 * 1)
        (a + (b - a) / 4 * 1 + 1) 0
      generalize median data (a + (b - a) / 4 * 1 - 1) (a + (b - a) / 4 * 1)
        (a + (b - a) / 4 * 1 + 1) 0 = ri at hi ⊢
      have hj := median_mem data (a + (b - a) / 4 * 2 - 1) (a + (b - a) / 4 * 2)
        (a + (b - a) / 4 * 2 + 1) ri.2
      generalize median data (a + (b - a) / 4 * 2 - 1) (a + (b - a) / 4 * 2)
        (a + (b - a) / 4 * 2 + 1) ri.2 = rj at hj ⊢
      have hk := median_mem data (a + (b - a) / 4 * 3 - 1) (a + (b - a) / 4 * 3)
        (a + (b - a) / 4 * 3 + 1) rj.2
      generalize median data (a + (b - a) / 4 * 3 - 1) (a + (b - a) / 4 * 3)
        (a + (b - a) / 4 * 3 + 1) rj.2 = rk at hk ⊢
      have hm := median_mem data ri.1 rj.1 rk.1 rk.2
      generalize median data ri.1 rj.1 rk.1 rk.2 = rm at hm ⊢
      omega
    · rw [if_neg h50]
      have hm := median_mem data (a + (b - a) / 4 * 1) (a + (b - a) / 4 * 2)
        (a + (b - a) / 4 * 3) 0
      generalize median data (a + (b - a) / 4 * 1) (a + (b - a) / 4 * 2)
        (a + (b - a) / 4 * 3) 0 = rm at hm ⊢
      omega
  · rw [if_neg h8]
    dsimp only
    omega

/-! ## `partialInsertionSort` -/

theorem lowerBound_seg {d1 d2 : List System} {a b : Nat} (h : Seg d1 d2 a b)
    (hl : LowerBound d1 a b) : LowerBound d2 a b := by
  intro ha k hk1 hk2
  rw [h.outside (a - 1) (Or.inl (by omega))]
  exact seg_forall h (fun p => prio d1 (a - 1) ≤ p) (hl ha) k hk1 hk2

theorem skipOrdered_spec (data : List System) (b : Nat) (hb : b ≤ data.length) :
    ∀ (fuel i : Nat), b - i ≤ fuel → 1 ≤ i → i ≤ b →
      i ≤ skipOrdered data b fuel i ∧ skipOrdered data b fuel i ≤ b
        ∧ (∀ k, i ≤ k → k < skipOrdered data b fuel i → prio data (k - 1) ≤ prio data k)
        ∧ (skipOrdered data b fuel i < b →
            prio data (skipOrdered data b fuel i)
              < prio data (skipOrdered data b fuel i - 1)) := by
  intro fuel
  induction fuel with
  | zero =>
    intro i h1 h2 h3
    unfold skipOrdered
    exact ⟨le_refl _, h3, fun k hk1 hk2 => by omega, fun h => by omega⟩
  | succ fuel ih =>
    intro i h1 h2 h3
    unfold skipOrdered
    by_cases hc : (decide (i < b) && !lessAt data i (i - 1)) = true
    · rw [if_pos hc]
      simp only [Bool.and_eq_true, decide_eq_true_eq, Bool.not_eq_true'] at hc
      have hle := (lessAt_false_iff (by omega) (by omega)).mp hc.2
      obtain ⟨r1, r2, r3, r4⟩ := ih (i + 1) (by omega) (by omega) (by omega)
      refine ⟨by omega, r2, ?_, r4⟩
      intro k hk1 hk2
      by_cases hki : k = i
      · rw [hki]
        exact hle
      · exact r3 k (by omega) hk2
    · rw [if_neg hc]
      refine ⟨le_refl _, h3, fun k hk1 hk2 => by omega, ?_⟩
      intro hib
      have hl : lessAt data i (i - 1) = true := by
        simpa [hib] using hc
      exact (lessAt_iff (by omega) (by omega)).mp hl

/-- With nothing below the range in front of it, the shift to the left of
`partialInsertionSort` stops where the inner loop of `insertionSort` stops. -/
theorem shiftLeft_eq (a i : Nat) :
    ∀ (j : Nat) (data : List System), a ≤ j → j ≤ i → i < data.length →
      (0 < a → ∀ k, a ≤ k → k ≤ i → prio data (a - 1) ≤ prio data k) →
      shiftLeft j data = insertionSortInner a j data := by
  intro j
  induction j with
  | zero =>
    intro data _ _ _ _
    rfl
  | succ j ih =>
    intro data haj hji hi hlb
    unfold shiftLeft insertionSortInner
    by_cases hl : lessAt data (j + 1) j = true
    · have hlt := (lessAt_iff (by omega) (by omega)).mp hl
      by_cases ha : a < j + 1
      · rw [if_neg (by simp [hl]), if_pos (by simp [hl, ha])]
        apply ih _ (by omega) (by omega) (by rw [length_swapAt]; exact hi)
        intro ha0 k hk1 hk2
        have hseg : Seg data (swapAt data (j + 1) j) a (i + 1) :=
          seg_swapAt (by omega) (by omega) (by omega) (by omega) (by omega)
        rw [hseg.outside (a - 1) (Or.inl (by omega))]
        exact seg_forall hseg (fun p => prio data (a - 1) ≤ p)
          (fun k hk1 hk2 => hlb ha0 k hk1 (by omega)) k hk1 (by omega)
      · have haj2 : a = j + 1 := by omega
        have := hlb (by omega) (j + 1) (by omega) hji
        rw [haj2] at this
        simp only [Nat.add_sub_cancel] at this
        omega
    · have hl2 : lessAt data (j + 1) j = false := by simpa using hl
      rw [if_pos (by simp [hl2]), if_neg (by simp [hl2])]

theorem shiftRight_spec (lo b : Nat) :
    ∀ (n j : Nat) (data : List System), lo + 1 ≤ j → j + n ≤ b → b ≤ data.length →
      Seg data (shiftRight n j data) lo b := by
  intro n
  induction n with
  | zero =>
    intro j data _ _ _
    exact seg_refl _ _ _
  | succ n ih =>
    intro j data hj hjn hb
    unfold shiftRight
    by_cases hl : (!lessAt data j (j - 1)) = true
    · rw [if_pos hl]
      exact seg_refl _ _ _
    · rw [if_neg hl]
      exact seg_trans (seg_swapAt hb (by omega) (by omega) (by omega) (by omega))
        (ih (j + 1) _ (by omega) (by omega) (by rw [length_swapAt]; exact hb))

theorem partialInsertionSortLoop_spec (a b : Nat) :
    ∀ (steps i : Nat) (data : List System), a < i → i ≤ b → b ≤ data.length →
      LowerBound data a b → SortedOn data a i →
      Seg data (partialInsertionSortLoop a b steps i data).1 a b
        ∧ ((partialInsertionSortLoop a b steps i data).2 = true →
            SortedOn (partialInsertionSortLoop a b steps i data).1 a b) := by
  intro steps
  induction steps with
  | zero =>
    intro i data _ _ _ _ _
    unfold partialInsertionSortLoop
    exact ⟨seg_refl _ _ _, fun h => by simp at h⟩
  | succ steps ih =>
    intro i data hai hib hb hlb hs
    unfold partialInsertionSortLoop
    dsimp only
    obtain ⟨s1, s2, s3, s4⟩ := skipOrdered_spec data b hb (b - i) i (le_refl _) (by omega) hib
    generalize skipOrdered data b (b - i) i = i1 at s1 s2 s3 s4 ⊢
    have hs1 : SortedOn data a i1 := by
      apply sortedOn_of_adjacent
      intro k hk1 hk2
      by_cases hki : k + 1 < i
      · exact hs k (k + 1) hk1 (by omega) hki
      · have := s3 (k + 1) (by omega) hk2
        simpa using this
    by_cases he : i1 = b
    · rw [if_pos he]
      exact ⟨seg_refl _ _ _, fun _ => he ▸ hs1⟩
    · rw [if_neg he]
      by_cases h50 : b - a < 50
      · rw [if_pos h50]
        exact ⟨seg_refl _ _ _, fun h => by simp at h⟩
      · rw [if_neg h50]
        have hseg1 : Seg data (swapAt data i1 (i1 - 1)) a b :=
          seg_swapAt hb (by omega) (by omega) (by omega) (by omega)
        have hsw : ∀ k, prio (swapAt data i1 (i1 - 1)) k
            = if k = i1 - 1 then prio data i1 else if k = i1 then prio data (i1 - 1)
              else prio data k := fun k => prio_swapAt (by omega) (by omega) k
        have hlen1 : (swapAt data i1 (i1 - 1)).length = data.length := length_swapAt _ _ _
        generalize swapAt data i1 (i1 - 1) = data1 at hseg1 hsw hlen1 ⊢
        have hlb1 : LowerBound data1 a b := lowerBound_seg hseg1 hlb
        have h2 : ∃ data2, (if 2 ≤ i1 - a then shiftLeft (i1 - 1) data1 else data1) = data2
            ∧ Seg data1 data2 a i1 ∧ SortedOn data2 a i1 := by
          by_cases hc : 2 ≤ i1 - a
          · rw [if_pos hc]
            refine ⟨_, rfl, ?_⟩
            rw [shiftLeft_eq a (i1 - 1) (i1 - 1) data1 (by omega) (le_refl _) (by omega)
              (fun ha0 k hk1 hk2 => hlb1 ha0 k hk1 (by omega))]
            have := insertionSortInner_spec a (i1 - 1) (i1 - 1) data1 (le_refl _) (by omega)
              (by omega)
              (by
                intro k hk1 hk2 hk3
                rw [hsw k, hsw (k + 1), if_neg (by omega), if_neg (by omega),
                  if_neg (by omega), if_neg (by omega)]
                exact hs1 k (k + 1) hk1 (by omega) (by omega))
              (fun h1 h2 => by omega)
            rw [show i1 - 1 + 1 = i1 by omega] at this
            exact this
          · rw [if_neg hc]
            exact ⟨_, rfl, seg_refl _ _ _, sortedOn_small (by omega)⟩
        obtain ⟨data2, hd2, hseg2, hs2⟩ := h2
        rw [hd2]
        have h3 : ∃ data3, (if 2 ≤ b - i1 then shiftRight (b - (i1 + 1)) (i1 + 1) data2
            else data2) = data3 ∧ Seg data2 data3 i1 b := by
          by_cases hc : 2 ≤ b - i1
          · rw [if_pos hc]
            exact ⟨_, rfl, shiftRight_spec i1 b _ _ _ (le_refl _) (by omega)
              (by rw [hseg2.length]; omega)⟩
          · rw [if_neg hc]
            exact ⟨_, rfl, seg_refl _ _ _⟩
        obtain ⟨data3, hd3, hseg3⟩ := h3
        rw [hd3]
        have hseg : Seg data data3 a b :=
          seg_trans hseg1 (seg_trans (seg_mono hseg2 (le_refl _) (by omega))
            (seg_mono hseg3 (by omega) (le_refl _)))
        obtain ⟨r1, r2⟩ := ih i1 data3 (by omega) (by omega) (by rw [hseg.length]; exact hb)
          (lowerBound_seg hseg hlb)
          (sortedOn_congr hs2 (fun k hk1 hk2 => hseg3.outside k (Or.inl hk2)))
        exact ⟨seg_trans hseg r1, r2⟩

theorem partialInsertionSort_spec (data : List System) (a b : Nat) (hab : a < b)
    (hb : b ≤ data.length) (hlb : LowerBound data a b) :
    Seg data (partialInsertionSort data a b).1 a b
      ∧ ((partialInsertionSort data a b).2 = true →
          SortedOn (partialInsertionSort data a b).1 a b) :=
  partialInsertionSortLoop_spec a b 5 (a + 1) data (by omega) (by omega) hb hlb
    (sortedOn_small (le_refl _))

/-! ## `pdqsort` and `sort.Sort` -/

theorem seg_disjoint {d0 d1 d2 : List System} {a1 b1 a2 b2 : Nat} (h01 : Seg d0 d1 a1 b1)
    (h12 : Seg d1 d2 a2 b2) (hd : b1 ≤ a2 ∨ b2 ≤ a1) :
    (∀ k, a1 ≤ k → k < b1 → ∃ k', a1 ≤ k' ∧ k' < b1 ∧ prio d2 k = prio d0 k')
      ∧ (∀ k, a2 ≤ k → k < b2 → ∃ k', a2 ≤ k' ∧ k' < b2 ∧ prio d2 k = prio d0 k')
      ∧ (∀ k, k < a1 ∨ b1 ≤ k → k < a2 ∨ b2 ≤ k → prio d2 k = prio d0 k) := by
  refine ⟨?_, ?_, ?_⟩
  · intro k hk1 hk2
    obtain ⟨k', h1, h2, e⟩ := h01.inside k hk1 hk2
    exact ⟨k', h1, h2, (h12.outside k (by omega)).trans e⟩
  · intro k hk1 hk2
    obtain ⟨k', h1, h2, e⟩ := h12.inside k hk1 hk2
    exact ⟨k', h1, h2, e.trans (h01.outside k' (by omega))⟩
  · intro k hk1 hk2
    exact (h12.outside k hk2).trans (h01.outside k hk1)

theorem sortedOn_join {d : List System} {a mid b : Nat} (hL : SortedOn d a mid)
    (hR : SortedOn d mid b)
    (h : ∀ i j, a ≤ i → i < mid → mid ≤ j → j < b → prio d i ≤ prio d j) :
    SortedOn d a b := by
  intro i j hi hij hj
  by_cases h1 : j < mid
  · exact hL i j hi hij h1
  · by_cases h2 : mid ≤ i
    · exact hR i j h2 hij hj
    · exact h i j hi (by omega) (by omega) hj

/-- Both sides of a partition sorted, each with the priorities it had, the
whole range is sorted. -/
theorem sortedOn_of_partition {d0 d2 : List System} {a mid b : Nat}
    (hmid : prio d2 mid = prio d0 mid)
    (hl : ∀ k, a ≤ k → k < mid → ∃ k', a ≤ k' ∧ k' < mid ∧ prio d2 k = prio d0 k')
    (hr : ∀ k, mid + 1 ≤ k → k < b →
      ∃ k', mid + 1 ≤ k' ∧ k' < b ∧ prio d2 k = prio d0 k')
    (h1 : ∀ k, a ≤ k → k < mid → prio d0 k < prio d0 mid)
    (h2 : ∀ k, mid < k → k < b → prio d0 mid ≤ prio d0 k)
    (hL : SortedOn d2 a mid) (hR : SortedOn d2 (mid + 1) b) : SortedOn d2 a b := by
  have hlow : ∀ k, a ≤ k → k < mid → prio d2 k < prio d0 mid := by
    intro k hk1 hk2
    obtain ⟨k', e1, e2, e⟩ := hl k hk1 hk2
    rw [e]
    exact h1 k' e1 e2
  have hhigh : ∀ k, mid + 1 ≤ k → k < b → prio d0 mid ≤ prio d2 k := by
    intro k hk1 hk2
    obtain ⟨k', e1, e2, e⟩ := hr k hk1 hk2
    rw [e]
    exact h2 k' (by omega) e2
  intro i j hi hij hj
  by_cases hjm : j < mid
  · exact hL i j hi hij hjm
  · by_cases him : mid < i
    · exact hR i j (by omega) hij hj
    · by_cases hie : i = mid
      · rw [hie, hmid]
        exact hhigh j (by omega) hj
      · by_cases hje : j = mid
        · rw [hje, hmid]
          exact le_of_lt (hlow i hi (by omega))
        · exact le_trans (le_of_lt (hlow i hi (by omega))) (hhigh j (by omega) hj)

theorem pdqsort_spec (next : Nat → Nat) :
    ∀ (fuel : Nat) (data : List System) (a b limit : Nat) (wasBalanced wasPartitioned : Bool),
      a ≤ b → b ≤ data.length → b - a < fuel → LowerBound data a b →
      Seg data (pdqsort next fuel data a b limit wasBalanced wasPartitioned) a b
        ∧ SortedOn (pdqsort next fuel data a b limit wasBalanced wasPartitioned) a b := by
  intro fuel
  induction fuel with
  | zero =>
    intro data a b limit wb wp _ _ h _
    omega
  | succ fuel ih =>
    intro data a b limit wb wp hab hb hf hlb
    unfold pdqsort
    by_cases h12 : b - a ≤ 12
    · rw [if_pos h12]
      exact insertionSort_spec data a b hb
    rw [if_neg h12]
    by_cases hl0 : limit = 0
    · rw [if_pos hl0]
      exact heapSort_spec data a b hab hb
    rw [if_neg hl0]
    dsimp only
    have h1 : Seg data (if wb = true then data else breakPatterns next data a b) a b := by
      split
      · exact seg_refl _ _ _
      · exact breakPatterns_spec next data a b hb
    generalize (if wb = true then data else breakPatterns next data a b) = data1 at h1 ⊢
    generalize (if wb = true then limit else limit - 1) = limit1
    have hcp := choosePivot_range data1 a b (by omega)
    generalize choosePivot data1 a b = cp at hcp ⊢
    generalize decide (cp.2 = sortedHint.decreasingHint) = dec
    have hb1 : b ≤ data1.length := by rw [h1.length]; exact hb
    have h2 : Seg data1 (if dec = true then reverseRange data1 a b else data1) a b := by
      split
      · exact reverseRange_spec data1 a b (by omega) hb1
      · exact seg_refl _ _ _
    generalize (if dec = true then reverseRange data1 a b else data1) = data2 at h2 ⊢
    have hpv : a ≤ (if dec = true then b - 1 - (cp.1 - a) else cp.1)
        ∧ (if dec = true then b - 1 - (cp.1 - a) else cp.1) < b := by
      split
      · omega
      · exact hcp
    generalize (if dec = true then b - 1 - (cp.1 - a) else cp.1) = pivot at hpv ⊢
    generalize (wb && wp && (dec || decide (cp.2 = sortedHint.increasingHint))) = ls
    have hb2 : b ≤ data2.length := by rw [h2.length]; exact hb1
    have hpis := partialInsertionSort_spec data2 a b (by omega) hb2
      (lowerBound_seg (seg_trans h1 h2) hlb)
    generalize partialInsertionSort data2 a b = pis at hpis ⊢
    by_cases hret : (ls && pis.2) = true
    · rw [if_pos hret]
      simp only [Bool.and_eq_true] at hret
      exact ⟨seg_trans (seg_trans h1 h2) hpis.1, hpis.2 hret.2⟩
    rw [if_neg hret]
    have h3 : Seg data2 (if ls = true then pis.1 else data2) a b := by
      split
      · exact hpis.1
      · exact seg_refl _ _ _
    generalize (if ls = true then pis.1 else data2) = data3 at h3 ⊢
    have hseg3 : Seg data data3 a b := seg_trans (seg_trans h1 h2) h3
    have hlb3 : LowerBound data3 a b := lowerBound_seg hseg3 hlb
    have hb3 : b ≤ data3.length := by rw [hseg3.length]; exact hb
    by_cases hpe : (decide (0 < a) && !lessAt data3 (a - 1) pivot) = true
    · rw [if_pos hpe]
      simp only [Bool.and_eq_true, decide_eq_true_eq, Bool.not_eq_true'] at hpe
      have hle := (lessAt_false_iff (by omega) (by omega)).mp hpe.2
      obtain ⟨e1, e2, e3, e4, e5⟩ :=
        partitionEqual_spec data3 a b pivot (by omega) hb3 hpv.1 hpv.2
      generalize partitionEqual data3 a b pivot = pe at e1 e2 e3 e4 e5 ⊢
      have hge : ∀ k, a ≤ k → k < b → prio data3 pivot ≤ prio pe.1 k :=
        seg_forall e1 (fun p => prio data3 pivot ≤ p)
          (fun k hk1 hk2 => le_trans hle (hlb3 hpe.1 k hk1 hk2))
      obtain ⟨r1, r2⟩ := ih pe.1 pe.2 b limit1 wb wp e3 (by rw [e1.length]; exact hb3)
        (by omega)
        (fun _ k hk1 hk2 => le_trans (e4 (pe.2 - 1) (by omega) (by omega))
          (le_of_lt (e5 k hk1 hk2)))
      refine ⟨seg_trans hseg3 (seg_trans e1 (seg_mono r1 (by omega) (le_refl _))), ?_⟩
      refine sortedOn_join (?_ : SortedOn _ a pe.2) r2 ?_
      · intro i j hi hij hj
        rw [r1.outside i (Or.inl (by omega)), r1.outside j (Or.inl hj)]
        exact le_trans (e4 i hi (by omega)) (hge j (by omega) (by omega))
      · intro i j hi1 hi2 hj1 hj2
        rw [r1.outside i (Or.inl hi2)]
        exact le_trans (e4 i hi1 hi2)
          (le_of_lt (seg_forall r1 (fun p => prio data3 pivot < p) e5 j hj1 hj2))
    · rw [if_neg hpe]
      obtain ⟨p1, p2, p3, p4, p5⟩ :=
        partition_spec data3 a b pivot (by omega) hb3 hpv.1 hpv.2
      generalize partition data3 a b pivot = p at p1 p2 p3 p4 p5 ⊢
      have hbp : b ≤ p.1.length := by rw [p1.length]; exact hb3
      have hlbp : LowerBound p.1 a b := lowerBound_seg p1 hlb3
      by_cases hside : p.2.1 - a < b - p.2.1
      · rw [if_pos hside]
        obtain ⟨r1, r2⟩ := ih p.1 a p.2.1 limit1 true true p2 (by omega) (by omega)
          (fun ha k hk1 hk2 => hlbp ha k hk1 (by omega))
        generalize pdqsort next fuel p.1 a p.2.1 limit1 true true = inner at r1 r2 ⊢
        obtain ⟨q1, q2⟩ := ih inner (p.2.1 + 1) b limit1
          (decide ((b - a) / 8 ≤ p.2.1 - a)) p.2.2 (by omega)
          (by rw [r1.length]; exact hbp) (by omega)
          (by
            intro _ k hk1 hk2
            rw [Nat.add_sub_cancel, r1.outside p.2.1 (Or.inr (le_refl _)),
              r1.outside k (Or.inr (by omega))]
            exact p5 k (by omega) hk2)
        obtain ⟨d1, d2, d3⟩ := seg_disjoint r1 q1 (Or.inl (by omega))
        refine ⟨seg_trans hseg3 (seg_trans p1 (seg_trans (seg_mono r1 (le_refl _) (by omega))
          (seg_mono q1 (by omega) (le_refl _)))), ?_⟩
        exact sortedOn_of_partition (d3 p.2.1 (Or.inr (le_refl _)) (Or.inl (by omega)))
          d1 d2 p4 p5
          (sortedOn_congr r2 (fun k hk1 hk2 => q1.outside k (Or.inl (by omega)))) q2
      · rw [if_neg hside]
        obtain ⟨r1, r2⟩ := ih p.1 (p.2.1 + 1) b limit1 true true (by omega) hbp (by omega)
          (by
            intro _ k hk1 hk2
            rw [Nat.add_sub_cancel]
            exact p5 k (by omega) hk2)
        generalize pdqsort next fuel p.1 (p.2.1 + 1) b limit1 true true = inner at r1 r2 ⊢
        obtain ⟨q1, q2⟩ := ih inner a p.2.1 limit1
          (decide ((b - a) / 8 ≤ b - p.2.1)) p.2.2 p2
          (by rw [r1.length]; omega) (by omega)
          (by
            intro ha k hk1 hk2
            rw [r1.outside (a - 1) (Or.inl (by omega)), r1.outside k (Or.inl (by omega))]
            exact hlbp ha k hk1 (by omega))
        obtain ⟨d1, d2, d3⟩ := seg_disjoint r1 q1 (Or.inr (by omega))
        refine ⟨seg_trans hseg3 (seg_trans p1 (seg_trans (seg_mono r1 (by omega) (le_refl _))
          (seg_mono q1 (le_refl _) (by omega)))), ?_⟩
        exact sortedOn_of_partition (d3 p.2.1 (Or.inl (by omega)) (Or.inr (le_refl _)))
          d2 d1 p4 p5 q2
          (sortedOn_congr r2 (fun k hk1 hk2 => q1.outside k (Or.inr (by omega))))

theorem goSort_seg (next : Nat → Nat) (data : List System) :
    Seg data (goSort next data) 0 data.length
      ∧ SortedOn (goSort next data) 0 data.length := by
  unfold goSort
  by_cases h : data.length ≤ 1
  · rw [if_pos h]
    exact ⟨seg_refl _ _ _, sortedOn_small (by omega)⟩
  · rw [if_neg h]
    exact pdqsort_spec next _ data 0 data.length _ true true (Nat.zero_le _) (le_refl _)
      (by omega) (fun h0 => by omega)

/-- The library sort returns a rearrangement of the systems it is handed. -/
theorem goSort_perm (next : Nat → Nat) (data : List System) :
    (goSort next data).Perm data :=
  (goSort_seg next data).1.perm

/-- The library sort returns the systems by ascending priority. -/
theorem goSort_sorted (next : Nat → Nat) (data : List System) :
    (goSort next data).Pairwise (fun x y => x.Priority ≤ y.Priority) := by
  rw [List.pairwise_iff_getElem]
  intro i j hi hj hij
  have hlen : (goSort next data).length = data.length := (goSort_seg next data).1.length
  have := (goSort_seg next data).2 i j (Nat.zero_le _) hij (by omega)
  unfold prio at this
  rw [List.getElem?_eq_getElem hi, List.getElem?_eq_getElem hj] at this
  exact this

/-! ## `insertionSort` keeps ties in place -/

theorem swapAt_cons_succ (x : System) (xs : List System) (i j : Nat) :
    swapAt (x :: xs) (i + 1) (j + 1) = x :: swapAt xs i j := by
  unfold swapAt
  simp only [List.getElem?_cons_succ]
  cases xs[i]? with
  | none => rfl
  | some u =>
    cases xs[j]? with
    | none => rfl
    | some v => rfl

theorem lessAt_cons_succ (x : System) (xs : List System) (i j : Nat) :
    lessAt (x :: xs) (i + 1) (j + 1) = lessAt xs i j := by
  unfold lessAt
  simp only [List.getElem?_cons_succ]

/-- A swap of two neighbours one of which is `Less` than the other leaves the
systems of each priority in the order they had. -/
theorem filter_swapAt_adjacent (p : Int) :
    ∀ (j : Nat) (data : List System), lessAt data (j + 1) j = true →
      (swapAt data (j + 1) j).filter (fun x => decide (x.Priority = p))
        = data.filter (fun x => decide (x.Priority = p)) := by
  intro j
  induction j with
  | zero =>
    intro data h
    match data, h with
    | [], _ => rfl
    | [_], _ => rfl
    | x :: y :: rest, h =>
      have hlt : y.Priority < x.Priority := by
        simpa [lessAt, systemsLess] using h
      have hsw : swapAt (x :: y :: rest) (0 + 1) 0 = y :: x :: rest := by
        simp [swapAt]
      rw [hsw]
      simp only [List.filter_cons]
      by_cases hx : x.Priority = p
      · have hy : ¬ y.Priority = p := by omega
        simp [hx, hy]
      · simp [hx]
  | succ j ih =>
    intro data h
    match data, h with
    | [], _ => rfl
    | x :: xs, h =>
      rw [lessAt_cons_succ] at h
      rw [swapAt_cons_succ, List.filter_cons, List.filter_cons, ih xs h]

theorem filter_insertionSortInner (p : Int) (a : Nat) :
    ∀ (j : Nat) (data : List System),
      (insertionSortInner a j data).filter (fun x => decide (x.Priority = p))
        = data.filter (fun x => decide (x.Priority = p)) := by
  intro j
  induction j with
  | zero =>
    intro data
    rfl
  | succ j ih =>
    intro data
    unfold insertionSortInner
    by_cases hc : (decide (a < j + 1) && lessAt data (j + 1) j) = true
    · rw [if_pos hc, ih]
      simp only [Bool.and_eq_true] at hc
      exact filter_swapAt_adjacent p j data hc.2
    · rw [if_neg hc]

theorem filter_insertionSortLoop (p : Int) (a : Nat) :
    ∀ (n i : Nat) (data : List System),
      (insertionSortLoop a n i data).filter (fun x => decide (x.Priority = p))
        = data.filter (fun x => decide (x.Priority = p)) := by
  intro n
  induction n with
  | zero =>
    intro i data
    rfl
  | succ n ih =>
    intro i data
    unfold insertionSortLoop
    rw [ih, filter_insertionSortInner]

/-- On at most 12 systems `sort.Sort` is `insertionSort`, which leaves the
systems of each priority in the order they had. -/
theorem filter_goSort (next : Nat → Nat) (p : Int) (data : List System)
    (h : data.length ≤ 12) :
    (goSort next data).filter (fun x => decide (x.Priority = p))
      = data.filter (fun x => decide (x.Priority = p)) := by
  unfold goSort
  by_cases h1 : data.length ≤ 1
  · rw [if_pos h1]
  · rw [if_neg h1]
    unfold pdqsort
    rw [if_pos (by omega)]
    exact filter_insertionSortLoop p 0 _ _ data

/-! ## Up to 13 systems the generator plays no part -/

theorem pdqsort_small (next : Nat → Nat) (fuel : Nat) (data : List System)
    (a b limit : Nat) (wasBalanced wasPartitioned : Bool) (h : b - a ≤ 12) :
    pdqsort next fuel data a b limit wasBalanced wasPartitioned
      = pdqsort id fuel data a b limit wasBalanced wasPartitioned := by
  cases fuel with
  | zero => rfl
  | succ fuel =>
    unfold pdqsort
    rw [if_pos h, if_pos h]

/-- A round of `pdqsort` that follows a balanced partition does not call
`breakPatterns`, and on 13 systems the rounds after it are `insertionSort`. -/
theorem pdqsort_thirteen (next : Nat → Nat) (fuel : Nat) (data : List System)
    (b limit : Nat) (wasPartitioned : Bool) (hb : b ≤ data.length) (h : b ≤ 13) :
    pdqsort next fuel data 0 b limit true wasPartitioned
      = pdqsort id fuel data 0 b limit true wasPartitioned := by
  cases fuel with
  | zero => rfl
  | succ fuel =>
    unfold pdqsort
    by_cases h12 : b - 0 ≤ 12
    · rw [if_pos h12, if_pos h12]
    rw [if_neg h12, if_neg h12]
    by_cases hl0 : limit = 0
    · rw [if_pos hl0, if_pos hl0]
    rw [if_neg hl0, if_neg hl0]
    dsimp only
    rw [if_pos rfl, if_pos rfl, if_pos rfl]
    have hcp := choosePivot_range data 0 b (by omega)
    generalize choosePivot data 0 b = cp at hcp ⊢
    generalize decide (cp.2 = sortedHint.decreasingHint) = dec
    have h2 : Seg data (if dec = true then reverseRange data 0 b else data) 0 b := by
      split
      · exact reverseRange_spec data 0 b (by omega) hb
      · exact seg_refl _ _ _
    generalize (if dec = true then reverseRange data 0 b else data) = data2 at h2 ⊢
    have hpv : 0 ≤ (if dec = true then b - 1 - (cp.1 - 0) else cp.1)
        ∧ (if dec = true then b - 1 - (cp.1 - 0) else cp.1) < b := by
      split
      · omega
      · exact hcp
    generalize (if dec = true then b - 1 - (cp.1 - 0) else cp.1) = pivot at hpv ⊢
    generalize (true && wasPartitioned
      && (dec || decide (cp.2 = sortedHint.increasingHint))) = ls
    have hb2 : b ≤ data2.length := by rw [h2.length]; exact hb
    have hpis := partialInsertionSort_spec data2 0 b (by omega) hb2 (fun h0 => by omega)
    generalize partialInsertionSort data2 0 b = pis at hpis ⊢
    by_cases hret : (ls && pis.2) = true
    · rw [if_pos hret, if_pos hret]
    rw [if_neg hret, if_neg hret]
    have h3 : Seg data2 (if ls = true then pis.1 else data2) 0 b := by
      split
      · exact hpis.1
      · exact seg_refl _ _ _
    generalize (if ls = true then pis.1 else data2) = data3 at h3 ⊢
    have hb3 : b ≤ data3.length := by rw [h3.length]; exact hb2
    have hpe : ¬ (decide (0 < 0) && !lessAt data3 (0 - 1) pivot) = true := by simp
    rw [if_neg hpe, if_neg hpe]
    obtain ⟨p1, p2, p3, p4, p5⟩ :=
      partition_spec data3 0 b pivot (by omega) hb3 hpv.1 hpv.2
    generalize partition data3 0 b pivot = p at p1 p2 p3 p4 p5 ⊢
    by_cases hside : p.2.1 - 0 < b - p.2.1
    · rw [if_pos hside, if_pos hside,
        pdqsort_small next fuel p.1 0 p.2.1 _ true true (by omega),
        pdqsort_small next fuel _ (p.2.1 + 1) b _ _ _ (by omega)]
    · rw [if_neg hside, if_neg hside,
        pdqsort_small next fuel p.1 (p.2.1 + 1) b _ true true (by omega),
        pdqsort_small next fuel _ 0 p.2.1 _ _ _ (by omega)]

theorem goSort_thirteen (next : Nat → Nat) (data : List System) (h : data.length ≤ 13) :
    goSort next data = goSort id data := by
  unfold goSort
  by_cases h1 : data.length ≤ 1
  · rw [if_pos h1, if_pos h1]
  · rw [if_neg h1, if_neg h1]
    exact pdqsort_thirteen next _ data _ _ true (le_refl _) h

/-! ## The order of the systems -/

theorem orderedInsertSystem_sorted (s : System) {l : List System}
    (h : l.Pairwise (fun a b => a.Priority ≤ b.Priority)) :
    (orderedInsertSystem s l).Pairwise (fun a b => a.Priority ≤ b.Priority) := by
  induction l with
  | nil => simp [orderedInsertSystem]
  | cons x l ih =>
    rw [List.pairwise_cons] at h
    unfold orderedInsertSystem
    by_cases hlt : systemsLess x s = true
    · rw [if_pos hlt, List.pairwise_cons]
      refine ⟨?_, ih h.2⟩
      intro y hy
      rcases List.mem_cons.mp ((orderedInsertSystem_perm s l).subset hy) with h1 | h1
      · have : x.Priority < s.Priority := by simpa [systemsLess] using hlt
        exact h1 ▸ le_of_lt this
      · exact h.1 y h1
    · rw [if_neg hlt, List.pairwise_cons]
      have hle : s.Priority ≤ x.Priority := by
        have : ¬ x.Priority < s.Priority := by simpa [systemsLess] using hlt
        exact not_lt.mp this
      refine ⟨?_, List.pairwise_cons.mpr h⟩
      intro y hy
      rcases List.mem_cons.mp hy with h1 | h1
      · exact h1 ▸ hle
      · exact le_trans hle (h.1 y h1)

theorem sortSystems_sorted (l : List System) :
    (sortSystems l).Pairwise (fun a b => a.Priority ≤ b.Priority) := by
  induction l with
  | nil => simp [sortSystems]
  | cons x l ih =>
    unfold sortSystems
    exact orderedInsertSystem_sorted x ih

theorem systemsLess_eq_false {a b : System} :
    systemsLess b a = false ↔ a.Priority ≤ b.Priority := by
  simp [systemsLess]

theorem sortsByLess_sortSystems : SortsByLess sortSystems := by
  intro l
  exact (sortSystems_sorted l).imp (fun h => systemsLess_eq_false.mpr h)

theorem run_systems_sorted {sortFn : List System → List System}
    (hsorted : SortsByLess sortFn) (ops : List Op) :
    (run sortFn emptyWorld ops).systems.Pairwise (fun a b => a.Priority ≤ b.Priority) := by
  induction ops using List.reverseRecOn with
  | nil => simp [run, emptyWorld]
  | append_singleton ops op ih =>
    rw [run_append_singleton]
    cases op with
    | addSystem s => exact (hsorted _).imp (fun h => systemsLess_eq_false.mp h)
    | addEntity e => exact ih
    | removeEntity e => exact ih
    | update dt => exact ih

theorem rearranges_goSort (next : Nat → Nat) : Rearranges (goSort next) :=
  fun l => goSort_perm next l

theorem sortsByLess_goSort (next : Nat → Nat) : SortsByLess (goSort next) := by
  intro l
  exact (goSort_sorted next l).imp (fun h => systemsLess_eq_false.mpr h)

/-- While at most 12 systems are registered every sort of `AddSystem` is an
`insertionSort`, and the systems of one priority stand in the order of their
registration. -/
theorem run_goSort_filter (next : Nat → Nat) (p : Int) (ops : List Op) :
    (addedSystems ops).length ≤ 12 →
    (run (goSort next) emptyWorld ops).systems.filter (fun x => decide (x.Priority = p))
      = (addedSystems ops).filter (fun x => decide (x.Priority = p)) := by
  induction ops using List.reverseRecOn with
  | nil =>
    intro _
    simp [run, emptyWorld, addedSystems]
  | append_singleton ops op ih =>
    rw [run_append_singleton, addedSystems_append_singleton]
    cases op with
    | addSystem s =>
      intro h
      have hlen : (run (goSort next) emptyWorld ops).systems.length
          = (addedSystems ops).length :=
        (run_systems_perm (rearranges_goSort next) ops).length_eq
      have h2 : (addedSystems ops).length + 1 ≤ 12 := by
        simpa [Op.addedSystem] using h
      show (goSort next ((run (goSort next) emptyWorld ops).systems ++ [s])).filter _ = _
      rw [filter_goSort next p _ (by rw [List.length_append, hlen]; simpa using h2),
        List.filter_append, List.filter_append, ih (by omega)]
      rfl
    | addEntity e => simpa [step, Op.addedSystem, World.AddEntity] using ih
    | removeEntity e => simpa [step, Op.addedSystem, World.RemoveEntity] using ih
    | update dt => simpa [step, Op.addedSystem, update_fst, updateEntSys_systems] using ih

/-- While at most 13 systems are registered the generator of `breakPatterns`
plays no part in the world. -/
theorem run_goSort_thirteen (next : Nat → Nat) (ops : List Op) :
    (addedSystems ops).length ≤ 13 →
    run (goSort next) emptyWorld ops = run (goSort id) emptyWorld ops := by
  induction ops using List.reverseRecOn with
  | nil =>
    intro _
    simp only [run, List.foldl_nil]
  | append_singleton ops op ih =>
    rw [run_append_singleton, run_append_singleton, addedSystems_append_singleton]
    cases op with
    | addSystem s =>
      intro h
      have h2 : (addedSystems ops).length + 1 ≤ 13 := by
        simpa [Op.addedSystem] using h
      have hlen : (run (goSort id) emptyWorld ops).systems.length
          = (addedSystems ops).length :=
        (run_systems_perm (rearranges_goSort id) ops).length_eq
      rw [ih (by omega)]
      simp only [step, World.AddSystem]
      rw [goSort_thirteen next _ (by rw [List.length_append, hlen]; simpa using h2)]
    | addEntity e =>
      intro h
      rw [ih (by simpa [Op.addedSystem] using h)]
      simp only [step]
    | removeEntity e =>
      intro h
      rw [ih (by simpa [Op.addedSystem] using h)]
      simp only [step]
    | update dt =>
      intro h
      rw [ih (by simpa [Op.addedSystem] using h)]
      simp only [step]

/-- The priority property of the spec on the code: systems registered with the
priorities 5, 1 and 3 are listed with the priorities 1, 3 and 5. -/
theorem priorityOps_order (next : Nat → Nat) :
    (run (goSort next) emptyWorld priorityOps).Systems.map System.Priority = [1, 3, 5] := by
  rw [run_goSort_thirteen next priorityOps (by decide)]
  decide

/-- Twelve systems of priority 1 and then one of priority 0: the sort of the
thirteenth registration is the first that is no `insertionSort`.  It takes the
system at the index 6 as pivot, `partition` swaps it to the front and the last
system to the index 1, and the pivot ends at the index 1. -/
theorem thirteenOps_order (next : Nat → Nat) :
    (run (goSort next) emptyWorld thirteenOps).Systems.map System.typ
      = [13, 7, 3, 4, 5, 6, 1, 8, 9, 10, 11, 12, 2] := by
  rw [run_goSort_thirteen next thirteenOps (by decide)]
  decide

/-- C9 as the code has it.  After any history from the empty world, the sort in
`AddSystem` being `sort.Sort` as the library has it, `Systems()` lists exactly
the systems registered, by ascending `Priority()`; and as long as no more than
12 systems are registered, the systems of each priority are listed in the order
of their registration. -/
theorem systems_sorted (next : Nat → Nat) (ops : List Op) :
    (run (goSort next) emptyWorld ops).Systems.Pairwise
        (fun a b => a.Priority ≤ b.Priority)
      ∧ (run (goSort next) emptyWorld ops).Systems.Perm (addedSystems ops)
      ∧ ((addedSystems ops).length ≤ 12 → ∀ p : Int,
          (run (goSort next) emptyWorld ops).Systems.filter
              (fun x => decide (x.Priority = p))
            = (addedSystems ops).filter (fun x => decide (x.Priority = p))) :=
  ⟨run_systems_sorted (sortsByLess_goSort next) ops,
    run_systems_perm (rearranges_goSort next) ops,
    fun h p => run_goSort_filter next p ops h⟩

/-- C9 as the code has it, at two registrations of equal priority,
`MySystemOne` and then `MySystemTwo`. -/
theorem systems_sorted_witness :
    (addedSystems tieOps).length ≤ 12
      ∧ (run (goSort id) emptyWorld tieOps).Systems.Pairwise
          (fun a b => a.Priority ≤ b.Priority)
      ∧ (run (goSort id) emptyWorld tieOps).Systems.Perm (addedSystems tieOps)
      ∧ ∀ p : Int,
          (run (goSort id) emptyWorld tieOps).Systems.filter
              (fun x => decide (x.Priority = p))
            = (addedSystems tieOps).filter (fun x => decide (x.Priority = p)) :=
  ⟨by decide, (systems_sorted id tieOps).1, (systems_sorted id tieOps).2.1,
    (systems_sorted id tieOps).2.2 (by decide)⟩

/-- C9 as stated fails.  Twelve systems of priority 1 are registered and then
one of priority 0: whatever the generator of `breakPatterns`, `Systems()` lists
the seventh system registered in front of the first, both of priority 1. -/
theorem thirteenth_registration_reorders :
    (addedSystems thirteenOps).map System.typ = [1, 2, 3, 4, 5, 6, 7, 8, 9, 10, 11, 12, 13]
      ∧ (addedSystems thirteenOps).map System.Priority
          = [1, 1, 1, 1, 1, 1, 1, 1, 1, 1, 1, 1, 0]
      ∧ ∀ next : Nat → Nat,
          (run (goSort next) emptyWorld thirteenOps).Systems.map System.typ
            = [13, 7, 3, 4, 5, 6, 1, 8, 9, 10, 11, 12, 2] :=
  ⟨by decide, by decide, fun next => thirteenOps_order next⟩

/-! ## The calls of `ComponentFilter` in one reconciliation -/

/-- The log of one run of `updateEntSys`: every pending system is asked about
every entity of the master list, then every pending entity is put to every
registered system whose type is not marked. -/
theorem reconcile_evals (w : World) :
    (reconcile w).evals
      = w.newSystems.flatMap (fun s => w.entities.map (fun e => (s.typ, e)))
        ++ w.newEntities.flatMap (fun ent =>
            (w.systems.filter (fun s => !(reconcile w).done s.typ)).map
              (fun s => (s.typ, ent))) := by
  have hd : (reconcile w).done
      = (reconcileSystems w
          { sysEntities := w.sysEntities, done := fun _ => false, evals := [] }).done := by
    unfold reconcile
    rw [reconcileEntities_done]
  rw [hd]
  unfold reconcile
  rw [reconcileEntities_evals, reconcileSystems_evals]
  simp

theorem length_flatMap_const {α β : Type} (l : List α) (f : α → List β) (k : Nat)
    (h : ∀ x ∈ l, (f x).length = k) : (l.flatMap f).length = l.length * k := by
  induction l with
  | nil => simp
  | cons x l ih =>
    rw [List.flatMap_cons, List.length_append, h x (List.mem_cons_self x l),
      ih (fun y hy => h y (List.mem_cons_of_mem x hy)), List.length_cons]
    ring

theorem reconcile_evals_length (w : World) :
    (reconcile w).evals.length
      = w.newSystems.length * w.entities.length
        + w.newEntities.length
          * (w.systems.filter (fun s => !(reconcile w).done s.typ)).length := by
  rw [reconcile_evals, List.length_append,
    length_flatMap_const w.newSystems _ w.entities.length (by simp),
    length_flatMap_const w.newEntities _
      (w.systems.filter (fun s => !(reconcile w).done s.typ)).length (by simp)]

theorem evalsOf_systems_part (L : List System) (E : List Identifier) (t : Nat) :
    ((L.flatMap (fun s => E.map (fun e => (s.typ, e)))).filter
        (fun p => decide (p.1 = t))).map Prod.snd
      = (L.filter (fun s => decide (s.typ = t))).flatMap (fun _ => E) := by
  induction L with
  | nil => rfl
  | cons s L ih =>
    rw [List.flatMap_cons, List.filter_append, List.map_append, ih]
    by_cases ht : s.typ = t
    · simp [List.filter_cons, ht, List.filter_map, Function.comp_def]
    · simp [List.filter_cons, ht, List.filter_map, Function.comp_def]

theorem evalsOf_entities_part (P : List Identifier) (S : List System) (t : Nat) :
    ((P.flatMap (fun ent => S.map (fun s => (s.typ, ent)))).filter
        (fun p => decide (p.1 = t))).map Prod.snd
      = P.flatMap (fun ent => (S.filter (fun s => decide (s.typ = t))).map (fun _ => ent)) := by
  induction P with
  | nil => rfl
  | cons e P ih =>
    rw [List.flatMap_cons, List.filter_append, List.map_append, ih, List.flatMap_cons]
    congr 1
    simp [List.filter_map, Function.comp_def]

theorem evalsOf_reconcile (w : World) (t : Nat) :
    evalsOf (reconcile w) t
      = (w.newSystems.filter (fun s => decide (s.typ = t))).flatMap (fun _ => w.entities)
        ++ w.newEntities.flatMap (fun ent =>
            (w.systems.filter
              (fun s => decide (s.typ = t) && !(reconcile w).done s.typ)).map (fun _ => ent)) := by
  unfold evalsOf
  rw [reconcile_evals, List.filter_append, List.map_append, evalsOf_systems_part,
    evalsOf_entities_part]
  simp only [List.filter_filter]

/-- The registered systems whose type is marked are as many as the pending
systems that accepted an entity of the master list. -/
theorem marked_length (w : World) (hnd : (w.systems.map System.typ).Nodup)
    (hndn : (w.newSystems.map System.typ).Nodup) (hsub : ∀ s ∈ w.newSystems, s ∈ w.systems) :
    (w.systems.filter (fun s => (reconcile w).done s.typ)).length
      = (w.newSystems.filter (fun s => w.entities.any s.ComponentFilter)).length := by
  have h1 : (((w.systems.filter (fun s => (reconcile w).done s.typ)).map System.typ)).Nodup :=
    (List.Sublist.map System.typ (List.filter_sublist _)).nodup hnd
  have h2 : (((w.newSystems.filter
      (fun s => w.entities.any s.ComponentFilter)).map System.typ)).Nodup :=
    (List.Sublist.map System.typ (List.filter_sublist _)).nodup hndn
  have hperm := (List.perm_ext_iff_of_nodup h1 h2).mpr (by
    intro t
    constructor
    · intro ht
      obtain ⟨s, hs, rfl⟩ := List.mem_map.mp ht
      have hdone := (List.mem_filter.mp hs).2
      rw [reconcile_done, List.any_eq_true] at hdone
      obtain ⟨x, hx, hxq⟩ := hdone
      simp only [Bool.and_eq_true, decide_eq_true_eq] at hxq
      exact List.mem_map.mpr ⟨x, List.mem_filter.mpr ⟨hx, hxq.2⟩, hxq.1⟩
    · intro ht
      obtain ⟨s, hs, rfl⟩ := List.mem_map.mp ht
      have hs2 := List.mem_filter.mp hs
      refine List.mem_map.mpr ⟨s, List.mem_filter.mpr ⟨hsub s hs2.1, ?_⟩, rfl⟩
      rw [reconcile_done, any_typ_of_mem _ hndn hs2.1]
      exact hs2.2)
  have := hperm.length_eq
  simpa using this

/-- C10 as the code has it.  In one reconciliation of a world whose registered
systems have pairwise distinct types: a pending system is marked exactly when
it accepts some entity of the master list; marked, it is asked once about each
entity of the master list and about nothing else; unmarked, it is asked once
about each entity of the master list and then once more about each pending
entity; a registered system that is not pending is never marked and is asked
once about each pending entity and about nothing else.  The calls number
`|Snew| * |Eall| + |Enew| * (|Sall| - m)`, `m` counting the pending systems
that accept some entity of the master list. -/
theorem reconcile_filter_calls (w : World) (hnd : (w.systems.map System.typ).Nodup)
    (hndn : (w.newSystems.map System.typ).Nodup) (hsub : ∀ s ∈ w.newSystems, s ∈ w.systems) :
    (∀ s ∈ w.newSystems,
        (reconcile w).done s.typ = w.entities.any s.ComponentFilter
          ∧ evalsOf (reconcile w) s.typ
              = w.entities
                ++ (if w.entities.any s.ComponentFilter then [] else w.newEntities))
      ∧ (∀ s ∈ w.systems, s.typ ∉ w.newSystems.map System.typ →
          (reconcile w).done s.typ = false ∧ evalsOf (reconcile w) s.typ = w.newEntities)
      ∧ (reconcile w).evals.length
          = w.newSystems.length * w.entities.length
            + w.newEntities.length
              * (w.systems.length
                  - (w.newSystems.filter
                      (fun s => w.entities.any s.ComponentFilter)).length) := by
  refine ⟨?_, ?_, ?_⟩
  · intro s hs
    have hdone : (reconcile w).done s.typ = w.entities.any s.ComponentFilter := by
      rw [reconcile_done]
      exact any_typ_of_mem _ hndn hs
    refine ⟨hdone, ?_⟩
    have h1 : w.newSystems.filter (fun x => decide (x.typ = s.typ)) = [s] := by
      have := filter_typ_of_mem (fun _ => true) hndn hs
      simpa using this
    rw [evalsOf_reconcile, h1]
    simp only [filter_typ_of_mem _ hnd (hsub s hs), hdone]
    by_cases ha : w.entities.any s.ComponentFilter = true
    · simp [ha]
    · have ha2 : w.entities.any s.ComponentFilter = false := by simpa using ha
      simp [ha2]
  · intro s hs hold
    have hdone : (reconcile w).done s.typ = false := by
      rw [reconcile_done]
      exact any_typ_of_not_mem _ hold
    refine ⟨hdone, ?_⟩
    have h1 : w.newSystems.filter (fun x => decide (x.typ = s.typ)) = [] := by
      have := filter_typ_of_not_mem (fun _ => true) hold
      simpa using this
    rw [evalsOf_reconcile, h1]
    simp only [filter_typ_of_mem _ hnd hs, hdone]
    simp
  · rw [reconcile_evals_length, ← marked_length w hnd hndn hsub]
    have hsplit := List.length_eq_countP_add_countP
      (fun s : System => (reconcile w).done s.typ) w.systems
    rw [List.countP_eq_length_filter, List.countP_eq_length_filter] at hsplit
    have hneg : w.systems.filter (fun s => decide (¬ (reconcile w).done s.typ = true))
        = w.systems.filter (fun s => !(reconcile w).done s.typ) := by
      congr 1
      funext s
      cases (reconcile w).done s.typ <;> rfl
    rw [hneg] at hsplit
    congr 2
    omega

/-- C10 as the code has it, at a world with one reconciled system, one pending
system that matches, one that does not, and two pending entities. -/
theorem reconcile_filter_calls_witness :
    (mixedWorld.systems.map System.typ).Nodup
      ∧ (mixedWorld.newSystems.map System.typ).Nodup
      ∧ (∀ s ∈ mixedWorld.newSystems, s ∈ mixedWorld.systems)
      ∧ ((∀ s ∈ mixedWorld.newSystems,
            (reconcile mixedWorld).done s.typ = mixedWorld.entities.any s.ComponentFilter
              ∧ evalsOf (reconcile mixedWorld) s.typ
                  = mixedWorld.entities
                    ++ (if mixedWorld.entities.any s.ComponentFilter then []
                        else mixedWorld.newEntities))
          ∧ (∀ s ∈ mixedWorld.systems, s.typ ∉ mixedWorld.newSystems.map System.typ →
                (reconcile mixedWorld).done s.typ = false
                  ∧ evalsOf (reconcile mixedWorld) s.typ = mixedWorld.newEntities)
          ∧ (reconcile mixedWorld).evals.length
              = mixedWorld.newSystems.length * mixedWorld.entities.length
                + mixedWorld.newEntities.length
                  * (mixedWorld.systems.length
                      - (mixedWorld.newSystems.filter
                          (fun s => mixedWorld.entities.any s.ComponentFilter)).length)) :=
  ⟨by decide, by decide, (sysInv_run sortSystems_perm mixedOps (by decide)).newSub,
    reconcile_filter_calls mixedWorld (by decide) (by decide)
      (sysInv_run sortSystems_perm mixedOps (by decide)).newSub⟩

/-- C10 as stated fails: a pending system that accepts no entity of the master
list is not marked, is asked about the pending entity a second time, and the
calls are 2 where `|Snew| * |Eall| + |Enew| * |Sall - Snew|` is 1. -/
theorem unmatched_system_asked_twice :
    unmatchedWorld.newSystems.map System.typ = [MySystemTwo.typ]
      ∧ unmatchedWorld.systems.map System.typ = [MySystemTwo.typ]
      ∧ unmatchedWorld.entities = [⟨1, 1⟩]
      ∧ unmatchedWorld.newEntities = [⟨1, 1⟩]
      ∧ (reconcile unmatchedWorld).done MySystemTwo.typ = false
      ∧ evalsOf (reconcile unmatchedWorld) MySystemTwo.typ = [⟨1, 1⟩, ⟨1, 1⟩]
      ∧ (reconcile unmatchedWorld).evals.length = 2
      ∧ unmatchedWorld.newSystems.length * unmatchedWorld.entities.length
          + unmatchedWorld.newEntities.length
            * (unmatchedWorld.systems.length - unmatchedWorld.newSystems.length) = 1 := by
  decide

/-! ## The frame of the operations -/

theorem reconcile_evals_of_empty (w : World) (hns : w.newSystems = [])
    (hne : w.newEntities = []) : (reconcile w).evals = [] := by
  rw [reconcile_evals, hns, hne]
  rfl

theorem updateEntSys_of_empty (w : World) (hns : w.newSystems = [])
    (hne : w.newEntities = []) : w.updateEntSys = w := by
  have hm : (reconcile w).sysEntities = w.sysEntities := by
    funext t
    exact updateEntSys_sysEntities_of_empty w hns hne t
  show ({ w with sysEntities := (reconcile w).sysEntities, newEntities := [],
                 newSystems := [] } : World) = w
  rw [hm, ← hns, ← hne]

/-- C11. With both pending queues empty, the reconciliation run by `Update`
calls no `ComponentFilter` and leaves the world as it was: the master list, the
list of systems and every membership list, whatever the filters would answer
now.  On the empty world `Update` makes no call and leaves the empty world. -/
theorem update_of_empty_queues (w : World) (dt : Nat) (hns : w.newSystems = [])
    (hne : w.newEntities = []) :
    (reconcile w).evals = []
      ∧ (w.Update dt).1 = w
      ∧ (w.Update dt).1.entities = w.entities
      ∧ (w.Update dt).1.Systems = w.Systems
      ∧ (∀ t, (w.Update dt).1.sysEntities t = w.sysEntities t)
      ∧ emptyWorld.Update dt = (emptyWorld, []) := by
  refine ⟨reconcile_evals_of_empty w hns hne, updateEntSys_of_empty w hns hne, rfl, rfl,
    fun t => updateEntSys_sysEntities_of_empty w hns hne t, ?_⟩
  have h : emptyWorld.updateEntSys = emptyWorld := updateEntSys_of_empty emptyWorld rfl rfl
  show (emptyWorld.updateEntSys, _) = (emptyWorld, [])
  rw [h]
  rfl

/-- C11 at a world whose one system holds an entity that its filter rejects. -/
theorem update_of_empty_queues_witness :
    stickyWorld.newSystems = [] ∧ stickyWorld.newEntities = []
      ∧ ((reconcile stickyWorld).evals = []
        ∧ (stickyWorld.Update 0).1 = stickyWorld
        ∧ (stickyWorld.Update 0).1.entities = stickyWorld.entities
        ∧ (stickyWorld.Update 0).1.Systems = stickyWorld.Systems
        ∧ (∀ t, (stickyWorld.Update 0).1.sysEntities t = stickyWorld.sysEntities t)
        ∧ emptyWorld.Update 0 = (emptyWorld, [])) :=
  ⟨rfl, rfl, update_of_empty_queues stickyWorld 0 rfl rfl⟩

/-- In `stickyWorld` the system is still handed the entity its filter rejects. -/
theorem sticky_membership_persists :
    MySystemOne.ComponentFilter ⟨1, 5⟩ = false
      ∧ (stickyWorld.Update 0).2.map Call.entities = [[⟨1, 5⟩]] := by
  decide

/-- C12. After `Update` both pending queues are empty, whatever they held, and
the master list and the list of systems are those of before; an `Update` that
follows at once calls no `ComponentFilter` and changes nothing, so what was
pending has been reconciled once and is not reconciled again. -/
theorem update_clears_queues (w : World) (dt dt2 : Nat) :
    (w.Update dt).1.newSystems = []
      ∧ (w.Update dt).1.newEntities = []
      ∧ (w.Update dt).1.entities = w.entities
      ∧ (w.Update dt).1.Systems = w.Systems
      ∧ (reconcile (w.Update dt).1).evals = []
      ∧ ((w.Update dt).1.Update dt2).1 = (w.Update dt).1 :=
  ⟨rfl, rfl, rfl, rfl, reconcile_evals_of_empty _ rfl rfl, updateEntSys_of_empty _ rfl rfl⟩

/-- C13. `AddEntity e` puts `e` at the end of the master list and at the end
of the pending queue of entities, and leaves the list of systems, the pending
queue of systems and every membership list as they were. -/
theorem addEntity_frame (w : World) (e : Identifier) :
    (w.AddEntity e).entities = w.entities ++ [e]
      ∧ (w.AddEntity e).newEntities = w.newEntities ++ [e]
      ∧ (w.AddEntity e).Systems = w.Systems
      ∧ (w.AddEntity e).newSystems = w.newSystems
      ∧ (w.AddEntity e).sysEntities = w.sysEntities :=
  ⟨rfl, rfl, rfl, rfl, rfl⟩

theorem addSystem_of_hook_fixed (sortFn : List System → List System)
    (initializer : Option (World → World)) (w : World) (s : System)
    (hhook : ∀ hook, initializer = some hook → hook w = w) :
    w.AddSystem sortFn initializer s = w.AddSystem sortFn none s := by
  cases initializer with
  | none => rfl
  | some hook => exact addSystem_of_hook_eq sortFn hook w s (hhook hook rfl)

/-- C14. `AddSystem` detects no duplicate: for every world and every system
whose hook is absent or leaves the world as it is, registered already or not,
`Systems()` becomes a rearrangement of the old list with one more entry `s`,
one longer; `s` goes to the end of the pending queue of systems; the master
list, the pending queue of entities and the membership lists stay. -/
theorem addSystem_no_duplicate_detection (sortFn : List System → List System)
    (hsort : Rearranges sortFn) (initializer : Option (World → World)) (w : World)
    (s : System) (hhook : ∀ hook, initializer = some hook → hook w = w) :
    (w.AddSystem sortFn initializer s).Systems.Perm (w.Systems ++ [s])
      ∧ (w.AddSystem sortFn initializer s).Systems.length = w.Systems.length + 1
      ∧ (w.AddSystem sortFn initializer s).newSystems = w.newSystems ++ [s]
      ∧ (w.AddSystem sortFn initializer s).entities = w.entities
      ∧ (w.AddSystem sortFn initializer s).newEntities = w.newEntities
      ∧ (w.AddSystem sortFn initializer s).sysEntities = w.sysEntities := by
  rw [addSystem_of_hook_fixed sortFn initializer w s hhook]
  have hperm : (w.AddSystem sortFn none s).Systems.Perm (w.Systems ++ [s]) :=
    addSystem_systems_perm hsort w s
  refine ⟨hperm, ?_, rfl, rfl, rfl, rfl⟩
  rw [hperm.length_eq]
  simp

/-- C14 at the second registration of `MySystemOne`, its hook the empty `New`
of the tests. -/
theorem addSystem_no_duplicate_detection_witness :
    Rearranges sortSystems
      ∧ (∀ hook, (some id : Option (World → World)) = some hook →
          hook registeredWorld = registeredWorld)
      ∧ ((registeredWorld.AddSystem sortSystems (some id) MySystemOne).Systems.Perm
            (registeredWorld.Systems ++ [MySystemOne])
        ∧ (registeredWorld.AddSystem sortSystems (some id) MySystemOne).Systems.length
            = registeredWorld.Systems.length + 1
        ∧ (registeredWorld.AddSystem sortSystems (some id) MySystemOne).newSystems
            = registeredWorld.newSystems ++ [MySystemOne]
        ∧ (registeredWorld.AddSystem sortSystems (some id) MySystemOne).entities
            = registeredWorld.entities
        ∧ (registeredWorld.AddSystem sortSystems (some id) MySystemOne).newEntities
            = registeredWorld.newEntities
        ∧ (registeredWorld.AddSystem sortSystems (some id) MySystemOne).sysEntities
            = registeredWorld.sysEntities) :=
  ⟨sortSystems_perm, fun _ h => Option.some.inj h ▸ rfl,
    addSystem_no_duplicate_detection sortSystems sortSystems_perm (some id) registeredWorld
      MySystemOne (fun _ h => Option.some.inj h ▸ rfl)⟩

/-- After the second registration `MySystemOne` stands twice in both lists. -/
theorem registered_twice :
    (registeredWorld.AddSystem sortSystems (some id) MySystemOne).Systems.map System.typ
        = [1, 1]
      ∧ (registeredWorld.AddSystem sortSystems (some id) MySystemOne).newSystems.map System.typ
        = [1, 1] := by
  decide

theorem addSystemCalls_fst (sortFn : List System → List System)
    (initializer : Option (World → World)) (w : World) (s : System) :
    (w.AddSystemCalls sortFn initializer s).1 = w.AddSystem sortFn initializer s := by
  cases initializer <;> rfl

/-- C15 as the code has it.  `AddSystem` of a system with a hook calls the hook
once, with the world as it was before the call, and inserts the system into
the world the hook leaves: whatever the hook put in the pending queue of
systems stands before the system.  The world the hook is handed holds the
system in neither list when the system was in neither before the call.
Without a hook no call is made. -/
theorem addSystem_hook_call (sortFn : List System → List System) (hook : World → World)
    (w : World) (s : System) (hs : s ∉ w.systems) (hn : s ∉ w.newSystems) :
    (w.AddSystemCalls sortFn (some hook) s).1 = w.AddSystem sortFn (some hook) s
      ∧ (w.AddSystemCalls sortFn (some hook) s).2 = [w]
      ∧ (∀ v ∈ (w.AddSystemCalls sortFn (some hook) s).2, s ∉ v.systems ∧ s ∉ v.newSystems)
      ∧ w.AddSystem sortFn (some hook) s = (hook w).AddSystem sortFn none s
      ∧ (w.AddSystem sortFn (some hook) s).newSystems = (hook w).newSystems ++ [s]
      ∧ (w.AddSystem sortFn (some hook) s).Systems = sortFn ((hook w).Systems ++ [s])
      ∧ (w.AddSystemCalls sortFn none s).2 = [] := by
  refine ⟨rfl, rfl, ?_, rfl, rfl, rfl, rfl⟩
  intro v hv
  have hvw : v = w := by
    have : v ∈ [w] := hv
    simpa using this
  rw [hvw]
  exact ⟨hs, hn⟩

/-- C15 as the code has it, at the first registration of `MySystemOneTwo` on
the empty world, its hook registering `MySystemTwo`. -/
theorem addSystem_hook_call_witness :
    MySystemOneTwo ∉ emptyWorld.systems ∧ MySystemOneTwo ∉ emptyWorld.newSystems
      ∧ ((emptyWorld.AddSystemCalls sortSystems (some addTwoHook) MySystemOneTwo).1
            = emptyWorld.AddSystem sortSystems (some addTwoHook) MySystemOneTwo
        ∧ (emptyWorld.AddSystemCalls sortSystems (some addTwoHook) MySystemOneTwo).2
            = [emptyWorld]
        ∧ (∀ v ∈ (emptyWorld.AddSystemCalls sortSystems (some addTwoHook) MySystemOneTwo).2,
            MySystemOneTwo ∉ v.systems ∧ MySystemOneTwo ∉ v.newSystems)
        ∧ emptyWorld.AddSystem sortSystems (some addTwoHook) MySystemOneTwo
            = (addTwoHook emptyWorld).AddSystem sortSystems none MySystemOneTwo
        ∧ (emptyWorld.AddSystem sortSystems (some addTwoHook) MySystemOneTwo).newSystems
            = (addTwoHook emptyWorld).newSystems ++ [MySystemOneTwo]
        ∧ (emptyWorld.AddSystem sortSystems (some addTwoHook) MySystemOneTwo).Systems
            = sortSystems ((addTwoHook emptyWorld).Systems ++ [MySystemOneTwo])
        ∧ (emptyWorld.AddSystemCalls sortSystems none MySystemOneTwo).2 = []) :=
  ⟨List.not_mem_nil _, List.not_mem_nil _,
    addSystem_hook_call sortSystems addTwoHook emptyWorld MySystemOneTwo
      (List.not_mem_nil _) (List.not_mem_nil _)⟩

/-- With that hook the pending queue holds `MySystemTwo` in front of
`MySystemOneTwo`. -/
theorem hook_systems_precede :
    (emptyWorld.AddSystem sortSystems (some addTwoHook) MySystemOneTwo).newSystems.map
        System.typ = [MySystemTwo.typ, MySystemOneTwo.typ] := by
  decide

/-- C15 as stated fails: at the second registration of `MySystemOne` the hook
is handed a world that holds the system in the list of systems and in the
pending queue of systems. -/
theorem hook_sees_registered_system :
    (registeredWorld.AddSystemCalls sortSystems (some id) MySystemOne).2 = [registeredWorld]
      ∧ MySystemOne ∈ registeredWorld.systems
      ∧ MySystemOne ∈ registeredWorld.newSystems :=
  ⟨rfl, List.mem_singleton.mpr rfl, List.mem_singleton.mpr rfl⟩

/-- C17. `RemoveEntity` leaves the pending queue of entities, the pending
queue of systems and the list of systems as they were, for every world and
every entity: an entity removed while pending is still in the pending queue
afterwards. -/
theorem removeEntity_frame (w : World) (e : Identifier) :
    (w.RemoveEntity e).newEntities = w.newEntities
      ∧ (w.RemoveEntity e).newSystems = w.newSystems
      ∧ (w.RemoveEntity e).Systems = w.Systems :=
  ⟨rfl, rfl, rfl⟩

/-! ## Two systems of one type -/

theorem pendingInv_emptyWorld : PendingInv emptyWorld where
  sub := List.nil_subperm
  empty := fun _ _ => rfl

theorem pendingInv_addSystem {sortFn : List System → List System}
    (hsort : Rearranges sortFn) {w : World} (h : PendingInv w) (s : System) :
    PendingInv (w.AddSystem sortFn none s) where
  sub := by
    show (w.newSystems ++ [s]).Subperm (sortFn (w.systems ++ [s]))
    exact ((hsort _).subperm_left).mpr ((List.subperm_append_right [s]).mpr h.sub)
  empty := by
    intro t ht
    have ht2 : (w.newSystems ++ [s]).countP (fun x => decide (x.typ = t))
        = (sortFn (w.systems ++ [s])).countP (fun x => decide (x.typ = t)) := ht
    rw [(hsort _).countP_eq, List.countP_append, List.countP_append] at ht2
    exact h.empty t (Nat.add_right_cancel ht2)

theorem pendingInv_removeEntity {w : World} (h : PendingInv w) (e : Identifier) :
    PendingInv (w.RemoveEntity e) where
  sub := h.sub
  empty := by
    intro t ht
    have := removeEntity_sysEntities_sublist w e t
    rw [h.empty t ht] at this
    exact List.sublist_nil.mp this

theorem pendingInv_updateEntSys {w : World} (h : PendingInv w) :
    PendingInv w.updateEntSys where
  sub := List.nil_subperm
  empty := by
    intro t ht
    have hzero : w.systems.countP (fun x => decide (x.typ = t)) = 0 := by
      have : ([] : List System).countP (fun x => decide (x.typ = t))
          = w.systems.countP (fun x => decide (x.typ = t)) := ht
      simpa using this.symm
    have hnot : t ∉ w.systems.map System.typ := by
      intro hmem
      obtain ⟨x, hx, hxt⟩ := List.mem_map.mp hmem
      have hpos : 0 < w.systems.countP (fun x => decide (x.typ = t)) :=
        List.countP_pos_iff.mpr ⟨x, hx, by simpa using hxt⟩
      omega
    have hle := h.sub.countP_le (fun x => decide (x.typ = t))
    rw [updateEntSys_sysEntities_of_not_mem w t (fun x hx => h.sub.subset hx) hnot]
    exact h.empty t (by omega)

theorem pendingInv_run {sortFn : List System → List System} (hsort : Rearranges sortFn)
    (ops : List Op) : PendingInv (run sortFn emptyWorld ops) := by
  induction ops using List.reverseRecOn with
  | nil => exact pendingInv_emptyWorld
  | append_singleton ops op ih =>
    rw [run_append_singleton]
    cases op with
    | addSystem s => exact pendingInv_addSystem hsort ih s
    | addEntity e => exact ⟨ih.sub, ih.empty⟩
    | removeEntity e => exact pendingInv_removeEntity ih e
    | update dt => exact pendingInv_updateEntSys ih

/-- Two pending systems of one type and one filter, no earlier entry under the
type, every pending entity still in the master list: `updateEntSys` stores the
filtered master list twice. -/
theorem updateEntSys_twins (w : World) (T : Nat) (f : Identifier → Bool) (s₁ s₂ : System)
    (hnew : w.newSystems.filter (fun s => decide (s.typ = T)) = [s₁, s₂])
    (hf₁ : s₁.ComponentFilter = f) (hf₂ : s₂.ComponentFilter = f)
    (hreg : ∀ s ∈ w.systems, s.typ = T → s.ComponentFilter = f)
    (hempty : w.sysEntities T = [])
    (hpend : ∀ e ∈ w.newEntities, e ∈ w.entities) :
    w.updateEntSys.sysEntities T = w.entities.filter f ++ w.entities.filter f := by
  have hs₁ : s₁ ∈ w.newSystems ∧ s₁.typ = T := by
    have : s₁ ∈ w.newSystems.filter (fun s => decide (s.typ = T)) := by
      rw [hnew]
      exact List.mem_cons_self _ _
    simpa using this
  have hstep2 : w.newEntities.flatMap (fun ent =>
      (w.systems.filter (fun s => decide (s.typ = T)
        && (!(reconcile w).done s.typ && s.ComponentFilter ent))).map (fun _ => ent)) = [] := by
    rw [List.flatMap_eq_nil_iff]
    intro ent hent
    rw [List.map_eq_nil_iff, List.filter_eq_nil_iff]
    intro s hs hq
    simp only [Bool.and_eq_true, decide_eq_true_eq, Bool.not_eq_true'] at hq
    obtain ⟨hT, hdone, hacc⟩ := hq
    rw [hT, reconcile_done, List.any_eq_false] at hdone
    have h1 := hdone s₁ hs₁.1
    simp only [Bool.and_eq_true, decide_eq_true_eq, not_and, hs₁.2, true_implies, hf₁] at h1
    apply h1
    rw [List.any_eq_true]
    exact ⟨ent, hpend ent hent, by rw [← hreg s hs hT]; exact hacc⟩
  rw [updateEntSys_sysEntities, hnew, hempty, hstep2]
  simp [hf₁, hf₂]

/-- C16. The membership lists are kept by type, so two registrations of one
type share a list.  In a world reached from the empty world in which the
pending systems of the type of `s₁` are `s₁` and `s₂`, the only two systems of
that type and both with one filter, the entities have pairwise distinct
identities and every pending entity is still in the master list, `Update`
leaves under that type the filtered master list twice over, every accepted
entity occurring twice, and hands that list to each of the two systems. -/
theorem shared_list_doubled (sortFn : List System → List System) (hsort : Rearranges sortFn)
    (ops : List Op) (w : World) (hw : w = run sortFn emptyWorld ops) (dt : Nat)
    (s₁ s₂ : System) (hfil : s₂.ComponentFilter = s₁.ComponentFilter)
    (hnew : w.newSystems.filter (fun s => decide (s.typ = s₁.typ)) = [s₁, s₂])
    (hreg : (w.systems.filter (fun s => decide (s.typ = s₁.typ))).length = 2)
    (hent : (w.entities.map Identifier.ID).Nodup)
    (hpend : ∀ e ∈ w.newEntities, e ∈ w.entities) :
    (w.Update dt).1.sysEntities s₁.typ
        = w.entities.filter s₁.ComponentFilter ++ w.entities.filter s₁.ComponentFilter
      ∧ (∀ e ∈ w.entities, s₁.ComponentFilter e = true →
          ((w.Update dt).1.sysEntities s₁.typ).count e = 2)
      ∧ (∀ c ∈ (w.Update dt).2, c.system.typ = s₁.typ →
          c.entities
            = w.entities.filter s₁.ComponentFilter ++ w.entities.filter s₁.ComponentFilter)
      ∧ ((w.Update dt).2.filter (fun c => decide (c.system.typ = s₁.typ))).length = 2 := by
  have hinv : PendingInv w := hw ▸ pendingInv_run hsort ops
  have hperm : (w.newSystems.filter (fun s => decide (s.typ = s₁.typ))).Perm
      (w.systems.filter (fun s => decide (s.typ = s₁.typ))) := by
    apply (hinv.sub.filter _).perm_of_length_le
    rw [hreg, hnew]
    rfl
  have hregf : ∀ s ∈ w.systems, s.typ = s₁.typ → s.ComponentFilter = s₁.ComponentFilter := by
    intro s hs hT
    have hmem : s ∈ w.newSystems.filter (fun s => decide (s.typ = s₁.typ)) :=
      hperm.mem_iff.mpr (List.mem_filter.mpr ⟨hs, by simpa using hT⟩)
    rw [hnew] at hmem
    rcases List.mem_cons.mp hmem with h | h
    · rw [h]
    · have : s = s₂ := by simpa using h
      rw [this, hfil]
  have hempty : w.sysEntities s₁.typ = [] := by
    apply hinv.empty
    rw [List.countP_eq_length_filter, List.countP_eq_length_filter, hreg, hnew]
    rfl
  have hlist : (w.Update dt).1.sysEntities s₁.typ
      = w.entities.filter s₁.ComponentFilter ++ w.entities.filter s₁.ComponentFilter :=
    updateEntSys_twins w s₁.typ s₁.ComponentFilter s₁ s₂ hnew rfl hfil hregf hempty hpend
  refine ⟨hlist, ?_, ?_, ?_⟩
  · intro e he hacc
    have hnd : (w.entities.filter s₁.ComponentFilter).Nodup :=
      (List.Nodup.of_map Identifier.ID hent).filter _
    have hone := List.count_eq_one_of_mem hnd (List.mem_filter.mpr ⟨he, hacc⟩)
    rw [hlist, List.count_append, hone]
  · intro c hc hT
    rw [update_snd] at hc
    obtain ⟨s, _, rfl⟩ := List.mem_map.mp hc
    have hT2 : s.typ = s₁.typ := hT
    show w.updateEntSys.sysEntities s.typ = _
    rw [hT2]
    exact hlist
  · rw [update_snd, List.filter_map, List.length_map]
    exact hreg

/-- C16 at two registrations of `MySystemOne` after an earlier `Update`, with
three entities of which it accepts two. -/
theorem shared_list_doubled_witness :
    Rearranges sortSystems
      ∧ twinWorld = run sortSystems emptyWorld twinOps
      ∧ MySystemOne.ComponentFilter = MySystemOne.ComponentFilter
      ∧ twinWorld.newSystems.filter (fun s => decide (s.typ = MySystemOne.typ))
          = [MySystemOne, MySystemOne]
      ∧ (twinWorld.systems.filter (fun s => decide (s.typ = MySystemOne.typ))).length = 2
      ∧ (twinWorld.entities.map Identifier.ID).Nodup
      ∧ (∀ e ∈ twinWorld.newEntities, e ∈ twinWorld.entities)
      ∧ ((twinWorld.Update 0).1.sysEntities MySystemOne.typ
            = twinWorld.entities.filter MySystemOne.ComponentFilter
              ++ twinWorld.entities.filter MySystemOne.ComponentFilter
        ∧ (∀ e ∈ twinWorld.entities, MySystemOne.ComponentFilter e = true →
            ((twinWorld.Update 0).1.sysEntities MySystemOne.typ).count e = 2)
        ∧ (∀ c ∈ (twinWorld.Update 0).2, c.system.typ = MySystemOne.typ →
            c.entities
              = twinWorld.entities.filter MySystemOne.ComponentFilter
                ++ twinWorld.entities.filter MySystemOne.ComponentFilter)
        ∧ ((twinWorld.Update 0).2.filter
            (fun c => decide (c.system.typ = MySystemOne.typ))).length = 2) :=
  ⟨sortSystems_perm, rfl, rfl, rfl, by decide, by decide, by decide,
    shared_list_doubled sortSystems sortSystems_perm twinOps twinWorld rfl 0
      MySystemOne MySystemOne rfl rfl (by decide) (by decide) (by decide)⟩

/-- In that world the two calls of `MySystemOne` get the identities 1 and 2
twice, and `MySystemTwo` gets its own list once. -/
theorem twin_calls :
    (twinWorld.Update 0).2.map (fun c => (c.system.typ, c.entities.map Identifier.ID))
      = [(2, [2, 3]), (1, [1, 2, 1, 2]), (1, [1, 2, 1, 2])] := by
  decide

end Ecs
